import Mathlib

/-!
# GasGuardian: the native Solidity analyser (`src/native/parser.cpp`)

A shallow embedding of `SolidityParser::ParseContractSource` and theorems about it.

* A `std::string` is a `List Char`, one list element per `char` of the string; offsets and
  lengths are positions in that list.
* `std::regex` (ECMAScript grammar) is embedded as a small backtracking matcher, `Regex.run`,
  over a syntax tree; every pattern of the program is written out as such a tree, piece by piece
  in the order of its text.
* `std::sregex_iterator` is the left-to-right scan `regexIterate`, `std::regex_search` is its
  first result.
* `uint32_t` values are natural numbers reduced modulo `2 ^ 32`.
* `std::string::substr` fails when its start offset lies beyond the end of the string, so the
  analysis as a whole returns an `Option`.
-/

namespace GasGuardian

/-! ## Characters -/

/-- The class `\w` of `std::regex` in the classic locale: ASCII letters, digits and `_`. -/
def isWordChar (c : Char) : Bool :=
  (97 ≤ c.toNat && c.toNat ≤ 122) || (65 ≤ c.toNat && c.toNat ≤ 90) ||
    (48 ≤ c.toNat && c.toNat ≤ 57) || c.toNat == 95

/-- The class `\s` of `std::regex` in the classic locale: space, `\t`, `\n`, `\v`, `\f`, `\r`. -/
def isSpaceChar (c : Char) : Bool :=
  c.toNat == 32 || (9 ≤ c.toNat && c.toNat ≤ 13)

/-- The wildcard `.` of the ECMAScript grammar: any character but `\n` and `\r`. -/
def isDotChar (c : Char) : Bool :=
  !(c.toNat == 10 || c.toNat == 13)

/-! ## The regular-expression matcher -/

/-- Syntax of the regular expressions the program uses. -/
inductive Regex where
  /-- The empty pattern. -/
  | eps : Regex
  /-- One literal character. -/
  | chr : Char → Regex
  /-- One character of a class, given by its membership test. -/
  | cls : (Char → Bool) → Regex
  /-- Concatenation. -/
  | seq : Regex → Regex → Regex
  /-- Alternation `a|b`: `a` is preferred. -/
  | alt : Regex → Regex → Regex
  /-- Greedy repetition `r*`. -/
  | star : Regex → Regex
  /-- Lazy repetition `r*?`. -/
  | lazyStar : Regex → Regex
  /-- Capturing group number `i`. -/
  | group : Nat → Regex → Regex
  /-- The assertion `\b`. -/
  | wordBoundary : Regex

/-- State of a match attempt: the character just before the current position (if any), the
text from the current position on, and the sub-matches captured so far (latest first). -/
structure MState where
  prev : Option Char
  rest : List Char
  caps : List (Nat × List Char)

/-- Whether the character before the current position is a word character. -/
def MState.leftIsWord (s : MState) : Bool :=
  match s.prev with
  | some c => isWordChar c
  | none => false

/-- Whether the character at the current position is a word character. -/
def MState.rightIsWord (s : MState) : Bool :=
  match s.rest with
  | c :: _ => isWordChar c
  | [] => false

/-- Consume the character at the current position when it passes the test `p`. -/
def MState.eat (p : Char → Bool) (s : MState) (k : MState → Option MState) : Option MState :=
  match s.rest with
  | c :: cs => if p c then k { prev := some c, rest := cs, caps := s.caps } else none
  | [] => none

/-- Greedy repetition: try one more round of `step` (which has to consume something) and the
rest of the loop, and only if that fails go on with the continuation.  `fuel` bounds the number
of rounds; as every round consumes a character, the length of the text suffices
(`starLoop_fuel`). -/
def starLoop (step : MState → (MState → Option MState) → Option MState) :
    Nat → MState → (MState → Option MState) → Option MState
  | 0, s, k => k s
  | fuel + 1, s, k =>
    match step s (fun s' =>
        if s'.rest.length < s.rest.length then starLoop step fuel s' k else none) with
    | some r => some r
    | none => k s

/-- Lazy repetition: try the continuation first, and only if that fails one more round. -/
def lazyLoop (step : MState → (MState → Option MState) → Option MState) :
    Nat → MState → (MState → Option MState) → Option MState
  | 0, s, k => k s
  | fuel + 1, s, k =>
    match k s with
    | some r => some r
    | none => step s (fun s' =>
        if s'.rest.length < s.rest.length then lazyLoop step fuel s' k else none)

/-- The backtracking matcher: `r.run s k` matches `r` at state `s` and hands the state after
the match to the continuation `k`; when `k` fails the next way of matching `r` is tried, in
the priority order of the ECMAScript grammar. -/
def Regex.run : Regex → MState → (MState → Option MState) → Option MState
  | .eps, s, k => k s
  | .chr c, s, k => s.eat (fun x => x == c) k
  | .cls p, s, k => s.eat p k
  | .seq a b, s, k => a.run s (fun s' => b.run s' k)
  | .alt a b, s, k =>
    match a.run s k with
    | some r => some r
    | none => b.run s k
  | .star r, s, k => starLoop (fun s' k' => r.run s' k') s.rest.length s k
  | .lazyStar r, s, k => lazyLoop (fun s' k' => r.run s' k') s.rest.length s k
  | .group i r, s, k =>
    r.run s (fun s' =>
      k { s' with caps := (i, s.rest.take (s.rest.length - s'.rest.length)) :: s'.caps })
  | .wordBoundary, s, k => if s.leftIsWord != s.rightIsWord then k s else none

/-- The pattern `r+`. -/
def Regex.plus (r : Regex) : Regex := .seq r (.star r)

/-- The pattern `(?:r)?`. -/
def Regex.opt (r : Regex) : Regex := .alt r .eps

/-- A literal text. -/
def Regex.lit : List Char → Regex
  | [] => .eps
  | [c] => .chr c
  | c :: cs => .seq (.chr c) (Regex.lit cs)

/-- Concatenation of the pieces of a pattern, in order. -/
def Regex.cat : List Regex → Regex
  | [] => .eps
  | [r] => r
  | r :: rs => .seq r (Regex.cat rs)

/-- Alternation of several patterns, the earlier ones preferred. -/
def Regex.oneOf : List Regex → Regex
  | [] => .eps
  | [r] => r
  | r :: rs => .alt r (Regex.oneOf rs)

/-- The pattern `\w`. -/
def Regex.w : Regex := .cls isWordChar

/-- The pattern `\s`. -/
def Regex.s : Regex := .cls isSpaceChar

/-- Whether every match of a pattern consumes at least one character, read off its syntax. -/
def Regex.consumes : Regex → Bool
  | .eps => false
  | .chr _ => true
  | .cls _ => true
  | .seq a b => a.consumes || b.consumes
  | .alt a b => a.consumes && b.consumes
  | .star _ => false
  | .lazyStar _ => false
  | .group _ r => r.consumes
  | .wordBoundary => false

/-- A `std::smatch`: offset and length of the whole match and the captured sub-matches. -/
structure Match where
  position : Nat
  length : Nat
  caps : List (Nat × List Char)
  deriving DecidableEq

/-- Text of sub-match `i`, the empty text when the group did not take part in the match. -/
def Match.sub (m : Match) (i : Nat) : List Char :=
  match m.caps.find? (fun p => p.1 == i) with
  | some p => p.2
  | none => []

/-- One match attempt of `re` at the current position: the length matched and the captures. -/
def matchHere (re : Regex) (prev : Option Char) (rest : List Char) :
    Option (Nat × List (Nat × List Char)) :=
  match re.run { prev := prev, rest := rest, caps := [] } some with
  | some s => some (rest.length - s.rest.length, s.caps)
  | none => none

/-- The scan behind `std::sregex_iterator`: the positions are visited from left to right; at a
position inside the previous match (`skip > 0`) nothing is tried, at any other the pattern is
tried and a match is recorded.  No pattern of the program matches the empty text
(`program_patterns_consume`), so the iterator's special treatment of empty matches is not
modelled. -/
def regexScan (re : Regex) : Option Char → List Char → Nat → Nat → List Match
  | _, [], _, _ => []
  | prev, c :: cs, pos, skip =>
    if 0 < skip then regexScan re (some c) cs (pos + 1) (skip - 1)
    else
      match matchHere re prev (c :: cs) with
      | some (len, caps) =>
        { position := pos, length := len, caps := caps } ::
          regexScan re (some c) cs (pos + 1) (len - 1)
      | none => regexScan re (some c) cs (pos + 1) 0

/-- All matches of `re` in `text`, as `std::sregex_iterator` enumerates them. -/
def regexIterate (re : Regex) (text : List Char) : List Match :=
  regexScan re none text 0 0

/-- The first match of `re` in `text`, if any, as `std::regex_search` finds it. -/
def regexSearch (re : Regex) (text : List Char) : Option Match :=
  (regexIterate re text).head?

/-! ## The patterns of the program -/

/-- The class `[^)]`. -/
def notCloseParen (c : Char) : Bool := !(c == ')')

/-- The class `[\[\.]`. -/
def isBracketOrDot (c : Char) : Bool := c == '[' || c == '.'

/-- The class `[^=!<>]`. -/
def notComparisonChar (c : Char) : Bool := !(c == '=' || c == '!' || c == '<' || c == '>')

/-- The pattern `contract\s+(\w+)` of line 32. -/
def contract_regex : Regex :=
  .cat [.lit "contract".toList, .plus .s, .group 1 (.plus .w)]

/-- The pattern of a function signature, of line 42 (one line in the source):
`function\s+(\w+)\s*\(([^)]*)\)\s*(?:(public|private|internal|external))?\s*`
`(?:(pure|view|payable|nonpayable))?\s*(?:returns\s*\(([^)]*)\))?\s*\{` -/
def function_regex : Regex :=
  .cat [.lit "function".toList, .plus .s, .group 1 (.plus .w), .star .s,
    .chr '(', .group 2 (.star (.cls notCloseParen)), .chr ')', .star .s,
    .opt (.group 3 (.oneOf [.lit "public".toList, .lit "private".toList,
      .lit "internal".toList, .lit "external".toList])), .star .s,
    .opt (.group 4 (.oneOf [.lit "pure".toList, .lit "view".toList,
      .lit "payable".toList, .lit "nonpayable".toList])), .star .s,
    .opt (.cat [.lit "returns".toList, .star .s, .chr '(',
      .group 5 (.star (.cls notCloseParen)), .chr ')']), .star .s,
    .chr '{']

/-- The pattern `\s*(\w+(?:\[\])?)\s+(\w+)` of line 85. -/
def param_regex : Regex :=
  .cat [.star .s, .group 1 (.seq (.plus .w) (.opt (.lit "[]".toList))), .plus .s,
    .group 2 (.plus .w)]

/-- The pattern `\s*(\w+(?:\[\])?)` of line 102. -/
def return_regex : Regex :=
  .cat [.star .s, .group 1 (.seq (.plus .w) (.opt (.lit "[]".toList)))]

/-- The pattern `\b(for|while)\s*\(` of line 115. -/
def loop_regex : Regex :=
  .cat [.wordBoundary, .group 1 (.alt (.lit "for".toList) (.lit "while".toList)), .star .s,
    .chr '(']

/-- The pattern `\w+\s*[\[\.].*?\]\s*=|\w+\s*=\s*[^=!<>]` of line 125. -/
def storage_regex : Regex :=
  .alt
    (.cat [.plus .w, .star .s, .cls isBracketOrDot, .lazyStar (.cls isDotChar), .chr ']',
      .star .s, .chr '='])
    (.cat [.plus .w, .star .s, .chr '=', .star .s, .cls notComparisonChar])

/-- The pattern `require\s*\(` of line 150. -/
def require_regex : Regex :=
  .cat [.lit "require".toList, .star .s, .chr '(']

/-- The pattern `\w+\.call\(|\w+\.delegatecall\(|\w+\.staticcall\(` of line 167. -/
def external_call_regex : Regex :=
  .oneOf [.seq (.plus .w) (.lit ".call(".toList), .seq (.plus .w) (.lit ".delegatecall(".toList),
    .seq (.plus .w) (.lit ".staticcall(".toList)]

/-- The pattern `\w+\.length|\w+\.push\(|\w+\.pop\(\)` of line 177. -/
def array_regex : Regex :=
  .oneOf [.seq (.plus .w) (.lit ".length".toList), .seq (.plus .w) (.lit ".push(".toList),
    .seq (.plus .w) (.lit ".pop()".toList)]

/-- The pattern `string\s*\(\s*|\babi\.encode|\babi\.encodePacked` of line 187. -/
def string_regex : Regex :=
  .oneOf [.cat [.lit "string".toList, .star .s, .chr '(', .star .s],
    .seq .wordBoundary (.lit "abi.encode".toList),
    .seq .wordBoundary (.lit "abi.encodePacked".toList)]

/-- The pattern of line 207:
`\s*(uint256|uint|address|bool|string|mapping)\s+(?:public\s+|private\s+|internal\s+)?(\w+)` -/
def state_var_regex : Regex :=
  .cat [.star .s,
    .group 1 (.oneOf [.lit "uint256".toList, .lit "uint".toList, .lit "address".toList,
      .lit "bool".toList, .lit "string".toList, .lit "mapping".toList]),
    .plus .s,
    .opt (.oneOf [.seq (.lit "public".toList) (.plus .s), .seq (.lit "private".toList) (.plus .s),
      .seq (.lit "internal".toList) (.plus .s)]),
    .group 2 (.plus .w)]

/-- The pattern `event\s+(\w+)\s*\(` of line 218. -/
def event_regex : Regex :=
  .cat [.lit "event".toList, .plus .s, .group 1 (.plus .w), .star .s, .chr '(']

/-! ## The report -/

/-- A value of type `uint32_t`. -/
def u32 (n : Nat) : Nat := n % 2 ^ 32

/-- A parameter of a function: `{ type, name }`. -/
structure Parameter where
  type : List Char
  name : List Char
  deriving DecidableEq

/-- A finding of the pattern detector: `{ type, description, estimatedGas, suggestion }`. -/
structure PatternFinding where
  type : String
  description : String
  estimatedGas : Nat
  suggestion : String
  deriving DecidableEq

/-- The record of one function. -/
structure FunctionInfo where
  name : List Char
  visibility : List Char
  stateMutability : List Char
  startLine : Nat
  sourceCode : List Char
  parameters : List Parameter
  returnTypes : List (List Char)
  patterns : List PatternFinding
  complexityScore : Nat
  deriving DecidableEq

/-- The result of the analysis. -/
structure ContractReport where
  name : List Char
  functions : List FunctionInfo
  totalLines : Nat
  stateVariables : List (List Char)
  events : List (List Char)
  deriving DecidableEq

/-! ## The analysis -/

/-- The call `s.substr(pos, n)`: it fails (`std::out_of_range`) when `pos` is beyond the end
of `s`. -/
def substr (s : List Char) (pos n : Nat) : Option (List Char) :=
  if pos ≤ s.length then some ((s.drop pos).take n) else none

/-- The test `hay.find(needle) != std::string::npos`. -/
def containsText (needle : List Char) : List Char → Bool
  | [] => needle.isPrefixOf []
  | c :: cs => needle.isPrefixOf (c :: cs) || containsText needle cs

/-- The loop `while (end_pos < source.length() && brace_count > 0)` of the span resolver.
The first argument is the text from offset `end_pos` on, so its head is `source[end_pos]`; the
result is the final value of `end_pos`.  `brace_count` (a `size_t`) is decremented only when it
is positive and incremented at most once per character, so it never wraps. -/
def braceLoop : List Char → Nat → Nat → Nat
  | [], _, end_pos => end_pos
  | c :: cs, brace_count, end_pos =>
    if 0 < brace_count then
      braceLoop cs
        (if c == '{' then brace_count + 1 else if c == '}' then brace_count - 1 else brace_count)
        (end_pos + 1)
    else end_pos

/-- The source text of the function whose signature is the match `m` (lines 60 to 80).  A
match of the signature pattern has at least one character, so `brace_pos` does not wrap. -/
def functionSourceCode (source : List Char) (m : Match) : Option (List Char) :=
  let start_pos := m.position
  let brace_pos := m.position + m.length - 1
  let end_pos := braceLoop (source.drop (brace_pos + 1)) 1 (brace_pos + 1)
  if end_pos ≤ source.length then substr source start_pos (end_pos - start_pos)
  else substr source start_pos (min 1000 (source.length - start_pos))

/-- The parameters of a function, from the text between the parentheses (lines 82 to 97). -/
def extractParameters (paramsStr : List Char) : List Parameter :=
  if paramsStr.isEmpty then []
  else (regexIterate param_regex paramsStr).map fun m => { type := m.sub 1, name := m.sub 2 }

/-- The return types of a function, from the text of its `returns` clause (lines 99 to 111). -/
def extractReturnTypes (returnsStr : List Char) : List (List Char) :=
  if returnsStr.isEmpty then []
  else (regexIterate return_regex returnsStr).map fun m => m.sub 1

/-- The text `(*storage_iter).str()` of a match in `text`. -/
def Match.str (m : Match) (text : List Char) : List Char :=
  (text.drop m.position).take m.length

/-- The test of lines 132 to 136 on the text of a match of `storage_regex`. -/
def isStorageWrite (matched : List Char) : Bool :=
  !containsText "==".toList matched && !containsText "!=".toList matched &&
    !containsText "require".toList matched && !containsText "<=".toList matched &&
    !containsText ">=".toList matched

/-- The counter `storageCount` after the loop of lines 130 to 139. -/
def storageCount (code : List Char) : Nat :=
  u32 (((regexIterate storage_regex code).filter fun m => isStorageWrite (m.str code)).length)

/-- The counter `requireCount` after the loop of lines 154 to 156. -/
def requireCount (code : List Char) : Nat :=
  u32 (regexIterate require_regex code).length

/-- The finding of the loop rule. -/
def loopFinding : PatternFinding :=
  { type := "loop", description := "Loop detected - gas scales with iterations",
    estimatedGas := 5000,
    suggestion := "Consider using unchecked arithmetic for counters and caching array length" }

/-- The finding of the storage rule. -/
def storageFinding (count : Nat) : PatternFinding :=
  { type := "storage_write", description := "Storage write operations detected",
    estimatedGas := u32 (count * 20000),
    suggestion :=
      "Consider batching storage operations or using memory for intermediate calculations" }

/-- The finding of the validation rule. -/
def validationFinding (count : Nat) : PatternFinding :=
  { type := "validation", description := "Input validation detected",
    estimatedGas := u32 (count * 500),
    suggestion := "Consider custom errors instead of require with strings" }

/-- The finding of the external-call rule. -/
def externalCallFinding : PatternFinding :=
  { type := "external_call", description := "External call detected", estimatedGas := 2300,
    suggestion := "Ensure proper gas estimation and consider reentrancy protection" }

/-- The finding of the array rule. -/
def arrayFinding : PatternFinding :=
  { type := "array_operation", description := "Array operations detected", estimatedGas := 1000,
    suggestion := "Cache array length in loops and consider gas costs of dynamic arrays" }

/-- The finding of the string rule. -/
def stringFinding : PatternFinding :=
  { type := "string_operation", description := "String operations detected",
    estimatedGas := 2000,
    suggestion :=
      "String operations are expensive; consider using bytes32 for fixed-length strings" }

/-- The findings of the six rules on the source text of a function, each appended to the array
`patterns` in the order of the rules (lines 113 to 197). -/
def detectPatterns (code : List Char) : List PatternFinding :=
  (if (regexSearch loop_regex code).isSome then [loopFinding] else []) ++
  (if 0 < storageCount code then [storageFinding (storageCount code)] else []) ++
  (if 0 < requireCount code then [validationFinding (requireCount code)] else []) ++
  (if (regexSearch external_call_regex code).isSome then [externalCallFinding] else []) ++
  (if (regexSearch array_regex code).isSome then [arrayFinding] else []) ++
  (if (regexSearch string_regex code).isSome then [stringFinding] else [])

/-- The record `func` built in one round of the loop over the signatures (lines 49 to 201). -/
def analyzeFunction (source : List Char) (m : Match) : Option FunctionInfo :=
  match functionSourceCode source m with
  | none => none
  | some code =>
    let patterns := detectPatterns code
    some {
      name := m.sub 1
      visibility := if (m.sub 3).isEmpty then "public".toList else m.sub 3
      stateMutability := if (m.sub 4).isEmpty then "nonpayable".toList else m.sub 4
      startLine := u32 ((source.take m.position).count '\n' + 1)
      sourceCode := code
      parameters := extractParameters (m.sub 2)
      returnTypes := extractReturnTypes (m.sub 5)
      patterns := patterns
      complexityScore := u32 (1 + u32 patterns.length * 2) }

/-- The signatures found in the source, in the order of the iterator (line 45). -/
def functionMatches (source : List Char) : List Match :=
  regexIterate function_regex source

/-- The analysis `SolidityParser::ParseContractSource`; `none` stands for an exception. -/
def ParseContractSource (source : List Char) : Option ContractReport :=
  let contractName :=
    match regexSearch contract_regex source with
    | some m => m.sub 1
    | none => "Unknown".toList
  match (functionMatches source).mapM (analyzeFunction source) with
  | none => none
  | some functions =>
    some {
      name := contractName
      functions := functions
      totalLines := u32 (source.count '\n' + 1)
      stateVariables := (regexIterate state_var_regex source).map fun m => m.sub 2
      events := (regexIterate event_regex source).map fun m => m.sub 1 }

/-! ## Notions of the specification -/

/-- Depth of the braces after the first `i` characters of `body`, the text that follows the
opening brace of a function: it starts at 1, each `{` adds one and each `}` takes one away. -/
def braceDepth (body : List Char) (i : Nat) : Int :=
  1 + ((body.take i).count '{' : Int) - ((body.take i).count '}' : Int)

/-- The body is closed by its `n`-th character: the depth reaches 0 there for the first time. -/
def ClosesAt (body : List Char) (n : Nat) : Prop :=
  n ≤ body.length ∧ braceDepth body n = 0 ∧ ∀ i, i < n → 0 < braceDepth body i

/-- The body is never closed: the depth stays positive up to the end of the source. -/
def NeverCloses (body : List Char) : Prop :=
  ∀ i, 0 < braceDepth body i

/-- The kinds of findings in the order in which the rules are evaluated. -/
def ruleOrder : List String :=
  ["loop", "storage_write", "validation", "external_call", "array_operation",
    "string_operation"]

instance (body : List Char) (n : Nat) : Decidable (ClosesAt body n) := by
  unfold ClosesAt; infer_instance

/-! ## Sources used as examples -/

/-- Scenario A of the specification: `contract Foo { function bar() public { x = 1; } }` -/
def scenarioA : List Char :=
  "contract Foo \x7b function bar() public \x7b x = 1; \x7d \x7d".toList

/-- A contract of four lines with the empty functions `f` on line 2 and `g` on line 3. -/
def twoFunctions : List Char :=
  "contract C \x7b\n function f() \x7b\x7d\n function g() \x7b\x7d\n\x7d".toList

/-- A truncated source: `function f() {` followed by 1000 blanks and no closing brace. -/
def unclosedSource : List Char :=
  "function f() \x7b".toList ++ List.replicate 1000 ' '

/-- Scenario B of the specification:
`contract C { function f() { for (uint i=0;i<10;i++) { y.push(i); } } }` -/
def scenarioB : List Char :=
  "contract C \x7b function f() \x7b for (uint i=0;i<10;i++) \x7b y.push(i); \x7d \x7d \x7d".toList

/-- Scenario E of the specification:
`contract C { function f(uint x) public { require(x > 0); balance[msg.sender] = x; } }` -/
def scenarioE : List Char :=
  "contract C \x7b function f(uint x) public \x7b require(x > 0); balance[msg.sender] = x; \x7d \x7d".toList

/-- Scenario E with an array parameter:
`contract C { function f(uint[] a) public { require(x > 0); balance[msg.sender] = x; } }` -/
def scenarioEArray : List Char :=
  "contract C \x7b function f(uint[] a) public \x7b require(x > 0); balance[msg.sender] = x; \x7d \x7d".toList

/-- The part of a function record that the scenarios speak of: name, visibility, mutability,
source text, the kind and estimated gas of each finding, and the complexity score. -/
structure FunctionSummary where
  name : List Char
  visibility : List Char
  stateMutability : List Char
  sourceCode : List Char
  findings : List (String × Nat)
  complexityScore : Nat
  deriving DecidableEq

/-- The summary of a function record. -/
def FunctionInfo.summary (f : FunctionInfo) : FunctionSummary :=
  { name := f.name, visibility := f.visibility, stateMutability := f.stateMutability,
    sourceCode := f.sourceCode,
    findings := f.patterns.map fun p => (p.type, p.estimatedGas),
    complexityScore := f.complexityScore }

/-- The name of the contract and the summaries of the functions of a report. -/
def ContractReport.summary (r : ContractReport) : List Char × List FunctionSummary :=
  (r.name, r.functions.map FunctionInfo.summary)

/-- Length of an occurrence of `require`, optional white space and `(` at the very start of
`text`, if there is one. -/
def requireCallAt (text : List Char) : Option Nat :=
  if "require".toList.isPrefixOf text then
    match (text.drop 7).dropWhile isSpaceChar with
    | c :: _ => if c = '(' then some (7 + ((text.drop 7).takeWhile isSpaceChar).length + 1) else none
    | [] => none
  else none

/-- Number of occurrences of `require`, optional white space and `(` in a text, counted from
left to right without overlap; `skip` is the number of characters at the start of the text that
belong to the occurrence counted last. -/
def countRequireCalls : List Char → Nat → Nat
  | [], _ => 0
  | _ :: cs, skip + 1 => countRequireCalls cs skip
  | c :: cs, 0 =>
    match requireCallAt (c :: cs) with
    | some len => 1 + countRequireCalls cs (len - 1)
    | none => countRequireCalls cs 0

/-- The text `unit` written `k` times in a row. -/
def repeatText (unit : List Char) : Nat → List Char
  | 0 => []
  | k + 1 => unit ++ repeatText unit k

/-- The function `function f() {`, `k` times the statement `unit`, `}`. -/
def floodSource (unit : List Char) (k : Nat) : List Char :=
  "function f() \x7b".toList ++ (repeatText unit k ++ ['}'])

/-- A function with 8589935 statements `require(x);` (a source of about 90 MB). -/
def requireFlood : List Char := floodSource "require(x);".toList 8589935

/-- Number of matches of `re` in a text, from left to right without overlap, whose matched
text passes the test `ok`; `skip` is the number of characters at the start of the text that
belong to the match found last. -/
def countMatches (re : Regex) (ok : List Char → Bool) : Option Char → List Char → Nat → Nat
  | _, [], _ => 0
  | _, c :: cs, skip + 1 => countMatches re ok (some c) cs skip
  | prev, c :: cs, 0 =>
    match matchHere re prev (c :: cs) with
    | some (len, _) =>
      (if ok ((c :: cs).take len) then 1 else 0) + countMatches re ok (some c) cs (len - 1)
    | none => countMatches re ok (some c) cs 0

/-- The body of the function of Scenario E, from the character after the opening brace to the
closing brace: ` require(x > 0); balance[msg.sender] = x; }` -/
def scenarioEBody : List Char :=
  " require(x > 0); balance[msg.sender] = x; \x7d".toList

/-- The text before the brace `{` that is followed by `t` holds none of `[`, `.`, `=`. -/
def PlainUpToBrace (t : List Char) (s : MState) : Prop :=
  ∃ u, s.rest = u ++ '{' :: t ∧ ∀ c, c ∈ u → c ≠ '[' ∧ c ≠ '.' ∧ c ≠ '='

/-- The texts a pattern matches, with the sub-matches a match records (latest first), read off
the syntax of the pattern: `r.Derives w c` says that `r` can match the text `w` and then
records the sub-matches `c`.  The assertion `\b` matches the empty text; the condition it puts
on the neighbouring characters is not part of this relation. -/
def Regex.Derives : Regex → List Char → List (Nat × List Char) → Prop
  | .eps, w, c => w = [] ∧ c = []
  | .chr x, w, c => w = [x] ∧ c = []
  | .cls p, w, c => ∃ x, p x = true ∧ w = [x] ∧ c = []
  | .seq a b, w, c =>
    ∃ w1 w2 c1 c2, a.Derives w1 c1 ∧ b.Derives w2 c2 ∧ w = w1 ++ w2 ∧ c = c2 ++ c1
  | .alt a b, w, c => a.Derives w c ∨ b.Derives w c
  | .star r, w, c =>
    ∃ parts : List (List Char × List (Nat × List Char)),
      (∀ p, p ∈ parts → r.Derives p.1 p.2) ∧ w = (parts.map Prod.fst).flatten ∧
        c = (parts.reverse.map Prod.snd).flatten
  | .lazyStar r, w, c =>
    ∃ parts : List (List Char × List (Nat × List Char)),
      (∀ p, p ∈ parts → r.Derives p.1 p.2) ∧ w = (parts.map Prod.fst).flatten ∧
        c = (parts.reverse.map Prod.snd).flatten
  | .group i r, w, c => ∃ c', r.Derives w c' ∧ c = (i, w) :: c'
  | .wordBoundary, w, c => w = [] ∧ c = []

/-- The visibility keywords of a signature, in the order in which line 42 lists them. -/
def visibilityKeywords : List (List Char) :=
  ["public".toList, "private".toList, "internal".toList, "external".toList]

/-- The mutability keywords of a signature, in the order in which line 42 lists them. -/
def mutabilityKeywords : List (List Char) :=
  ["pure".toList, "view".toList, "payable".toList, "nonpayable".toList]

/-- The first keyword of a list that a text starts with, if there is one. -/
def keywordAt (keywords : List (List Char)) (t : List Char) : Option (List Char) :=
  keywords.find? (fun k => k.isPrefixOf t)

/-- The text of a signature after the first `)`, which ends its parameter list, and the blanks
that follow it. -/
def afterParameters (sig : List Char) : List Char :=
  ((sig.dropWhile (fun c => c != ')')).drop 1).dropWhile isSpaceChar

/-- The visibility keyword written in a signature: the one that follows its parameter list. -/
def visibilityOf (sig : List Char) : Option (List Char) :=
  keywordAt visibilityKeywords (afterParameters sig)

/-- The text of a signature after its parameter list, its visibility keyword if it has one, and
the blanks that follow. -/
def afterVisibility (sig : List Char) : List Char :=
  ((afterParameters sig).drop ((visibilityOf sig).getD []).length).dropWhile isSpaceChar

/-- The mutability keyword written in a signature: the one that follows its parameter list and
its visibility keyword. -/
def mutabilityOf (sig : List Char) : Option (List Char) :=
  keywordAt mutabilityKeywords (afterVisibility sig)

/-- What one successful run of a pattern at a state does, in terms of `Regex.Derives`. -/
def Regex.Sound (r : Regex) : Prop :=
  ∀ (s : MState) (k : MState → Option MState) (res : MState), r.run s k = some res →
    ∃ s' w c, r.Derives w c ∧ s.rest = w ++ s'.rest ∧ s'.caps = c ++ s.caps ∧ k s' = some res

/-- Whether a run of characters of the class `p` cannot go on into the text `t`: the text is
empty or starts with a character outside the class. -/
def stopsAt (p : Char → Bool) : List Char → Bool
  | [] => true
  | c :: _ => !p c

/-- The first choice of a pattern: `r.Takes w c R` says that at a text that starts with `w` and
goes on with `R`, the pattern `r` first tries to match `w`, recording the sub-matches `c`, so
that this is the match found whenever the rest of the pattern succeeds from there. -/
def Regex.Takes (r : Regex) (w : List Char) (c : List (Nat × List Char)) (R : List Char) :
    Prop :=
  ∀ (k : MState → Option MState) (caps : List (Nat × List Char)),
    (∀ prev', (k { prev := prev', rest := R, caps := c ++ caps }).isSome = true) →
      ∀ prev, ∃ prev', r.run { prev := prev, rest := w ++ R, caps := caps } k =
        k { prev := prev', rest := R, caps := c ++ caps }

/-- A pattern that cannot match at the start of the text `t`. -/
def Regex.Fails (r : Regex) (t : List Char) : Prop :=
  ∀ (prev : Option Char) (caps : List (Nat × List Char)) (k : MState → Option MState),
    r.run { prev := prev, rest := t, caps := caps } k = none

/-- A contract declaration at the start of a text: the keyword `contract`, at least one blank,
and an identifier, which is the longest run of word characters there.  The result is the
identifier. -/
def contractDeclAt (t : List Char) : Option (List Char) :=
  if "contract".toList.isPrefixOf t then
    let blanks := (t.drop 8).takeWhile isSpaceChar
    let name := ((t.drop 8).dropWhile isSpaceChar).takeWhile isWordChar
    if !blanks.isEmpty && !name.isEmpty then some name else none
  else none

/-- The identifier of the leftmost contract declaration of a text, if there is one. -/
def firstContractName : List Char → Option (List Char)
  | [] => none
  | c :: cs =>
    match contractDeclAt (c :: cs) with
    | some n => some n
    | none => firstContractName cs

/-- The pieces of a list written one after the other with a comma between them. -/
def commaSeparated : List (List Char) → List Char
  | [] => []
  | [x] => x
  | x :: y :: rest => x ++ ',' :: commaSeparated (y :: rest)

/-- A parameter declaration as it is written in a parameter list: blanks, a type (an identifier
`base`, with the suffix `[]` when `array` is set), blanks, a second word `name`, possibly
further blanks and a third word, and blanks. -/
structure ParamDecl where
  lead : List Char
  base : List Char
  array : Bool
  gap : List Char
  name : List Char
  gap2 : List Char
  third : List Char
  trail : List Char
  deriving DecidableEq

/-- The type of a declaration as written. -/
def ParamDecl.type (d : ParamDecl) : List Char :=
  d.base ++ (if d.array then "[]".toList else [])

/-- The text of a declaration. -/
def ParamDecl.text (d : ParamDecl) : List Char :=
  d.lead ++ d.type ++ d.gap ++ d.name ++ d.gap2 ++ d.third ++ d.trail

/-- Whether the pieces of a declaration are what their names say: the blanks are white space,
the words are non-empty runs of word characters (the third word may be missing), and the words
are separated by at least one blank. -/
def ParamDecl.wf (d : ParamDecl) : Bool :=
  d.lead.all isSpaceChar && !d.base.isEmpty && d.base.all isWordChar &&
    !d.gap.isEmpty && d.gap.all isSpaceChar && !d.name.isEmpty && d.name.all isWordChar &&
    d.gap2.all isSpaceChar && d.third.all isWordChar && (d.third.isEmpty || !d.gap2.isEmpty) &&
    d.trail.all isSpaceChar

/-- A declaration `T n` of a type and a name, with nothing after the name but blanks. -/
def ParamDecl.plain (d : ParamDecl) : Bool :=
  d.wf && d.gap2.isEmpty && d.third.isEmpty

/-- The storage-location keywords. -/
def locationKeywords : List (List Char) :=
  ["memory".toList, "storage".toList, "calldata".toList]

/-- A declaration `T loc n` of a type, a storage-location keyword and a name. -/
def ParamDecl.located (d : ParamDecl) : Bool :=
  d.wf && locationKeywords.contains d.name && !d.third.isEmpty

/-- The text of a signature between its first `(` and the next `)`: its parameter list. -/
def parameterListOf (sig : List Char) : List Char :=
  ((sig.dropWhile (fun c => c != '(')).drop 1).takeWhile (fun c => c != ')')

/-- A type token as it is written in a `returns` clause: blanks, an identifier `base`, with the
suffix `[]` when `array` is set, and blanks. -/
structure TypeToken where
  lead : List Char
  base : List Char
  array : Bool
  trail : List Char
  deriving DecidableEq

/-- The type named by a token. -/
def TypeToken.type (d : TypeToken) : List Char :=
  d.base ++ (if d.array then "[]".toList else [])

/-- The text of a token. -/
def TypeToken.text (d : TypeToken) : List Char :=
  d.lead ++ d.type ++ d.trail

/-- Whether the pieces of a token are what their names say. -/
def TypeToken.wf (d : TypeToken) : Bool :=
  d.lead.all isSpaceChar && !d.base.isEmpty && d.base.all isWordChar &&
    d.trail.all isSpaceChar

/-- The text in the parentheses of the `returns` clause of a signature, if it has one: the text
between the first `(` after the parameter list and the next `)`. -/
def returnsClauseOf (sig : List Char) : Option (List Char) :=
  match ((sig.dropWhile (fun c => c != ')')).drop 1).dropWhile (fun c => c != '(') with
  | [] => none
  | _ :: rest => some (rest.takeWhile (fun c => c != ')'))

/-- A function with three plain parameter declarations. -/
def parameterSource : List Char :=
  "function f(uint a,uint[] b ,\n address   c) public \x7b\x7d".toList

/-- A function whose parameters carry a storage-location keyword. -/
def locationSource : List Char :=
  "function f(string memory label, uint256 amount) \x7b\x7d".toList

/-- A function whose only parameter is an array with a storage-location keyword. -/
def locationArraySource : List Char :=
  "function g(uint256[] memory arr) \x7b\x7d".toList

/-- A function with a `returns` clause of two type tokens. -/
def returnsSource : List Char :=
  "function f() view returns ( uint256 ,bool[]) \x7b\x7d".toList

/-- The type keywords of a state-variable declaration, in the order of line 207. -/
def typeKeywords : List (List Char) :=
  ["uint256".toList, "uint".toList, "address".toList, "bool".toList, "string".toList,
    "mapping".toList]

/-- The visibility keywords of a state-variable declaration, in the order of line 207. -/
def stateVisibilityKeywords : List (List Char) :=
  ["public".toList, "private".toList, "internal".toList]

/-- A state-variable declaration `T V;` or `T vis V;` as it is written: blanks, a type keyword,
blanks, possibly a visibility keyword and blanks (both empty when there is none), and the
identifier `name`; the text ends with a semicolon. -/
structure StateVarDecl where
  lead : List Char
  type : List Char
  gap : List Char
  visibility : List Char
  gap2 : List Char
  name : List Char
  deriving DecidableEq

/-- The text of a declaration. -/
def StateVarDecl.text (d : StateVarDecl) : List Char :=
  d.lead ++ d.type ++ d.gap ++ d.visibility ++ d.gap2 ++ d.name ++ [';']

/-- Whether the pieces of a declaration are what their names say. -/
def StateVarDecl.wf (d : StateVarDecl) : Bool :=
  d.lead.all isSpaceChar && typeKeywords.contains d.type &&
    !d.gap.isEmpty && d.gap.all isSpaceChar &&
    ((d.visibility.isEmpty && d.gap2.isEmpty) ||
      (stateVisibilityKeywords.contains d.visibility && !d.gap2.isEmpty &&
        d.gap2.all isSpaceChar)) &&
    !d.name.isEmpty && d.name.all isWordChar

/-- A source that consists of state-variable declarations, with blanks after the last. -/
def declarationsSource (ds : List StateVarDecl) (trailing : List Char) : List Char :=
  (ds.map StateVarDecl.text).flatten ++ trailing

/-- The three forms of an assignment statement: `target = value`, `target[index] = value` and
`target.field = value`. -/
inductive StatementForm where
  | plain
  | indexed
  | field
  deriving DecidableEq

/-- An assignment statement with the white space `blank` in front of it.  `inner` is the text
of the index of the form `target[index] = value;` and the name of the field of the form
`target.field = value;`; `pre` and `post` are the white space before and after the `=`. -/
structure Statement where
  blank : List Char
  form : StatementForm
  target : List Char
  inner : List Char
  pre : List Char
  post : List Char
  value : List Char
  deriving DecidableEq

/-- The characters of an index: word characters and the dot, as in `msg.sender`. -/
def isIndexChar (c : Char) : Bool := isWordChar c || c == '.'

/-- The left-hand side of an assignment statement. -/
def Statement.left (s : Statement) : List Char :=
  match s.form with
  | .plain => s.target
  | .indexed => s.target ++ '[' :: (s.inner ++ [']'])
  | .field => s.target ++ '.' :: s.inner

/-- The text of an assignment statement: the white space, the left-hand side, `=` with the
white space around it, the value and a semicolon. -/
def Statement.text (s : Statement) : List Char :=
  s.blank ++ (s.left ++ (s.pre ++ ('=' :: (s.post ++ (s.value ++ [';'])))))

/-- Whether the pieces of a statement are what their names say: the white space is white
space, the target, the field and the value are identifiers or numbers, the index consists of
word characters and dots, and the word `require` occurs neither in the value nor in the target
of the form `target.field = value;`. -/
def Statement.wf (s : Statement) : Bool :=
  s.blank.all isSpaceChar && s.pre.all isSpaceChar && s.post.all isSpaceChar &&
    !s.target.isEmpty && s.target.all isWordChar &&
    !s.value.isEmpty && s.value.all isWordChar && !containsText "require".toList s.value &&
    (match s.form with
      | .plain => s.inner.isEmpty
      | .indexed => s.inner.all isIndexChar
      | .field => !s.inner.isEmpty && s.inner.all isWordChar &&
          !containsText "require".toList s.target)

theorem MState.eat_some {p : Char → Bool} {s : MState} {k : MState → Option MState}
    {res : MState} (h : s.eat p k = some res) :
    ∃ c cs, s.rest = c :: cs ∧ p c = true ∧
      k { prev := some c, rest := cs, caps := s.caps } = some res := by
  unfold MState.eat at h
  split at h
  · next c cs hrest =>
    by_cases hp : p c = true
    · exact ⟨c, cs, hrest, hp, by simpa [hp] using h⟩
    · simp [hp] at h
  · simp at h

/-- A successful greedy loop ends by calling its continuation at a later position. -/
theorem starLoop_cont {step : MState → (MState → Option MState) → Option MState}
    (hstep : ∀ s k res, step s k = some res → ∃ s', k s' = some res ∧ s'.rest <:+ s.rest) :
    ∀ (fuel : Nat) (s : MState) (k : MState → Option MState) (res : MState),
      starLoop step fuel s k = some res → ∃ s', k s' = some res ∧ s'.rest <:+ s.rest := by
  intro fuel
  induction fuel with
  | zero => intro s k res h; exact ⟨s, h, List.suffix_refl _⟩
  | succ n ih =>
    intro s k res h
    unfold starLoop at h
    split at h
    · next r hr =>
      obtain ⟨s1, h1, hs1⟩ := hstep _ _ _ hr
      split at h1
      · obtain ⟨s2, h2, hs2⟩ := ih _ _ _ h1
        cases h
        exact ⟨s2, h2, hs2.trans hs1⟩
      · simp at h1
    · exact ⟨s, h, List.suffix_refl _⟩

/-- A successful lazy loop ends by calling its continuation at a later position. -/
theorem lazyLoop_cont {step : MState → (MState → Option MState) → Option MState}
    (hstep : ∀ s k res, step s k = some res → ∃ s', k s' = some res ∧ s'.rest <:+ s.rest) :
    ∀ (fuel : Nat) (s : MState) (k : MState → Option MState) (res : MState),
      lazyLoop step fuel s k = some res → ∃ s', k s' = some res ∧ s'.rest <:+ s.rest := by
  intro fuel
  induction fuel with
  | zero => intro s k res h; exact ⟨s, h, List.suffix_refl _⟩
  | succ n ih =>
    intro s k res h
    unfold lazyLoop at h
    split at h
    · next r hr => cases h; exact ⟨s, hr, List.suffix_refl _⟩
    · obtain ⟨s1, h1, hs1⟩ := hstep _ _ _ h
      split at h1
      · obtain ⟨s2, h2, hs2⟩ := ih _ _ _ h1
        exact ⟨s2, h2, hs2.trans hs1⟩
      · simp at h1

/-- A successful match ends by calling its continuation at a later position of the text. -/
theorem Regex.run_cont (r : Regex) :
    ∀ (s : MState) (k : MState → Option MState) (res : MState),
      r.run s k = some res → ∃ s', k s' = some res ∧ s'.rest <:+ s.rest := by
  induction r with
  | eps => intro s k res h; exact ⟨s, h, List.suffix_refl _⟩
  | chr c =>
    intro s k res h
    obtain ⟨x, xs, hx, -, hk⟩ := MState.eat_some h
    exact ⟨_, hk, by rw [hx]; exact List.suffix_cons _ _⟩
  | cls p =>
    intro s k res h
    obtain ⟨x, xs, hx, -, hk⟩ := MState.eat_some h
    exact ⟨_, hk, by rw [hx]; exact List.suffix_cons _ _⟩
  | seq a b iha ihb =>
    intro s k res h
    obtain ⟨s1, h1, hs1⟩ := iha _ _ _ h
    obtain ⟨s2, h2, hs2⟩ := ihb _ _ _ h1
    exact ⟨s2, h2, hs2.trans hs1⟩
  | alt a b iha ihb =>
    intro s k res h
    simp only [Regex.run] at h
    split at h
    · next r hr => cases h; exact iha _ _ _ hr
    · exact ihb _ _ _ h
  | star r ih => intro s k res h; exact starLoop_cont ih _ _ _ _ h
  | lazyStar r ih => intro s k res h; exact lazyLoop_cont ih _ _ _ _ h
  | group i r ih =>
    intro s k res h
    obtain ⟨s1, h1, hs1⟩ := ih _ _ _ h
    exact ⟨_, h1, hs1⟩
  | wordBoundary =>
    intro s k res h
    simp only [Regex.run] at h
    split at h
    · exact ⟨s, h, List.suffix_refl _⟩
    · simp at h

/-- A literal matches exactly its own text. -/
theorem Regex.run_lit (cs : List Char) :
    ∀ (s : MState) (k : MState → Option MState) (res : MState),
      (Regex.lit cs).run s k = some res →
        ∃ s', s.rest = cs ++ s'.rest ∧ k s' = some res := by
  induction cs with
  | nil => intro s k res h; exact ⟨s, rfl, h⟩
  | cons c cs ih =>
    intro s k res h
    cases cs with
    | nil =>
      obtain ⟨x, xs, hx, hc, hk⟩ := MState.eat_some h
      simp at hc
      exact ⟨_, by simp [hx, hc], hk⟩
    | cons d ds =>
      have h' : s.eat (fun x => x == c) (fun s' => (Regex.lit (d :: ds)).run s' k) = some res := h
      obtain ⟨x, xs, hx, hc, hk⟩ := MState.eat_some h'
      simp at hc
      obtain ⟨s2, h2, hk2⟩ := ih _ _ _ hk
      simp at h2
      exact ⟨s2, by simp [hx, hc, h2], hk2⟩

/-- In a successful match of a concatenation the last piece is matched somewhere later in the
text, directly before the continuation. -/
theorem Regex.run_cat_last (rs : List Regex) (last : Regex) :
    ∀ (s : MState) (k : MState → Option MState) (res : MState),
      (Regex.cat (rs ++ [last])).run s k = some res →
        ∃ s', last.run s' k = some res ∧ s'.rest <:+ s.rest := by
  induction rs with
  | nil => intro s k res h; exact ⟨s, h, List.suffix_refl _⟩
  | cons r rs ih =>
    intro s k res h
    have hcat : Regex.cat (r :: rs ++ [last]) = Regex.seq r (Regex.cat (rs ++ [last])) := by
      cases rs <;> rfl
    rw [hcat] at h
    obtain ⟨s1, h1, hs1⟩ := Regex.run_cont r _ _ _ h
    obtain ⟨s2, h2, hs2⟩ := ih _ _ _ h1
    exact ⟨s2, h2, hs2.trans hs1⟩

/-- What a successful attempt says: the pattern ran to a final state, and the length of the
match is the number of characters consumed. -/
theorem matchHere_some {re : Regex} {prev : Option Char} {rest : List Char} {len : Nat}
    {caps : List (Nat × List Char)} (h : matchHere re prev rest = some (len, caps)) :
    ∃ s, re.run { prev := prev, rest := rest, caps := [] } some = some s ∧
      len = rest.length - s.rest.length ∧ caps = s.caps ∧ s.rest <:+ rest := by
  unfold matchHere at h
  split at h
  · next s hs =>
    simp only [Option.some.injEq, Prod.mk.injEq] at h
    obtain ⟨s', h', hsuf⟩ := Regex.run_cont re _ _ _ hs
    cases h'
    exact ⟨s, hs, h.1.symm, h.2.symm, hsuf⟩
  · simp at h

/-- Every match of the scan was found by an attempt at its position. -/
theorem regexScan_mem {re : Regex} {m : Match} :
    ∀ (text : List Char) (prev : Option Char) (pos skip : Nat),
      m ∈ regexScan re prev text pos skip →
        ∃ i prev', i < text.length ∧ m.position = pos + i ∧
          matchHere re prev' (text.drop i) = some (m.length, m.caps) := by
  intro text
  induction text with
  | nil => intro prev pos skip h; simp [regexScan] at h
  | cons c cs ih =>
    intro prev pos skip h
    have lift : ∀ prev2 skip2, m ∈ regexScan re prev2 cs (pos + 1) skip2 →
        ∃ i prev', i < (c :: cs).length ∧ m.position = pos + i ∧
          matchHere re prev' ((c :: cs).drop i) = some (m.length, m.caps) := by
      intro prev2 skip2 h2
      obtain ⟨i, p, hi, hp, hm⟩ := ih _ _ _ h2
      exact ⟨i + 1, p, by simpa using hi, by omega, by simpa using hm⟩
    unfold regexScan at h
    split at h
    · exact lift _ _ h
    · split at h
      · next len caps hm =>
        rcases List.mem_cons.1 h with h | h
        · subst h
          exact ⟨0, prev, by simp, rfl, by simpa using hm⟩
        · exact lift _ _ h
      · exact lift _ _ h

/-- Every match the iterator reports lies inside the text. -/
theorem regexIterate_mem {re : Regex} {m : Match} {text : List Char}
    (h : m ∈ regexIterate re text) :
    m.position < text.length ∧ m.position + m.length ≤ text.length ∧
      ∃ prev', matchHere re prev' (text.drop m.position) = some (m.length, m.caps) := by
  obtain ⟨i, p, hi, hp, hm⟩ := regexScan_mem text none 0 0 h
  have hpos : m.position = i := by omega
  obtain ⟨s, -, hlen, -, hsuf⟩ := matchHere_some hm
  have := hsuf.length_le
  simp at this
  refine ⟨by omega, ?_, p, by rw [hpos]; exact hm⟩
  simp at hlen
  omega

/-- A match of the signature pattern starts with the keyword `function` and ends with `{`. -/
theorem function_regex_match {prev : Option Char} {rest : List Char} {len : Nat}
    {caps : List (Nat × List Char)} (h : matchHere function_regex prev rest = some (len, caps)) :
    ∃ mid tail, rest = "function".toList ++ (mid ++ '{' :: tail) ∧ len = 8 + mid.length + 1 := by
  obtain ⟨s, hrun, hlen, -, -⟩ := matchHere_some h
  have hre : function_regex = Regex.seq (Regex.lit "function".toList) (Regex.cat (
      [.plus .s, .group 1 (.plus .w), .star .s,
    .chr '(', .group 2 (.star (.cls notCloseParen)), .chr ')', .star .s,
    .opt (.group 3 (.oneOf [.lit "public".toList, .lit "private".toList,
      .lit "internal".toList, .lit "external".toList])), .star .s,
    .opt (.group 4 (.oneOf [.lit "pure".toList, .lit "view".toList,
      .lit "payable".toList, .lit "nonpayable".toList])), .star .s,
    .opt (.cat [.lit "returns".toList, .star .s, .chr '(',
      .group 5 (.star (.cls notCloseParen)), .chr ')']), .star .s] ++ [Regex.chr '{'])) := rfl
  rw [hre] at hrun
  obtain ⟨s1, h1, hk1⟩ := Regex.run_lit _ _ _ _ hrun
  obtain ⟨s2, h2, hs2⟩ := Regex.run_cat_last _ _ _ _ _ hk1
  obtain ⟨x, xs, hx, hc, hk⟩ := MState.eat_some h2
  simp at hc hk
  obtain ⟨mid, hmid⟩ := hs2
  subst hc
  refine ⟨mid, xs, ?_, ?_⟩
  · simp at h1
    rw [h1, ← hmid, hx]
    rfl
  · subst hk
    simp at h1 hlen
    rw [hlen, h1, ← hmid, hx]
    simp
    omega

/-! ## The fuel of the loops and the empty match -/

/-- The fuel of a greedy loop is enough: any amount of fuel from the length of the remaining
text on gives the same result. -/
theorem starLoop_fuel {step : MState → (MState → Option MState) → Option MState}
    (hstep : ∀ s k res, step s k = some res → ∃ s', k s' = some res ∧ s'.rest <:+ s.rest) :
    ∀ (n m : Nat) (s : MState) (k : MState → Option MState),
      s.rest.length ≤ n → s.rest.length ≤ m → starLoop step n s k = starLoop step m s k := by
  have hnone : ∀ (s : MState), step s (fun _ => none) = none := by
    intro s
    cases h : step s (fun _ => none) with
    | none => rfl
    | some res =>
      obtain ⟨s', h', -⟩ := hstep _ _ _ h
      simp at h'
  have hzero : ∀ (m : Nat) (s : MState) (k : MState → Option MState), s.rest.length = 0 →
      starLoop step m s k = k s := by
    intro m s k hs
    cases m with
    | zero => rfl
    | succ m =>
      rw [starLoop]
      have : (fun s' : MState =>
          if s'.rest.length < s.rest.length then starLoop step m s' k else none) =
          fun _ => none := by
        funext s'
        rw [hs, if_neg (Nat.not_lt_zero _)]
      rw [this, hnone]
  intro n
  induction n with
  | zero =>
    intro m s k hn _
    rw [hzero m s k (by omega)]
    rfl
  | succ n ih =>
    intro m s k hn hm
    cases m with
    | zero => rw [hzero (n + 1) s k (by omega)]; rfl
    | succ m =>
      rw [starLoop, starLoop]
      have : (fun s' : MState =>
          if s'.rest.length < s.rest.length then starLoop step n s' k else none) =
          fun s' => if s'.rest.length < s.rest.length then starLoop step m s' k else none := by
        funext s'
        split
        · exact ih m s' k (by omega) (by omega)
        · rfl
      rw [this]

/-- The fuel of a lazy loop is enough as well. -/
theorem lazyLoop_fuel {step : MState → (MState → Option MState) → Option MState}
    (hstep : ∀ s k res, step s k = some res → ∃ s', k s' = some res ∧ s'.rest <:+ s.rest) :
    ∀ (n m : Nat) (s : MState) (k : MState → Option MState),
      s.rest.length ≤ n → s.rest.length ≤ m → lazyLoop step n s k = lazyLoop step m s k := by
  have hnone : ∀ (s : MState), step s (fun _ => none) = none := by
    intro s
    cases h : step s (fun _ => none) with
    | none => rfl
    | some res =>
      obtain ⟨s', h', -⟩ := hstep _ _ _ h
      simp at h'
  have hzero : ∀ (m : Nat) (s : MState) (k : MState → Option MState), s.rest.length = 0 →
      lazyLoop step m s k = k s := by
    intro m s k hs
    cases m with
    | zero => rfl
    | succ m =>
      rw [lazyLoop]
      have : (fun s' : MState =>
          if s'.rest.length < s.rest.length then lazyLoop step m s' k else none) =
          fun _ => none := by
        funext s'
        rw [hs, if_neg (Nat.not_lt_zero _)]
      rw [this, hnone]
      cases k s <;> rfl
  intro n
  induction n with
  | zero =>
    intro m s k hn _
    rw [hzero m s k (by omega)]
    rfl
  | succ n ih =>
    intro m s k hn hm
    cases m with
    | zero => rw [hzero (n + 1) s k (by omega)]; rfl
    | succ m =>
      rw [lazyLoop, lazyLoop]
      have : (fun s' : MState =>
          if s'.rest.length < s.rest.length then lazyLoop step n s' k else none) =
          fun s' => if s'.rest.length < s.rest.length then lazyLoop step m s' k else none := by
        funext s'
        split
        · exact ih m s' k (by omega) (by omega)
        · rfl
      rw [this]

/-- A successful match of a pattern that consumes ends strictly later in the text. -/
theorem Regex.run_consumes (r : Regex) (hr : r.consumes = true) :
    ∀ (s : MState) (k : MState → Option MState) (res : MState),
      r.run s k = some res → ∃ s', k s' = some res ∧ s'.rest.length < s.rest.length := by
  induction r with
  | eps => simp [Regex.consumes] at hr
  | chr c =>
    intro s k res h
    obtain ⟨x, xs, hx, -, hk⟩ := MState.eat_some h
    exact ⟨_, hk, by rw [hx]; simp⟩
  | cls p =>
    intro s k res h
    obtain ⟨x, xs, hx, -, hk⟩ := MState.eat_some h
    exact ⟨_, hk, by rw [hx]; simp⟩
  | seq a b iha ihb =>
    intro s k res h
    simp only [Regex.consumes, Bool.or_eq_true] at hr
    rcases hr with hr | hr
    · obtain ⟨s1, h1, hs1⟩ := iha hr _ _ _ h
      obtain ⟨s2, h2, hs2⟩ := Regex.run_cont b _ _ _ h1
      exact ⟨s2, h2, Nat.lt_of_le_of_lt hs2.length_le hs1⟩
    · obtain ⟨s1, h1, hs1⟩ := Regex.run_cont a _ _ _ h
      obtain ⟨s2, h2, hs2⟩ := ihb hr _ _ _ h1
      exact ⟨s2, h2, Nat.lt_of_lt_of_le hs2 hs1.length_le⟩
  | alt a b iha ihb =>
    intro s k res h
    simp only [Regex.consumes, Bool.and_eq_true] at hr
    simp only [Regex.run] at h
    split at h
    · next r' hr' => cases h; exact iha hr.1 _ _ _ hr'
    · exact ihb hr.2 _ _ _ h
  | star r _ => simp [Regex.consumes] at hr
  | lazyStar r _ => simp [Regex.consumes] at hr
  | group i r ih =>
    intro s k res h
    obtain ⟨s1, h1, hs1⟩ := ih hr _ _ _ h
    exact ⟨_, h1, hs1⟩
  | wordBoundary => simp [Regex.consumes] at hr

/-- No pattern that the program iterates over matches the empty text, so the rule of
`std::regex_iterator` for empty matches never applies. -/
theorem program_patterns_consume :
    ∀ re, re ∈ [function_regex, param_regex, return_regex, storage_regex, require_regex,
        state_var_regex, event_regex] →
      ∀ prev text len caps, matchHere re prev text = some (len, caps) → 0 < len := by
  intro re hre prev text len caps h
  have hc : re.consumes = true := by
    simp only [List.mem_cons, List.mem_singleton, List.not_mem_nil, or_false] at hre
    rcases hre with h | h | h | h | h | h | h <;> (rw [h]; rfl)
  obtain ⟨s, hrun, hlen, -, -⟩ := matchHere_some h
  obtain ⟨s', hs', hlt⟩ := Regex.run_consumes re hc _ _ _ hrun
  cases hs'
  simp only at hlt
  omega

/-! ## Facts about the span resolver -/

theorem braceLoop_zero (text : List Char) (e : Nat) : braceLoop text 0 e = e := by
  cases text <;> simp [braceLoop]

/-- The loop stops at the first character that brings the depth to 0. -/
theorem braceLoop_closes :
    ∀ (text : List Char) (b e n : Nat), 0 < b →
      (b : Int) + ((text.take n).count '{' : Int) - ((text.take n).count '}' : Int) = 0 →
      (∀ i, i < n →
        0 < (b : Int) + ((text.take i).count '{' : Int) - ((text.take i).count '}' : Int)) →
      braceLoop text b e = e + n := by
  intro text
  induction text with
  | nil => intro b e n hb h0 _; simp at h0; omega
  | cons c cs ih =>
    intro b e n hb h0 hpos
    cases n with
    | zero => simp at h0; omega
    | succ n =>
      have h1 := hpos 1
      simp only [List.take_succ_cons, List.count_cons] at h0 h1 hpos
      simp only [List.take_zero, List.count_nil] at h1
      unfold braceLoop
      rw [if_pos hb]
      by_cases ho : c = '{'
      · subst ho
        simp at h0 h1 ⊢
        rw [ih (b + 1) (e + 1) n (by omega) (by push_cast; omega)
          (fun i hi => by have := hpos (i + 1) (by omega); simp at this; push_cast; omega)]
        omega
      · by_cases hc : c = '}'
        · subst hc
          simp at h0 h1 ⊢
          by_cases hn : n = 0
          · subst hn
            simp at h0
            have hb1 : b = 1 := by omega
            subst hb1
            simp [braceLoop_zero]
          · have hb2 : 1 < b := by
              have := h1 (by omega)
              omega
            rw [ih (b - 1) (e + 1) n (by omega) (by omega)
              (fun i hi => by have := hpos (i + 1) (by omega); simp at this; omega)]
            omega
        · have e1 : (c == '{') = false := by simpa using ho
          have e2 : (c == '}') = false := by simpa using hc
          simp only [e1, e2] at h0 h1 hpos ⊢
          simp at h0 hpos ⊢
          rw [ih b (e + 1) n hb h0
            (fun i hi => by
              have := hpos (i + 1) (by omega)
              simp only [List.take_succ_cons, List.count_cons, e1, e2] at this
              simpa using this)]
          omega

/-- When the depth never reaches 0 the loop runs to the end of the text. -/
theorem braceLoop_open :
    ∀ (text : List Char) (b e : Nat), 0 < b →
      (∀ i,
        0 < (b : Int) + ((text.take i).count '{' : Int) - ((text.take i).count '}' : Int)) →
      braceLoop text b e = e + text.length := by
  intro text
  induction text with
  | nil => intro b e _ _; simp [braceLoop]
  | cons c cs ih =>
    intro b e hb hpos
    have h1 := hpos 1
    simp only [List.take_succ_cons, List.count_cons, List.take_zero, List.count_nil] at h1
    unfold braceLoop
    rw [if_pos hb]
    by_cases ho : c = '{'
    · subst ho
      simp at h1 ⊢
      rw [ih (b + 1) (e + 1) (by omega)
        (fun i => by have := hpos (i + 1); simp at this; push_cast; omega)]
      omega
    · by_cases hc : c = '}'
      · subst hc
        simp at h1 ⊢
        rw [ih (b - 1) (e + 1) (by omega)
          (fun i => by have := hpos (i + 1); simp at this; omega)]
        omega
      · have e1 : (c == '{') = false := by simpa using ho
        have e2 : (c == '}') = false := by simpa using hc
        simp only [e1, e2] at hpos ⊢
        simp at hpos ⊢
        rw [ih b (e + 1) hb (fun i => by
          have := hpos (i + 1)
          simp only [List.take_succ_cons, List.count_cons, e1, e2] at this
          simpa using this)]
        omega

/-- The loop never leaves the text. -/
theorem braceLoop_le : ∀ (text : List Char) (b e : Nat), braceLoop text b e ≤ e + text.length := by
  intro text
  induction text with
  | nil => intro b e; simp [braceLoop]
  | cons c cs ih =>
    intro b e
    unfold braceLoop
    split
    · have := ih (if (c == '{') = true then b + 1 else if (c == '}') = true then b - 1 else b)
        (e + 1)
      simp only [List.length_cons]
      omega
    · omega

theorem braceLoop_ge : ∀ (text : List Char) (b e : Nat), e ≤ braceLoop text b e := by
  intro text
  induction text with
  | nil => intro b e; simp [braceLoop]
  | cons c cs ih =>
    intro b e
    unfold braceLoop
    split
    · have := ih (if (c == '{') = true then b + 1 else if (c == '}') = true then b - 1 else b)
        (e + 1)
      omega
    · omega

/-! ## Facts about the analysis -/

/-- Shape of the source around a signature match. -/
theorem functionMatches_shape {source : List Char} {m : Match}
    (h : m ∈ functionMatches source) :
    ∃ mid tail, source.drop m.position = "function".toList ++ (mid ++ '{' :: tail) ∧
      m.length = 8 + mid.length + 1 ∧ source.drop (m.position + m.length) = tail ∧
      m.position + m.length + tail.length = source.length := by
  obtain ⟨hpos, hle, p, hm⟩ := regexIterate_mem h
  obtain ⟨mid, tail, hsrc, hlen⟩ := function_regex_match hm
  have hdrop : source.drop (m.position + m.length) = tail := by
    rw [← List.drop_drop, hsrc, hlen]
    have : "function".toList ++ (mid ++ '{' :: tail) =
        ("function".toList ++ mid ++ ['{']) ++ tail := by simp
    rw [this]
    apply List.drop_left'
    simp
    omega
  refine ⟨mid, tail, hsrc, hlen, hdrop, ?_⟩
  have := congrArg List.length hdrop
  simp at this
  omega

/-- The span resolver never fails: the source text of a function is the text from the start of
its signature up to the position where the loop over the braces stopped. -/
theorem functionSourceCode_eq {source : List Char} {m : Match}
    (h : m ∈ functionMatches source) :
    functionSourceCode source m =
      some ((source.drop m.position).take
        (braceLoop (source.drop (m.position + m.length)) 1 (m.position + m.length)
          - m.position)) := by
  obtain ⟨mid, tail, -, hlen, hdrop, htot⟩ := functionMatches_shape h
  have hb : m.position + m.length - 1 + 1 = m.position + m.length := by omega
  unfold functionSourceCode
  simp only [hb]
  have hle := braceLoop_le (source.drop (m.position + m.length)) 1 (m.position + m.length)
  rw [hdrop] at hle ⊢
  rw [if_pos (by omega)]
  unfold substr
  rw [if_pos (by omega)]

/-- Each round of the loop over the signatures produces a record. -/
theorem analyzeFunction_ok {source : List Char} {m : Match}
    (h : m ∈ functionMatches source) :
    ∃ f, analyzeFunction source m = some f ∧
      functionSourceCode source m = some f.sourceCode ∧
      f.patterns = detectPatterns f.sourceCode ∧
      f.startLine = u32 ((source.take m.position).count '\n' + 1) ∧
      f.complexityScore = u32 (1 + u32 f.patterns.length * 2) := by
  unfold analyzeFunction
  rw [functionSourceCode_eq h]
  exact ⟨_, rfl, rfl, rfl, rfl, rfl⟩

theorem mapM_option_ok {α β : Type} (f : α → Option β) :
    ∀ (l : List α), (∀ a, a ∈ l → ∃ b, f a = some b) →
      ∃ bs, l.mapM f = some bs ∧ List.Forall₂ (fun a b => f a = some b) l bs := by
  intro l
  induction l with
  | nil => intro _; exact ⟨[], rfl, List.Forall₂.nil⟩
  | cons a l ih =>
    intro h
    obtain ⟨b, hb⟩ := h a (List.mem_cons_self _ _)
    obtain ⟨bs, hbs, hall⟩ := ih (fun x hx => h x (List.mem_cons_of_mem _ hx))
    refine ⟨b :: bs, ?_, List.Forall₂.cons hb hall⟩
    rw [List.mapM_cons, hb, hbs]
    rfl

/-- The analysis never fails, and its functions are the records of the signature matches, in
the order of the matches. -/
theorem ParseContractSource_ok (source : List Char) :
    ∃ r, ParseContractSource source = some r ∧
      List.Forall₂ (fun m f => analyzeFunction source m = some f)
        (functionMatches source) r.functions ∧
      r.totalLines = u32 (source.count '\n' + 1) := by
  obtain ⟨fs, hfs, hall⟩ := mapM_option_ok (analyzeFunction source) (functionMatches source)
    (fun m hm => by obtain ⟨f, hf, -⟩ := analyzeFunction_ok hm; exact ⟨f, hf⟩)
  unfold ParseContractSource
  simp only [hfs]
  exact ⟨_, rfl, hall, rfl⟩

theorem forall₂_of_mem {α β : Type} {R Q : α → β → Prop} {l : List α} {bs : List β}
    (h : List.Forall₂ R l bs) (himp : ∀ a, a ∈ l → ∀ b, R a b → Q a b) :
    List.Forall₂ Q l bs := by
  induction h with
  | nil => exact List.Forall₂.nil
  | cons hab _ ih =>
    exact List.Forall₂.cons (himp _ (List.mem_cons_self _ _) _ hab)
      (ih (fun a ha b hb => himp a (List.mem_cons_of_mem _ ha) b hb))

theorem forall_right_of_forall₂ {α β : Type} {R : α → β → Prop} {P : β → Prop} {l : List α}
    {bs : List β} (h : List.Forall₂ R l bs) (himp : ∀ a, a ∈ l → ∀ b, R a b → P b) :
    ∀ b, b ∈ bs → P b := by
  induction h with
  | nil => intro b hb; simp at hb
  | cons hab _ ih =>
    intro b hb
    rcases List.mem_cons.1 hb with hb | hb
    · subst hb; exact himp _ (List.mem_cons_self _ _) _ hab
    · exact ih (fun a ha b hb => himp a (List.mem_cons_of_mem _ ha) b hb) b hb

theorem exists_right_of_forall₂ {α β : Type} {R : α → β → Prop} {l : List α} {bs : List β}
    (h : List.Forall₂ R l bs) : ∀ a, a ∈ l → ∃ b, b ∈ bs ∧ R a b := by
  induction h with
  | nil => intro a ha; simp at ha
  | cons hab _ ih =>
    intro a ha
    rcases List.mem_cons.1 ha with ha | ha
    · subst ha; exact ⟨_, List.mem_cons_self _ _, hab⟩
    · obtain ⟨b, hb, hr⟩ := ih a ha
      exact ⟨b, List.mem_cons_of_mem _ hb, hr⟩

/-- The record of a signature match is one of the functions of the report. -/
theorem record_in_report {source : List Char} {m : Match} (h : m ∈ functionMatches source) :
    ∃ r f, ParseContractSource source = some r ∧ f ∈ r.functions ∧
      analyzeFunction source m = some f := by
  obtain ⟨r, hr, hall, -⟩ := ParseContractSource_ok source
  obtain ⟨f, hf, hfm⟩ := exists_right_of_forall₂ hall m h
  exact ⟨r, f, hr, hf, hfm⟩

/-- The kinds of the findings form a subsequence of the rule order. -/
theorem detectPatterns_sublist (code : List Char) :
    ((detectPatterns code).map PatternFinding.type).Sublist ruleOrder := by
  have one : ∀ (c : Prop) [Decidable c] (p : PatternFinding),
      ((if c then [p] else []).map PatternFinding.type).Sublist [p.type] := by
    intro c _ p
    split
    · exact List.Sublist.refl _
    · exact List.nil_sublist _
  unfold detectPatterns
  simp only [List.map_append]
  exact (((((one _ loopFinding).append (one _ (storageFinding _))).append
    (one _ (validationFinding _))).append (one _ externalCallFinding)).append
    (one _ arrayFinding)).append (one _ stringFinding)

theorem detectPatterns_length_le (code : List Char) : (detectPatterns code).length ≤ 6 := by
  have := (detectPatterns_sublist code).length_le
  simpa [ruleOrder] using this

/-- The source around a signature match: the matched text `sig`, which starts with `f` and
ends with `{`, and the text `tail` after it. -/
theorem functionMatches_split {source : List Char} {m : Match}
    (h : m ∈ functionMatches source) :
    ∃ sig tail, source.drop m.position = sig ++ tail ∧ sig.length = m.length ∧
      sig.head? = some 'f' ∧ sig.getLast? = some '{' ∧
      source.drop (m.position + m.length) = tail := by
  obtain ⟨mid, tail, hsrc, hlen, hdrop, -⟩ := functionMatches_shape h
  refine ⟨"function".toList ++ mid ++ ['{'], tail, ?_, ?_, rfl, ?_, hdrop⟩
  · rw [hsrc]; simp
  · rw [hlen]; simp; omega
  · rw [List.getLast?_append]; rfl

/-- The record of a signature match whose body is closed by its `n`-th character. -/
theorem sourceCode_of_closesAt (source : List Char) (m : Match) (n : Nat)
    (hm : m ∈ functionMatches source)
    (hclose : ClosesAt (source.drop (m.position + m.length)) n) :
    ∃ r f, ParseContractSource source = some r ∧ f ∈ r.functions ∧
      analyzeFunction source m = some f ∧
      source[m.position + m.length - 1]? = some '{' ∧
      f.sourceCode = (source.drop m.position).take (m.length + n) ∧
      f.sourceCode = m.str source ++ (source.drop (m.position + m.length)).take n ∧
      source[m.position]? = some 'f' ∧
      f.sourceCode.head? = some 'f' ∧
      f.sourceCode.getLast? = some '}' := by
  obtain ⟨r, f, hr, hf, hfm⟩ := record_in_report hm
  obtain ⟨f', hf', hcode, -⟩ := analyzeFunction_ok hm
  rw [hfm] at hf'
  cases hf'
  rw [functionSourceCode_eq hm] at hcode
  simp only [Option.some.injEq] at hcode
  obtain ⟨sig, tail, hsrc, hlen, hhead, hlastsig, hdrop⟩ := functionMatches_split hm
  obtain ⟨hn, h0, hpos⟩ := hclose
  rw [hdrop] at hn h0 hpos
  unfold braceDepth at h0 hpos
  have hloop := braceLoop_closes tail 1 (m.position + m.length) n (by omega)
    (by simpa using h0) (fun i hi => by simpa using hpos i hi)
  rw [hdrop, hloop] at hcode
  have hsub : m.position + m.length + n - m.position = m.length + n := by omega
  rw [hsub] at hcode
  have hn0 : 0 < n := by
    rcases Nat.eq_zero_or_pos n with h | h
    · subst h; simp at h0
    · exact h
  have hlt : n - 1 < tail.length := by omega
  have htk : tail.take n = tail.take (n - 1) ++ [tail[n - 1]] := by
    have := List.take_succ (l := tail) (n := n - 1)
    rw [show n - 1 + 1 = n by omega] at this
    rw [this, List.getElem?_eq_getElem hlt]
    rfl
  have hclosing : tail[n - 1] = '}' := by
    have hp := hpos (n - 1) (by omega)
    rw [htk] at h0
    simp only [List.count_append, List.count_cons, List.count_nil] at h0
    by_contra hc
    have e2 : (tail[n - 1] == '}') = false := by simpa using hc
    simp only [e2] at h0
    split at h0 <;> simp at h0 <;> omega
  have hcode2 : f.sourceCode = sig ++ tail.take n := by
    rw [← hcode, hsrc, ← hlen, List.take_append]
  have hsig0 : sig ≠ [] := by intro h; rw [h] at hhead; simp at hhead
  refine ⟨r, f, hr, hf, hfm, ?_, hcode.symm, ?_, ?_, ?_, ?_⟩
  · have h1 : (source.drop m.position)[m.length - 1]? = source[m.position + (m.length - 1)]? :=
      List.getElem?_drop _ _ _
    have hl : 0 < sig.length := List.length_pos.2 hsig0
    rw [show m.position + m.length - 1 = m.position + (m.length - 1) by omega, ← h1, hsrc,
      List.getElem?_append_left (by omega), ← hlen, ← List.getLast?_eq_getElem?]
    exact hlastsig
  · rw [hcode2, Match.str, hdrop, hsrc, ← hlen, List.take_left']
    rfl
  · have h1 : (source.drop m.position)[0]? = source[m.position + 0]? :=
      List.getElem?_drop _ _ _
    rw [hsrc] at h1
    rw [← Nat.add_zero m.position, ← h1]
    cases sig with
    | nil => exact absurd rfl hsig0
    | cons c cs => simpa using hhead
  · rw [hcode2]
    cases sig with
    | nil => exact absurd rfl hsig0
    | cons c cs => simpa using hhead
  · rw [hcode2, htk, hclosing, ← List.append_assoc, List.getLast?_append]
    rfl

/-- One more character changes the depth by at most one. -/
theorem braceDepth_succ_ge (body : List Char) (i : Nat) :
    braceDepth body i - 1 ≤ braceDepth body (i + 1) := by
  unfold braceDepth
  by_cases hi : i < body.length
  · rw [List.take_succ, List.getElem?_eq_getElem hi]
    simp only [Option.toList, List.count_append, List.count_cons, List.count_nil]
    split <;> split <;> push_cast <;> omega
  · rw [List.take_of_length_le (by omega), List.take_of_length_le (by omega)]
    omega

/-- When the depth reaches 0 somewhere, there is a first character at which it does. -/
theorem closesAt_of_reaches {body : List Char}
    (h : ∃ i, i ≤ body.length ∧ braceDepth body i = 0) : ∃ n, ClosesAt body n := by
  have hex : ∃ i, braceDepth body i = 0 := by
    obtain ⟨i, -, hi⟩ := h
    exact ⟨i, hi⟩
  refine ⟨Nat.find hex, ?_, Nat.find_spec hex, ?_⟩
  · obtain ⟨i, hi, h0⟩ := h
    exact (Nat.find_min' hex h0).trans hi
  · intro j
    induction j with
    | zero => intro _; unfold braceDepth; simp
    | succ j ih =>
      intro hj
      have h1 := ih (by omega)
      have h2 := braceDepth_succ_ge body j
      have h3 : braceDepth body (j + 1) ≠ 0 := Nat.find_min hex hj
      omega

/-- **C1.** For every source and every signature match whose body is closed (the depth, 1
after the opening brace, +1 on `{` and -1 on `}`, reaches 0 before the end of the source), the
report holds the record of that match, the match ends with the opening brace, and there is a
first character of the body, the `n`-th, at which the depth reaches 0 (it is positive at every
earlier position); the record's `sourceCode` is exactly the text from the first character of
the signature up to and including that character: the match followed by the first `n`
characters of the body.  It begins with the signature's first character, the `f` of
`function`, and ends with `}`. -/
theorem sourceCode_closed_span (source : List Char) (m : Match)
    (hm : m ∈ functionMatches source)
    (hreach : ∃ i, i ≤ (source.drop (m.position + m.length)).length ∧
      braceDepth (source.drop (m.position + m.length)) i = 0) :
    ∃ r f n, ParseContractSource source = some r ∧ f ∈ r.functions ∧
      analyzeFunction source m = some f ∧
      ClosesAt (source.drop (m.position + m.length)) n ∧
      source[m.position + m.length - 1]? = some '{' ∧
      f.sourceCode = (source.drop m.position).take (m.length + n) ∧
      f.sourceCode = m.str source ++ (source.drop (m.position + m.length)).take n ∧
      source[m.position]? = some 'f' ∧
      f.sourceCode.head? = some 'f' ∧
      f.sourceCode.getLast? = some '}' := by
  obtain ⟨n, hn⟩ := closesAt_of_reaches hreach
  obtain ⟨r, f, h⟩ := sourceCode_of_closesAt source m n hm hn
  exact ⟨r, f, n, h.1, h.2.1, h.2.2.1, hn, h.2.2.2⟩

/-- Witness of C1: the function of Scenario A, whose body reaches depth 0 at its ninth
character. -/
theorem sourceCode_closed_span_witness :
    (⟨15, 23, [(3, "public".toList), (2, []), (1, "bar".toList)]⟩ : Match) ∈
        functionMatches scenarioA ∧
      braceDepth (scenarioA.drop (15 + 23)) 9 = 0 ∧
      ∃ r f, ParseContractSource scenarioA = some r ∧ f ∈ r.functions ∧
        f.sourceCode = "function bar() public \x7b x = 1; \x7d".toList := by
  refine ⟨by decide!, by decide!, ?_⟩
  obtain ⟨r, f, n, hr, hf, -, hn, -, hcode, -⟩ :=
    sourceCode_closed_span scenarioA
      ⟨15, 23, [(3, "public".toList), (2, []), (1, "bar".toList)]⟩ (by decide!)
      ⟨9, by decide!, by decide!⟩
  refine ⟨r, f, hr, hf, ?_⟩
  have h9 : n = 9 := by
    have hc : ClosesAt (scenarioA.drop (15 + 23)) 9 := by decide!
    rcases Nat.lt_trichotomy n 9 with h | h | h
    · have := hc.2.2 n h
      rw [hn.2.1] at this
      exact absurd this (by decide)
    · exact h
    · have := hn.2.2 9 h
      rw [hc.2.1] at this
      exact absurd this (by decide)
  rw [hcode, h9]
  decide!

/-- **C2** (the code at the failing input).  The source is `function f() {` followed by 1000
blanks: the body never closes, the analysis succeeds, and the `sourceCode` of the one function
is the whole source, 1014 characters, not its first `min 1000 1014 = 1000` characters. -/
theorem unclosed_body_not_truncated :
    NeverCloses (unclosedSource.drop 14) ∧
    (ParseContractSource unclosedSource).map
        (fun r => r.functions.map fun f => f.sourceCode) =
      some [unclosedSource] ∧
    unclosedSource.length = 1014 ∧
    min 1000 (unclosedSource.length - 0) = 1000 := by
  refine ⟨?_, by decide!, by decide!, by decide!⟩
  intro i
  have h : unclosedSource.drop 14 =
      List.replicate 1000 ' ' := by decide!
  rw [h]
  have key : ∀ k : Nat, braceDepth (List.replicate k ' ') i = 1 := by
    intro k
    unfold braceDepth
    rw [List.take_replicate, List.count_replicate, List.count_replicate]
    simp
  rw [key]
  exact Int.one_pos

/-- **C3.** For every source the analysis succeeds, and every function of the report has
`complexityScore = 1 + 2 * (number of its patterns)`, which is at least 1. -/
theorem complexityScore_eq (source : List Char) :
    ∃ r, ParseContractSource source = some r ∧
      ∀ f, f ∈ r.functions →
        f.complexityScore = 1 + 2 * f.patterns.length ∧ 1 ≤ f.complexityScore := by
  obtain ⟨r, hr, hall, -⟩ := ParseContractSource_ok source
  refine ⟨r, hr, forall_right_of_forall₂ hall ?_⟩
  intro m hm f hf
  obtain ⟨f', hf', -, hpat, -, hscore⟩ := analyzeFunction_ok hm
  rw [hf] at hf'
  cases hf'
  have hlen : f.patterns.length ≤ 6 := by rw [hpat]; exact detectPatterns_length_le _
  have : f.complexityScore = 1 + 2 * f.patterns.length := by
    rw [hscore]
    unfold u32
    omega
  exact ⟨this, by omega⟩

/-- **C4.** For every source with fewer than `2 ^ 32 - 1` newlines (so for every source shorter
than 4 GiB; `startLine` is a `uint32_t`) the analysis succeeds, and every function of the
report, paired with its signature match, has
`startLine = 1 + (number of newlines strictly before the offset of the match)`; the character
at that offset is the `f` of the keyword `function`. -/
theorem startLine_eq (source : List Char) (hlines : source.count '\n' + 1 < 2 ^ 32) :
    ∃ r, ParseContractSource source = some r ∧
      List.Forall₂ (fun m f =>
          source[m.position]? = some 'f' ∧
          "function".toList <+: source.drop m.position ∧
          f.startLine = 1 + (source.take m.position).count '\n')
        (functionMatches source) r.functions := by
  obtain ⟨r, hr, hall, -⟩ := ParseContractSource_ok source
  refine ⟨r, hr, forall₂_of_mem hall ?_⟩
  intro m hm f hf
  obtain ⟨f', hf', -, -, hline, -⟩ := analyzeFunction_ok hm
  rw [hf] at hf'
  cases hf'
  obtain ⟨mid, tail, hsrc, hmlen, -, htot⟩ := functionMatches_shape hm
  refine ⟨?_, ⟨_, hsrc.symm⟩, ?_⟩
  · have h1 : (source.drop m.position)[0]? = source[m.position + 0]? :=
      List.getElem?_drop _ _ _
    rw [hsrc] at h1
    rw [← Nat.add_zero m.position, ← h1]
    rfl
  · rw [hline]
    have h1 : (source.take m.position).count '\n' ≤ source.count '\n' :=
      (List.take_sublist _ _).count_le _
    unfold u32
    omega

/-- Witness of C4: a source of four lines with functions on its lines 2 and 3. -/
theorem startLine_eq_witness :
    twoFunctions.count '\n' + 1 < 2 ^ 32 ∧
      ∃ r, ParseContractSource twoFunctions
          = some r ∧ r.functions.map (fun f => f.startLine) = [2, 3] :=
  ⟨by decide!, by
    obtain ⟨r, hr, -⟩ :=
      startLine_eq twoFunctions (by decide!)
    refine ⟨r, hr, ?_⟩
    have h : (ParseContractSource
        twoFunctions).map
        (fun r => r.functions.map fun f => f.startLine) = some [2, 3] := by decide!
    rw [hr] at h
    simpa using h⟩

/-- **C5.** For every source the analysis succeeds, and for every function of the report the
kinds of its patterns, in list order, form a subsequence of the rule order loop,
storage_write, validation, external_call, array_operation, string_operation: the rank of the
kinds in that order increases strictly along the list, no kind occurs twice, there are at most
6 patterns and `complexityScore` is at most 13. -/
theorem patterns_follow_ruleOrder (source : List Char) :
    ∃ r, ParseContractSource source = some r ∧
      ∀ f, f ∈ r.functions →
        (f.patterns.map PatternFinding.type).Sublist ruleOrder ∧
        (f.patterns.map PatternFinding.type).Pairwise
          (fun a b => ruleOrder.indexOf a < ruleOrder.indexOf b) ∧
        (f.patterns.map PatternFinding.type).Nodup ∧
        f.patterns.length ≤ 6 ∧ f.complexityScore ≤ 13 := by
  obtain ⟨r, hr, hall, -⟩ := ParseContractSource_ok source
  refine ⟨r, hr, forall_right_of_forall₂ hall ?_⟩
  intro m hm f hf
  obtain ⟨f', hf', -, hpat, -, hscore⟩ := analyzeFunction_ok hm
  rw [hf] at hf'
  cases hf'
  have hsub : (f.patterns.map PatternFinding.type).Sublist ruleOrder := by
    rw [hpat]; exact detectPatterns_sublist _
  have hlen : f.patterns.length ≤ 6 := by rw [hpat]; exact detectPatterns_length_le _
  have hord : ruleOrder.Pairwise (fun a b => ruleOrder.indexOf a < ruleOrder.indexOf b) := by
    decide
  have hnd : ruleOrder.Nodup := by decide
  refine ⟨hsub, hord.sublist hsub, hnd.sublist hsub, hlen, ?_⟩
  rw [hscore]
  unfold u32
  omega

/-- **C9.** Scenario A: for `contract Foo { function bar() public { x = 1; } }` the analysis
succeeds, the name of the report is `Foo`, and the report has exactly one function, named
`bar`, with visibility `public`, state mutability `nonpayable`, and exactly one finding, of
kind `storage_write` with `estimatedGas = 20000`. -/
theorem scenarioA_report :
    (ParseContractSource scenarioA).map ContractReport.summary =
      some ("Foo".toList,
        [{ name := "bar".toList, visibility := "public".toList,
           stateMutability := "nonpayable".toList,
           sourceCode := "function bar() public \x7b x = 1; \x7d".toList,
           findings := [("storage_write", 20000)],
           complexityScore := 3 }]) := by
  decide!

/-- **C8** (the claim fails).  Scenario B: the findings of `f` are not the two findings loop
(5000) and array_operation (1000), and its complexity score is not 5. -/
theorem scenarioB_not_two_findings :
    (ParseContractSource scenarioB).map
        (fun r => r.functions.map fun f =>
          (f.patterns.map (fun p => (p.type, p.estimatedGas)), f.complexityScore)) ≠
      some [([("loop", 5000), ("array_operation", 1000)], 5)] := by
  decide!

/-- **C8** (amended).  Scenario B: for
`contract C { function f() { for (uint i=0;i<10;i++) { y.push(i); } } }` the analysis succeeds
and the report has exactly one function, named `f`, whose findings are exactly three: loop
(5000), storage_write (20000, for the initialiser `i=0` of the loop) and array_operation
(1000); its complexity score is 7. -/
theorem scenarioB_report :
    (ParseContractSource scenarioB).map ContractReport.summary =
      some ("C".toList,
        [{ name := "f".toList, visibility := "public".toList,
           stateMutability := "nonpayable".toList,
           sourceCode := "function f() \x7b for (uint i=0;i<10;i++) \x7b y.push(i); \x7d \x7d".toList,
           findings := [("loop", 5000), ("storage_write", 20000), ("array_operation", 1000)],
           complexityScore := 7 }]) ∧
    (regexIterate storage_regex
        "function f() \x7b for (uint i=0;i<10;i++) \x7b y.push(i); \x7d \x7d".toList).map
      (fun m => m.str "function f() \x7b for (uint i=0;i<10;i++) \x7b y.push(i); \x7d \x7d".toList)
      = ["i=0".toList] := by
  decide!

/-! ## Evaluating the matcher -/

/-- A greedy repetition of a character class is a loop of single steps. -/
theorem Regex.run_star_cls (p : Char → Bool) (s : MState) (k : MState → Option MState) :
    (Regex.star (.cls p)).run s k = starLoop (fun s' k' => s'.eat p k') s.rest.length s k := rfl

theorem MState.eat_cons (p : Char → Bool) (prev : Option Char) (c : Char) (cs : List Char)
    (caps : List (Nat × List Char)) (k : MState → Option MState) :
    MState.eat p { prev := prev, rest := c :: cs, caps := caps } k =
      if p c then k { prev := some c, rest := cs, caps := caps } else none := rfl

theorem MState.eat_nil (p : Char → Bool) (prev : Option Char)
    (caps : List (Nat × List Char)) (k : MState → Option MState) :
    MState.eat p { prev := prev, rest := [], caps := caps } k = none := rfl

theorem getLast?_cons_orElse (d : Char) (ds : List Char) (f : Unit → Option Char) :
    ((d :: ds).getLast?).orElse f = (d :: ds).getLast? := by
  rw [List.getLast?_eq_getLast _ (List.cons_ne_nil _ _)]
  rfl

/-- A literal matches when the text starts with it. -/
theorem Regex.run_lit_eq (cs : List Char) :
    ∀ (s : MState) (k : MState → Option MState),
      (Regex.lit cs).run s k =
        if cs.isPrefixOf s.rest then
          k { prev := (cs.getLast?).orElse (fun _ => s.prev), rest := s.rest.drop cs.length,
              caps := s.caps }
        else none := by
  induction cs with
  | nil => intro s k; simp [Regex.lit, Regex.run]
  | cons c cs ih =>
    intro s k
    have hstep : (Regex.lit (c :: cs)).run s k =
        s.eat (fun x => x == c) (fun s' => (Regex.lit cs).run s' k) := by
      cases cs with
      | nil => simp [Regex.lit, Regex.run]
      | cons d ds => rfl
    rw [hstep]
    obtain ⟨prev, rest, caps⟩ := s
    cases rest with
    | nil => simp [MState.eat_nil, List.isPrefixOf]
    | cons x xs =>
      rw [MState.eat_cons]
      by_cases hx : x = c
      · subst hx
        simp only [beq_self_eq_true, if_true, ih, List.isPrefixOf, Bool.true_and,
          List.drop_succ_cons, List.length_cons]
        cases cs with
        | nil => simp
        | cons d ds =>
          rw [List.getLast?_cons_cons, getLast?_cons_orElse, getLast?_cons_orElse]
      · have h1 : (x == c) = false := by simpa using hx
        have h2 : (c == x) = false := by simpa using (fun h : c = x => hx h.symm)
        simp [h1, h2, List.isPrefixOf]

/-- One round of a greedy loop over a character class. -/
theorem starLoop_eat_cons (p : Char → Bool) (fuel : Nat) (prev : Option Char) (c : Char)
    (cs : List Char) (caps : List (Nat × List Char)) (k : MState → Option MState) :
    starLoop (fun s' k' => s'.eat p k') (fuel + 1) { prev := prev, rest := c :: cs, caps := caps } k =
      if p c then
        match starLoop (fun s' k' => s'.eat p k') fuel
          { prev := some c, rest := cs, caps := caps } k with
        | some r => some r
        | none => k { prev := prev, rest := c :: cs, caps := caps }
      else k { prev := prev, rest := c :: cs, caps := caps } := by
  rw [starLoop, MState.eat_cons]
  cases hp : p c with
  | true => simp only [if_true, List.length_cons, Nat.lt_add_one]
  | false => rfl

theorem starLoop_eat_nil (p : Char → Bool) (fuel : Nat) (prev : Option Char)
    (caps : List (Nat × List Char)) (k : MState → Option MState) :
    starLoop (fun s' k' => s'.eat p k') fuel { prev := prev, rest := [], caps := caps } k =
      k { prev := prev, rest := [], caps := caps } := by
  cases fuel with
  | zero => rfl
  | succ n => rw [starLoop, MState.eat_nil]

/-- A greedy loop over a character class gives nothing back when the continuation cannot start
with a character of the class: it consumes the longest run of such characters. -/
theorem starLoop_eat_possessive (p : Char → Bool) (k : MState → Option MState)
    (hk : ∀ s c cs, s.rest = c :: cs → p c = true → k s = none) :
    ∀ (text : List Char) (fuel : Nat) (prev : Option Char) (caps : List (Nat × List Char)),
      text.length ≤ fuel →
      starLoop (fun s' k' => s'.eat p k') fuel { prev := prev, rest := text, caps := caps } k =
        k { prev := ((text.takeWhile p).getLast?).orElse (fun _ => prev),
            rest := text.dropWhile p, caps := caps } := by
  intro text
  induction text with
  | nil =>
    intro fuel prev caps _
    rw [starLoop_eat_nil]
    rfl
  | cons c cs ih =>
    intro fuel prev caps hfuel
    cases fuel with
    | zero => simp at hfuel
    | succ fuel =>
      simp only [List.length_cons, Nat.add_le_add_iff_right] at hfuel
      rw [starLoop_eat_cons]
      by_cases hp : p c = true
      · rw [if_pos hp, ih fuel (some c) caps hfuel, List.takeWhile_cons_of_pos hp,
          List.dropWhile_cons_of_pos hp]
        have hprev : ((c :: cs.takeWhile p).getLast?).orElse (fun _ => prev) =
            ((cs.takeWhile p).getLast?).orElse (fun _ => some c) := by
          cases cs.takeWhile p with
          | nil => rfl
          | cons d ds =>
            rw [List.getLast?_cons_cons, getLast?_cons_orElse, getLast?_cons_orElse]
        rw [hprev]
        split
        · next r hr => rw [hr]
        · next hr =>
          rw [hr]
          exact hk _ c cs rfl hp
      · rw [if_neg hp, List.takeWhile_cons_of_neg hp, List.dropWhile_cons_of_neg hp]
        rfl

theorem Regex.run_seq (a b : Regex) (s : MState) (k : MState → Option MState) :
    (Regex.seq a b).run s k = a.run s (fun s' => b.run s' k) := rfl

theorem Regex.run_chr (c : Char) (s : MState) (k : MState → Option MState) :
    (Regex.chr c).run s k = s.eat (fun x => x == c) k := rfl

theorem Regex.run_cls (p : Char → Bool) (s : MState) (k : MState → Option MState) :
    (Regex.cls p).run s k = s.eat p k := rfl

/-- An attempt of the pattern `require\s*\(` succeeds exactly where the text starts with
`require`, optional white space and `(`, and it matches exactly that much. -/
theorem matchHere_require (prev : Option Char) (text : List Char) :
    matchHere require_regex prev text = (requireCallAt text).map fun len => (len, []) := by
  have hre : require_regex =
      .seq (.lit "require".toList) (.seq (.star (.cls isSpaceChar)) (.chr '(')) := rfl
  unfold matchHere requireCallAt
  rw [hre, Regex.run_seq, Regex.run_lit_eq]
  simp only [Regex.run_seq, Regex.run_star_cls, Regex.run_chr]
  cases hpre : "require".toList.isPrefixOf text with
  | false => simp
  | true =>
    simp only [if_true]
    have hposs := starLoop_eat_possessive isSpaceChar
      (fun s' => s'.eat (fun x => x == '(') some) (by
        intro s c cs hs hc
        obtain ⟨sp, sr, sc⟩ := s
        simp only at hs
        subst hs
        beta_reduce
        rw [MState.eat_cons]
        have : c ≠ '(' := by
          intro h; subst h; simp [isSpaceChar] at hc
        have : (c == '(') = false := by simpa using this
        simp [this])
    have hlen : ("require".toList).length = 7 := rfl
    rw [hlen, hposs _ _ _ _ (Nat.le_refl _)]
    have hsplit : text.length = 7 + (((text.drop 7).takeWhile isSpaceChar).length +
        ((text.drop 7).dropWhile isSpaceChar).length) := by
      have h1 := List.length_drop 7 text
      have h2 := congrArg List.length
        (List.takeWhile_append_dropWhile isSpaceChar (text.drop 7))
      have h3 : 7 ≤ text.length := by
        have := List.IsPrefix.length_le (List.isPrefixOf_iff_prefix.1 hpre)
        simpa using this
      simp only [List.length_append] at h2
      omega
    cases hd : (text.drop 7).dropWhile isSpaceChar with
    | nil => simp [MState.eat_nil]
    | cons c cs =>
      rw [hd] at hsplit
      beta_reduce
      rw [MState.eat_cons]
      by_cases hc : c = '('
      · subst hc
        simp only [beq_self_eq_true, if_true, Option.map_some', Option.some.injEq,
          Prod.mk.injEq, and_true]
        simp only [List.length_cons] at hsplit
        omega
      · have : (c == '(') = false := by simpa using hc
        simp [this, hc]

/-- The iterator counts the `require` calls exactly as the plain left-to-right count does. -/
theorem regexScan_require_length :
    ∀ (text : List Char) (prev : Option Char) (pos skip : Nat),
      (regexScan require_regex prev text pos skip).length = countRequireCalls text skip := by
  intro text
  induction text with
  | nil => intro prev pos skip; cases skip <;> rfl
  | cons c cs ih =>
    intro prev pos skip
    cases skip with
    | succ skip => simp [regexScan, countRequireCalls, ih]
    | zero =>
      simp only [regexScan, countRequireCalls, Nat.lt_irrefl, if_false, matchHere_require]
      cases requireCallAt (c :: cs) with
      | none => simp [ih]
      | some len => simp [ih]; omega

theorem requireCount_eq (code : List Char) :
    requireCount code = countRequireCalls code 0 % 2 ^ 32 := by
  unfold requireCount regexIterate u32
  rw [regexScan_require_length]

/-! ## Facts about the pattern detector -/

theorem mem_ite_singleton {α : Type} {c : Prop} [Decidable c] {x p : α} :
    p ∈ (if c then [x] else []) ↔ c ∧ p = x := by
  by_cases h : c <;> simp [h]

/-- The findings of a function, rule by rule. -/
theorem mem_detectPatterns {code : List Char} {p : PatternFinding} :
    p ∈ detectPatterns code ↔
      ((regexSearch loop_regex code).isSome = true ∧ p = loopFinding) ∨
      (0 < storageCount code ∧ p = storageFinding (storageCount code)) ∨
      (0 < requireCount code ∧ p = validationFinding (requireCount code)) ∨
      ((regexSearch external_call_regex code).isSome = true ∧ p = externalCallFinding) ∨
      ((regexSearch array_regex code).isSome = true ∧ p = arrayFinding) ∨
      ((regexSearch string_regex code).isSome = true ∧ p = stringFinding) := by
  unfold detectPatterns
  simp only [List.mem_append, mem_ite_singleton]
  tauto

/-- The validation finding is there exactly when `requireCount` is positive, and it carries
`requireCount * 500` as a `uint32_t`. -/
theorem validation_finding (code : List Char) :
    ((∃ p, p ∈ detectPatterns code ∧ p.type = "validation") ↔ 0 < requireCount code) ∧
      ∀ p, p ∈ detectPatterns code → p.type = "validation" →
        p.estimatedGas = u32 (requireCount code * 500) := by
  constructor
  · constructor
    · rintro ⟨p, hp, ht⟩
      rcases mem_detectPatterns.1 hp with h | h | h | h | h | h
      all_goals first
        | (rw [h.2] at ht
           simp [loopFinding, storageFinding, validationFinding, externalCallFinding,
             arrayFinding, stringFinding] at ht
           done)
        | exact h.1
    · intro h
      exact ⟨_, mem_detectPatterns.2 (Or.inr (Or.inr (Or.inl ⟨h, rfl⟩))), rfl⟩
  · intro p hp ht
    rcases mem_detectPatterns.1 hp with h | h | h | h | h | h
    all_goals first
      | (rw [h.2] at ht
         simp [loopFinding, storageFinding, validationFinding, externalCallFinding,
           arrayFinding, stringFinding] at ht
         done)
      | (rw [h.2]; rfl)

/-- **C10** (amended).  For every source the analysis succeeds, and for every function of the
report, with `n` the number of occurrences of `require`, optional white space and `(` in its
`sourceCode`, counted from left to right without overlap: a validation finding is present if
and only if `n` is not a multiple of `2 ^ 32`, and when present its `estimatedGas` is
`500 * n` modulo `2 ^ 32`.  Hence for `n < 8589935` (when `500 * n < 2 ^ 32`) the finding is
present if and only if `0 < n`, and its `estimatedGas` is exactly `500 * n`. -/
theorem validation_gas (source : List Char) :
    ∃ r, ParseContractSource source = some r ∧
      ∀ f, f ∈ r.functions →
        ((∃ p, p ∈ f.patterns ∧ p.type = "validation") ↔
          countRequireCalls f.sourceCode 0 % 2 ^ 32 ≠ 0) ∧
        (∀ p, p ∈ f.patterns → p.type = "validation" →
          p.estimatedGas = (500 * countRequireCalls f.sourceCode 0) % 2 ^ 32) ∧
        (countRequireCalls f.sourceCode 0 < 8589935 →
          ((∃ p, p ∈ f.patterns ∧ p.type = "validation") ↔
            0 < countRequireCalls f.sourceCode 0) ∧
          ∀ p, p ∈ f.patterns → p.type = "validation" →
            p.estimatedGas = 500 * countRequireCalls f.sourceCode 0) := by
  obtain ⟨r, hr, hall, -⟩ := ParseContractSource_ok source
  refine ⟨r, hr, forall_right_of_forall₂ hall ?_⟩
  intro m hm f hf
  obtain ⟨f', hf', -, hpat, -, -⟩ := analyzeFunction_ok hm
  rw [hf] at hf'
  cases hf'
  obtain ⟨hiff, hgas⟩ := validation_finding f.sourceCode
  rw [← hpat, requireCount_eq] at hiff hgas
  have hgas' : ∀ p, p ∈ f.patterns → p.type = "validation" →
      p.estimatedGas = (500 * countRequireCalls f.sourceCode 0) % 2 ^ 32 := by
    intro p hp ht
    rw [hgas p hp ht]
    unfold u32
    omega
  refine ⟨?_, hgas', ?_⟩
  · rw [hiff]; omega
  · intro hn
    refine ⟨?_, ?_⟩
    · rw [hiff]; omega
    · intro p hp ht
      rw [hgas' p hp ht]
      omega

/-! ## Long sources -/

/-- An attempt of the signature pattern at `function f() {`, whatever follows. -/
theorem matchHere_function_signature (tail : List Char) :
    matchHere function_regex none
        ('f' :: 'u' :: 'n' :: 'c' :: 't' :: 'i' :: 'o' :: 'n' :: ' ' :: 'f' :: '(' :: ')' ::
          ' ' :: '{' :: tail) =
      some (14, [(2, []), (1, ['f'])]) := by
  simp [matchHere, function_regex, Regex.cat, Regex.lit, Regex.plus, Regex.opt, Regex.oneOf,
    Regex.w, Regex.s, Regex.run, MState.eat, starLoop, isSpaceChar, isWordChar, notCloseParen]
  omega

/-- The first match of a scan. -/
theorem regexScan_head {re : Regex} {prev : Option Char} {c : Char} {cs : List Char}
    {len : Nat} {caps : List (Nat × List Char)} (pos : Nat)
    (h : matchHere re prev (c :: cs) = some (len, caps)) :
    { position := pos, length := len, caps := caps } ∈ regexScan re prev (c :: cs) pos 0 := by
  unfold regexScan
  simp [h]

theorem floodSource_match (unit : List Char) (k : Nat) :
    ({ position := 0, length := 14, caps := [(2, []), (1, ['f'])] } : Match) ∈
      functionMatches (floodSource unit k) :=
  regexScan_head 0 (matchHere_function_signature (repeatText unit k ++ ['}']))

theorem mem_repeatText {unit : List Char} {c : Char} :
    ∀ k, c ∈ repeatText unit k → c ∈ unit := by
  intro k
  induction k with
  | zero => intro h; simp [repeatText] at h
  | succ k ih =>
    intro h
    rw [repeatText, List.mem_append] at h
    exact h.elim id ih

/-- A text without braces followed by `}` is closed by that `}`. -/
theorem closesAt_of_no_brace (body : List Char) (h1 : '{' ∉ body) (h2 : '}' ∉ body) :
    ClosesAt (body ++ ['}']) (body.length + 1) := by
  have hz : ∀ i, (body.take i).count '{' = 0 ∧ (body.take i).count '}' = 0 := by
    intro i
    exact ⟨List.count_eq_zero.2 (fun h => h1 (List.mem_of_mem_take h)),
      List.count_eq_zero.2 (fun h => h2 (List.mem_of_mem_take h))⟩
  refine ⟨by simp, ?_, ?_⟩
  · unfold braceDepth
    rw [List.take_of_length_le (by simp)]
    have a := List.count_eq_zero.2 h1
    have b := List.count_eq_zero.2 h2
    simp [List.count_append, a, b]
  · intro i hi
    unfold braceDepth
    rw [List.take_append_of_le_length (by omega)]
    rw [(hz i).1, (hz i).2]
    decide

/-- The source text of the function of a flood is the whole source. -/
theorem floodSource_record (unit : List Char) (k : Nat) (h1 : '{' ∉ unit) (h2 : '}' ∉ unit) :
    ∃ r f, ParseContractSource (floodSource unit k) = some r ∧ f ∈ r.functions ∧
      f.sourceCode = floodSource unit k ∧ f.patterns = detectPatterns (floodSource unit k) := by
  have hm := floodSource_match unit k
  obtain ⟨r, f, hr, hf, hfm⟩ := record_in_report hm
  obtain ⟨f', hf', hcode, hpat, -⟩ := analyzeFunction_ok hm
  rw [hfm] at hf'
  cases hf'
  rw [functionSourceCode_eq hm] at hcode
  simp only [Option.some.injEq] at hcode
  have hbody : (floodSource unit k).drop (0 + 14) = repeatText unit k ++ ['}'] := rfl
  have hclose := closesAt_of_no_brace (repeatText unit k)
    (fun h => h1 (mem_repeatText k h)) (fun h => h2 (mem_repeatText k h))
  obtain ⟨hn, h0, hpos⟩ := hclose
  unfold braceDepth at h0 hpos
  have hloop := braceLoop_closes (repeatText unit k ++ ['}']) 1 (0 + 14)
    ((repeatText unit k).length + 1) (by omega) (by simpa using h0)
    (fun i hi => by simpa using hpos i hi)
  have hlen : (floodSource unit k).length = 14 + ((repeatText unit k).length + 1) := by
    unfold floodSource
    simp
    omega
  have hsrc : f.sourceCode = floodSource unit k := by
    rw [← hcode]
    show List.take _ (List.drop 0 _) = _
    rw [hbody, hloop, List.drop_zero]
    apply List.take_of_length_le
    omega
  refine ⟨r, f, hr, hf, hsrc, ?_⟩
  rw [hpat, hsrc]

/-- In a flood of `require(x);` every statement is counted once. -/
theorem countRequireCalls_repeat (rest : List Char) :
    ∀ k, countRequireCalls (repeatText "require(x);".toList k ++ rest) 0 =
      k + countRequireCalls rest 0 := by
  intro k
  induction k with
  | zero => simp [repeatText]
  | succ k ih =>
    have hstep : ∀ tail : List Char,
        countRequireCalls ("require(x);".toList ++ tail) 0 = 1 + countRequireCalls tail 0 := by
      intro tail
      simp [countRequireCalls, requireCallAt, List.isPrefixOf, isSpaceChar, List.takeWhile,
        List.dropWhile]
    rw [repeatText, List.append_assoc, hstep, ih]
    omega

theorem countRequireCalls_flood (k : Nat) :
    countRequireCalls (floodSource "require(x);".toList k) 0 = k := by
  have hpre : ∀ tail : List Char,
      countRequireCalls ("function f() \x7b".toList ++ tail) 0 = countRequireCalls tail 0 := by
    intro tail
    simp [countRequireCalls, requireCallAt, List.isPrefixOf]
  unfold floodSource
  rw [hpre, countRequireCalls_repeat]
  simp [countRequireCalls, requireCallAt, List.isPrefixOf]

/-- **C10** (the claim fails).  The function of the source `requireFlood` has 8589935 calls
of `require`, and its validation finding has `estimatedGas = 204`, not
`500 * 8589935 = 4294967500`. -/
theorem validation_gas_wraps :
    ∃ r f, ParseContractSource requireFlood = some r ∧ f ∈ r.functions ∧
      countRequireCalls f.sourceCode 0 = 8589935 ∧
      (∃ p, p ∈ f.patterns ∧ p.type = "validation" ∧ p.estimatedGas = 204) ∧
      500 * 8589935 ≠ 204 := by
  obtain ⟨r, f, hr, hf, hsrc, hpat⟩ := floodSource_record "require(x);".toList 8589935
    (by decide) (by decide)
  have hcount : countRequireCalls (floodSource "require(x);".toList 8589935) 0 = 8589935 :=
    countRequireCalls_flood 8589935
  have hreq : requireCount (floodSource "require(x);".toList 8589935) = 8589935 := by
    rw [requireCount_eq, hcount]
    decide
  refine ⟨r, f, hr, hf, by rw [hsrc]; exact hcount, ?_, by decide⟩
  refine ⟨validationFinding 8589935, ?_, rfl, by decide⟩
  rw [hpat]
  exact mem_detectPatterns.2 (Or.inr (Or.inr (Or.inl ⟨by rw [hreq]; decide, by rw [hreq]⟩)))

/-- The counter of the storage rule is the plain left-to-right count of the matches that pass
the test, as a `uint32_t`. -/
theorem regexScan_filter_length (re : Regex) (ok : List Char → Bool) (code : List Char) :
    ∀ (text : List Char) (prev : Option Char) (pos skip : Nat), code.drop pos = text →
      ((regexScan re prev text pos skip).filter fun m => ok (m.str code)).length =
        countMatches re ok prev text skip := by
  intro text
  induction text with
  | nil => intro prev pos skip _; cases skip <;> rfl
  | cons c cs ih =>
    intro prev pos skip hdrop
    have hnext : code.drop (pos + 1) = cs := by
      rw [← List.drop_drop, hdrop]
      rfl
    cases skip with
    | succ skip => simp [regexScan, countMatches, ih _ _ _ hnext]
    | zero =>
      simp only [regexScan, countMatches, Nat.lt_irrefl, if_false]
      cases hm : matchHere re prev (c :: cs) with
      | none => simp [ih _ _ _ hnext]
      | some lc =>
        obtain ⟨len, caps⟩ := lc
        have hstr : Match.str { position := pos, length := len, caps := caps } code =
            (c :: cs).take len := by simp [Match.str, hdrop]
        have hih := ih (some c) (pos + 1) (len - 1) hnext
        simp only [List.filter_cons, hstr]
        split
        · rw [List.length_cons, hih]; omega
        · rw [hih]; omega

theorem storageCount_eq (code : List Char) :
    storageCount code = countMatches storage_regex isStorageWrite none code 0 % 2 ^ 32 := by
  unfold storageCount regexIterate u32
  rw [regexScan_filter_length storage_regex isStorageWrite code code none 0 0 rfl]

/-- A test that rejects `{` cannot take the matcher past the brace: when the continuation
fails everywhere before the brace, so does consuming one character. -/
theorem eat_plain_none {t : List Char} {p : Char → Bool} {k : MState → Option MState}
    (hp : p '{' = false) (hk : ∀ s, PlainUpToBrace t s → k s = none) :
    ∀ s, PlainUpToBrace t s → s.eat p k = none := by
  intro s hs
  obtain ⟨prev, rest, caps⟩ := s
  obtain ⟨u, hu, hplain⟩ := hs
  simp only at hu
  subst hu
  cases u with
  | nil => simp [MState.eat, hp]
  | cons c u =>
    rw [List.cons_append, MState.eat_cons]
    split
    · exact hk _ ⟨u, rfl, fun d hd => hplain d (List.mem_cons_of_mem _ hd)⟩
    · rfl

/-- A test that rejects `{` and every character other than `[`, `.`, `=` fails before the
brace. -/
theorem eat_plain_fail {t : List Char} {p : Char → Bool} {k : MState → Option MState}
    (hp : p '{' = false) (hq : ∀ c, c ≠ '[' ∧ c ≠ '.' ∧ c ≠ '=' → p c = false) :
    ∀ s, PlainUpToBrace t s → s.eat p k = none := by
  intro s hs
  obtain ⟨prev, rest, caps⟩ := s
  obtain ⟨u, hu, hplain⟩ := hs
  simp only at hu
  subst hu
  cases u with
  | nil => simp [MState.eat, hp]
  | cons c u =>
    rw [List.cons_append, MState.eat_cons, hq c (hplain c (List.mem_cons_self _ _))]
    rfl

/-- A greedy loop over a class that rejects `{` stays before the brace. -/
theorem starLoop_plain_none {t : List Char} {p : Char → Bool} {k : MState → Option MState}
    (hp : p '{' = false) (hk : ∀ s, PlainUpToBrace t s → k s = none) :
    ∀ (fuel : Nat) (s : MState), PlainUpToBrace t s →
      starLoop (fun s' k' => s'.eat p k') fuel s k = none := by
  intro fuel
  induction fuel with
  | zero => intro s hs; exact hk s hs
  | succ n ih =>
    intro s hs
    rw [starLoop]
    have : s.eat p (fun s' =>
        if s'.rest.length < s.rest.length then starLoop (fun s' k' => s'.eat p k') n s' k
        else none) = none := by
      apply eat_plain_none hp _ s hs
      intro s' hs'
      split
      · exact ih s' hs'
      · rfl
    rw [this]
    exact hk s hs

/-- No match of the assignment pattern starts before the brace. -/
theorem matchHere_storage_plain {t : List Char} {prev : Option Char} {text : List Char}
    (h : PlainUpToBrace t { prev := prev, rest := text, caps := [] }) :
    matchHere storage_regex prev text = none := by
  have hre : storage_regex = .alt
      (.seq (.seq (.cls isWordChar) (.star (.cls isWordChar)))
        (.seq (.star (.cls isSpaceChar)) (.seq (.cls isBracketOrDot)
          (.cat [.lazyStar (.cls isDotChar), .chr ']', .star .s, .chr '=']))))
      (.seq (.seq (.cls isWordChar) (.star (.cls isWordChar)))
        (.seq (.star (.cls isSpaceChar)) (.seq (.chr '=')
          (.cat [.star .s, .cls notComparisonChar])))) := rfl
  have hbr : ∀ c : Char, c ≠ '[' ∧ c ≠ '.' ∧ c ≠ '=' → isBracketOrDot c = false := by
    intro c hc
    simp [isBracketOrDot, hc.1, hc.2.1]
  have heq : ∀ c : Char, c ≠ '[' ∧ c ≠ '.' ∧ c ≠ '=' → (c == '=') = false := by
    intro c hc
    simpa using hc.2.2
  have tail : ∀ (p : Char → Bool) (k : MState → Option MState), p '{' = false →
      (∀ c, c ≠ '[' ∧ c ≠ '.' ∧ c ≠ '=' → p c = false) →
      ∀ s, PlainUpToBrace t s →
        s.eat isWordChar (fun s1 =>
          starLoop (fun s' k' => s'.eat isWordChar k') s1.rest.length s1 (fun s2 =>
            starLoop (fun s' k' => s'.eat isSpaceChar k') s2.rest.length s2 (fun s3 =>
              s3.eat p k))) = none := by
    intro p k hp hq s hs
    apply eat_plain_none (by decide) _ s hs
    intro s1 hs1
    apply starLoop_plain_none (by decide) _ _ s1 hs1
    intro s2 hs2
    apply starLoop_plain_none (by decide) _ _ s2 hs2
    intro s3 hs3
    exact eat_plain_fail hp hq s3 hs3
  unfold matchHere
  rw [hre]
  simp only [Regex.run, Regex.run_seq, Regex.run_cls, Regex.run_chr, Regex.run_star_cls]
  rw [tail isBracketOrDot _ (by decide) hbr _ h, tail (fun x => x == '=') _ (by decide) heq _ h]

/-- The scan for assignments finds nothing in a text without `[`, `.`, `=` that ends at a
brace. -/
theorem countMatches_storage_plain (ok : List Char → Bool) (t : List Char) :
    ∀ (u : List Char) (prev : Option Char), (∀ c, c ∈ u → c ≠ '[' ∧ c ≠ '.' ∧ c ≠ '=') →
      countMatches storage_regex ok prev (u ++ '{' :: t) 0 =
        countMatches storage_regex ok (some '{') t 0 := by
  intro u
  induction u with
  | nil =>
    intro prev _
    have h := @matchHere_storage_plain t prev ('{' :: t)
      ⟨[], rfl, fun c hc => by simp at hc⟩
    rw [List.nil_append, countMatches, h]
  | cons c u ih =>
    intro prev hplain
    have h := @matchHere_storage_plain t prev (c :: (u ++ '{' :: t))
      ⟨c :: u, rfl, hplain⟩
    rw [List.cons_append, countMatches, h]
    exact ih (some c) (fun d hd => hplain d (List.mem_cons_of_mem _ hd))

/-- The count of `require` calls finds nothing in a text without the word `require` that ends
at a brace. -/
theorem countRequireCalls_plain (t : List Char) :
    ∀ (u : List Char), ¬ "require".toList <:+: u →
      countRequireCalls (u ++ '{' :: t) 0 = countRequireCalls t 0 := by
  intro u
  induction u with
  | nil =>
    intro _
    rw [List.nil_append, countRequireCalls]
    simp [requireCallAt, List.isPrefixOf]
  | cons c u ih =>
    intro hno
    have hnone : requireCallAt (c :: u ++ '{' :: t) = none := by
      unfold requireCallAt
      rw [if_neg]
      intro hpre
      have h1 : "require".toList <+: (c :: u) ++ '{' :: t := List.isPrefixOf_iff_prefix.1 hpre
      have h2 : (c :: u) <+: (c :: u) ++ '{' :: t := List.prefix_append _ _
      rcases List.prefix_or_prefix_of_prefix h1 h2 with h | h
      · exact hno h.isInfix
      · obtain ⟨r, hr⟩ := h
        rw [← hr, List.prefix_append_right_inj] at h1
        cases r with
        | nil =>
          rw [List.append_nil] at hr
          exact hno (hr ▸ List.infix_refl _)
        | cons d r =>
          have hd : d = '{' := by
            obtain ⟨w, hw⟩ := h1
            simp at hw
            exact hw.1
          have hmem : '{' ∈ "require".toList := by
            rw [← hr, hd]
            simp
          exact absurd hmem (by decide)
    rw [List.cons_append, countRequireCalls, ← List.cons_append, hnone]
    exact ih (fun h => hno (h.trans (List.infix_cons (List.infix_refl _))))

/-- A body that is closed stays closed, at the same character, whatever follows it. -/
theorem closesAt_append {body : List Char} {n : Nat} (rest : List Char)
    (h : ClosesAt body n) : ClosesAt (body ++ rest) n := by
  obtain ⟨hn, h0, hpos⟩ := h
  refine ⟨by simp; omega, ?_, ?_⟩
  · unfold braceDepth at h0 ⊢
    rw [List.take_append_of_le_length hn]
    exact h0
  · intro i hi
    have := hpos i hi
    unfold braceDepth at this ⊢
    rw [List.take_append_of_le_length (by omega)]
    exact this

/-- The source text of a function whose body is closed by its `n`-th character. -/
theorem functionSourceCode_closes {source : List Char} {m : Match} {n : Nat}
    (hm : m ∈ functionMatches source)
    (hclose : ClosesAt (source.drop (m.position + m.length)) n) :
    functionSourceCode source m =
      some (m.str source ++ (source.drop (m.position + m.length)).take n) := by
  rw [functionSourceCode_eq hm]
  obtain ⟨sig, tail, hsrc, hlen, -, -, hdrop⟩ := functionMatches_split hm
  obtain ⟨hn, h0, hpos⟩ := hclose
  rw [hdrop] at hn h0 hpos
  unfold braceDepth at h0 hpos
  have hloop := braceLoop_closes tail 1 (m.position + m.length) n (by omega)
    (by simpa using h0) (fun i hi => by simpa using hpos i hi)
  have h1 : m.str source = sig := by
    rw [Match.str, hsrc, ← hlen, List.take_left' rfl]
  have h2 : (source.drop m.position).take (m.position + m.length + n - m.position) =
      sig ++ tail.take n := by
    rw [hsrc, show m.position + m.length + n - m.position = sig.length + n by omega,
      List.take_append]
  rw [hdrop, hloop, h1, h2]

/-- **C7** (amended).  Scenario E: for every source and every function in it whose body is
` require(x > 0); balance[msg.sender] = x; }` and whose signature (the matched text, from
`function` to the opening brace) contains none of the characters `[`, `.`, `=` and not the
word `require`, the analysis succeeds and the function's patterns contain a validation finding
with `estimatedGas = 500` and a storage_write finding with `estimatedGas = 20000`: one call of
`require` and one match of the assignment pattern are counted. -/
theorem scenarioE_findings (source : List Char) (m : Match) (rest : List Char)
    (hm : m ∈ functionMatches source)
    (hbody : source.drop (m.position + m.length) = scenarioEBody ++ rest)
    (hplain : ∀ c, c ∈ m.str source → c ≠ '[' ∧ c ≠ '.' ∧ c ≠ '=')
    (hreq : ¬ "require".toList <:+: m.str source) :
    ∃ r f, ParseContractSource source = some r ∧ f ∈ r.functions ∧
      analyzeFunction source m = some f ∧
      f.sourceCode = m.str source ++ scenarioEBody ∧
      (∃ p, p ∈ f.patterns ∧ p.type = "validation" ∧ p.estimatedGas = 500) ∧
      (∃ p, p ∈ f.patterns ∧ p.type = "storage_write" ∧ p.estimatedGas = 20000) ∧
      countRequireCalls f.sourceCode 0 = 1 ∧
      countMatches storage_regex isStorageWrite none f.sourceCode 0 = 1 := by
  obtain ⟨r, f, hr, hf, hfm⟩ := record_in_report hm
  obtain ⟨f', hf', hcode, hpat, -⟩ := analyzeFunction_ok hm
  rw [hfm] at hf'
  cases hf'
  have hclose : ClosesAt (source.drop (m.position + m.length)) scenarioEBody.length := by
    rw [hbody]
    exact closesAt_append rest (by decide!)
  rw [functionSourceCode_closes hm hclose, hbody, List.take_left' rfl] at hcode
  simp only [Option.some.injEq] at hcode
  obtain ⟨sig, tail, hsrc, hlen, -, hlast, -⟩ := functionMatches_split hm
  have hstr : m.str source = sig := by
    rw [Match.str, hsrc, ← hlen, List.take_left' rfl]
  rw [hstr] at hcode hplain hreq
  obtain ⟨u, hu⟩ : ∃ u, sig = u ++ ['{'] := by
    rcases List.eq_nil_or_concat sig with h | ⟨u, c, h⟩
    · rw [h] at hlast; simp at hlast
    · rw [h] at hlast
      simp at hlast
      exact ⟨u, by rw [h, hlast]; simp⟩
  have hcode' : f.sourceCode = u ++ '{' :: scenarioEBody := by
    rw [← hcode, hu]; simp
  have hreqCount : countRequireCalls f.sourceCode 0 = 1 := by
    rw [hcode', countRequireCalls_plain _ u
      (fun h => hreq (hu ▸ h.trans (List.infix_append' [] u ['{'])))]
    decide!
  have hstoCount : countMatches storage_regex isStorageWrite none f.sourceCode 0 = 1 := by
    rw [hcode', countMatches_storage_plain _ _ u none
      (fun c hc => hplain c (by rw [hu]; exact List.mem_append_left _ hc))]
    decide!
  have h1 : requireCount f.sourceCode = 1 := by rw [requireCount_eq, hreqCount]; decide
  have h2 : storageCount f.sourceCode = 1 := by rw [storageCount_eq, hstoCount]; decide
  refine ⟨r, f, hr, hf, hfm, by rw [hstr]; exact hcode.symm, ?_, ?_, hreqCount, hstoCount⟩
  · refine ⟨validationFinding 1, ?_, rfl, by decide⟩
    rw [hpat]
    exact mem_detectPatterns.2 (Or.inr (Or.inr (Or.inl ⟨by rw [h1]; decide, by rw [h1]⟩)))
  · refine ⟨storageFinding 1, ?_, rfl, by decide⟩
    rw [hpat]
    exact mem_detectPatterns.2 (Or.inr (Or.inl ⟨by rw [h2]; decide, by rw [h2]⟩))

/-- Witness of C7: the source of Scenario E itself, whose signature is
`function f(uint x) public {`. -/
theorem scenarioE_findings_witness :
    (⟨13, 27, [(3, "public".toList), (2, "uint x".toList), (1, "f".toList)]⟩ : Match) ∈
        functionMatches scenarioE ∧
      scenarioE.drop (13 + 27) = scenarioEBody ++ " \x7d".toList ∧
      ∃ r f, ParseContractSource scenarioE = some r ∧ f ∈ r.functions ∧
        f.sourceCode = "function f(uint x) public \x7b".toList ++ scenarioEBody ∧
        (∃ p, p ∈ f.patterns ∧ p.type = "validation" ∧ p.estimatedGas = 500) ∧
        (∃ p, p ∈ f.patterns ∧ p.type = "storage_write" ∧ p.estimatedGas = 20000) :=
  ⟨by decide!, by decide!,
    (scenarioE_findings scenarioE
      ⟨13, 27, [(3, "public".toList), (2, "uint x".toList), (1, "f".toList)]⟩ " \x7d".toList
      (by decide!) (by decide!) (by decide!) (by decide!)).imp fun _ h => h.imp fun _ h =>
        ⟨h.1, h.2.1, h.2.2.2.1, h.2.2.2.2.1, h.2.2.2.2.2.1⟩⟩

/-- **C7** (the claim fails).  In
`contract C { function f(uint[] a) public { require(x > 0); balance[msg.sender] = x; } }` the
single function has the body of Scenario E, but its only finding is the validation finding:
the one match of the assignment pattern runs from `uint[` to `balance[msg.sender] =`, contains
`require`, and is not counted. -/
theorem scenarioE_array_parameter :
    (ParseContractSource scenarioEArray).map
        (fun r => r.functions.map fun f =>
          (f.sourceCode, f.patterns.map fun p => (p.type, p.estimatedGas))) =
      some [("function f(uint[] a) public \x7b".toList ++ scenarioEBody,
        [("validation", 500)])] ∧
    (regexIterate storage_regex ("function f(uint[] a) public \x7b".toList ++ scenarioEBody)).map
        (fun m => m.str ("function f(uint[] a) public \x7b".toList ++ scenarioEBody)) =
      ["uint[] a) public \x7b require(x > 0); balance[msg.sender] =".toList] := by
  decide!

/-! ## Simple assignment statements -/

theorem not_space_of_word {c : Char} (h : isWordChar c = true) : isSpaceChar c = false := by
  simp only [isWordChar, isSpaceChar, Bool.or_eq_true, Bool.and_eq_true, decide_eq_true_eq,
    beq_iff_eq] at h ⊢
  simp only [Bool.or_eq_false_iff, Bool.and_eq_false_iff, beq_eq_false_iff_ne,
    decide_eq_false_iff_not]
  omega

theorem char_ne_of_toNat_ne {c d : Char} (h : c.toNat ≠ d.toNat) : c ≠ d := by
  intro e; exact h (by rw [e])

/-- A word character is none of the characters `[ . = ! < > ; { }` and no blank. -/
theorem word_char_plain {c : Char} (h : isWordChar c = true) :
    c ≠ '[' ∧ c ≠ '.' ∧ c ≠ '=' ∧ c ≠ '!' ∧ c ≠ '<' ∧ c ≠ '>' ∧ c ≠ ';' ∧ c ≠ '{' ∧ c ≠ '}' ∧
      c ≠ ' ' ∧ c ≠ ']' := by
  simp only [isWordChar, Bool.or_eq_true, Bool.and_eq_true, decide_eq_true_eq,
    beq_iff_eq] at h
  refine ⟨?_, ?_, ?_, ?_, ?_, ?_, ?_, ?_, ?_, ?_, ?_⟩ <;>
    (apply char_ne_of_toNat_ne; simp; omega)

theorem not_word_of_space {c : Char} (h : isSpaceChar c = true) : isWordChar c = false := by
  cases hw : isWordChar c with
  | false => rfl
  | true => rw [not_space_of_word hw] at h; exact absurd h (by decide)

theorem dropWhile_run {p : Char → Bool} {x : Char} (R : List Char) (hx : p x = false) :
    ∀ l : List Char, (∀ c, c ∈ l → p c = true) → (l ++ x :: R).dropWhile p = x :: R := by
  intro l
  induction l with
  | nil => intro _; rw [List.nil_append, List.dropWhile_cons_of_neg (by simp [hx])]
  | cons c l ih =>
    intro h
    rw [List.cons_append, List.dropWhile_cons_of_pos (h c (List.mem_cons_self _ _))]
    exact ih (fun d hd => h d (List.mem_cons_of_mem _ hd))

/-- A greedy loop over a class runs through a run of characters of the class that ends at a
character outside it, when the continuation cannot start with a character of the class. -/
theorem starLoop_eat_run (p : Char → Bool) (k : MState → Option MState)
    (hk : ∀ s c cs, s.rest = c :: cs → p c = true → k s = none)
    (l : List Char) (x : Char) (R : List Char) (hl : ∀ c, c ∈ l → p c = true)
    (hx : p x = false) (prev : Option Char) (caps : List (Nat × List Char)) :
    ∃ prev', starLoop (fun s' k' => s'.eat p k') (l ++ x :: R).length
        { prev := prev, rest := l ++ x :: R, caps := caps } k =
      k { prev := prev', rest := x :: R, caps := caps } := by
  refine ⟨(((l ++ x :: R).takeWhile p).getLast?).orElse (fun _ => prev), ?_⟩
  rw [starLoop_eat_possessive p k hk _ _ _ _ (Nat.le_refl _), dropWhile_run R hx l hl]

/-- The common start of the two alternatives of the assignment pattern, `\w+\s*` and a test
`q` on the next character: on an identifier, white space and a character `x` that is neither,
the test is applied to `x`. -/
theorem storage_head (q : Char → Bool) (K : MState → Option MState)
    (hqw : ∀ c, isWordChar c = true → q c = false)
    (hqs : ∀ c, isSpaceChar c = true → q c = false)
    (t0 : Char) (ts blanks : List Char) (x : Char) (R : List Char)
    (h0 : isWordChar t0 = true) (hts : ∀ c, c ∈ ts → isWordChar c = true)
    (hb : ∀ c, c ∈ blanks → isSpaceChar c = true)
    (hxw : isWordChar x = false) (hxs : isSpaceChar x = false) (prev : Option Char) :
    ∃ prev',
      MState.eat isWordChar { prev := prev, rest := t0 :: (ts ++ (blanks ++ x :: R)), caps := [] }
        (fun s1 => starLoop (fun s' k' => s'.eat isWordChar k') s1.rest.length s1
          (fun s2 => starLoop (fun s' k' => s'.eat isSpaceChar k') s2.rest.length s2
            (fun s3 => s3.eat q K))) =
      MState.eat q { prev := prev', rest := x :: R, caps := [] } K := by
  -- the continuation after the white space
  have hk2 : ∀ (s : MState) c cs, s.rest = c :: cs → isSpaceChar c = true → s.eat q K = none := by
    intro s c cs hs hc
    obtain ⟨sp, sr, sc⟩ := s
    simp only at hs
    subst hs
    rw [MState.eat_cons, hqs c hc]
    rfl
  -- the continuation after the identifier
  have hk1 : ∀ (s : MState) c cs, s.rest = c :: cs → isWordChar c = true →
      starLoop (fun s' k' => s'.eat isSpaceChar k') s.rest.length s (fun s3 => s3.eat q K) =
        none := by
    intro s c cs hs hc
    obtain ⟨sp, sr, sc⟩ := s
    simp only at hs
    subst hs
    rw [List.length_cons, starLoop_eat_cons, not_space_of_word hc, MState.eat_cons, hqw c hc]
    rfl
  rw [MState.eat_cons, h0, if_pos rfl]
  cases blanks with
  | nil =>
    obtain ⟨p1, e1⟩ := starLoop_eat_run isWordChar _ hk1 ts x R hts hxw (some t0) []
    rw [List.nil_append]
    rw [e1]
    rw [List.length_cons, starLoop_eat_cons, hxs]
    exact ⟨p1, rfl⟩
  | cons b bs =>
    have hbw : isWordChar b = false := not_word_of_space (hb b (List.mem_cons_self _ _))
    obtain ⟨p1, e1⟩ := starLoop_eat_run isWordChar _ hk1 ts b (bs ++ x :: R) hts hbw (some t0) []
    rw [List.cons_append]
    rw [e1]
    obtain ⟨p2, e2⟩ := starLoop_eat_run isSpaceChar _ hk2 (b :: bs) x R hb hxs p1 []
    rw [List.cons_append] at e2
    rw [e2]
    exact ⟨p2, rfl⟩

/-- The two alternatives of the assignment pattern, spelled out. -/
theorem matchHere_storage_eq (prev : Option Char) (text : List Char) :
    matchHere storage_regex prev text =
      match
        (match MState.eat isWordChar { prev := prev, rest := text, caps := [] }
          (fun s1 => starLoop (fun s' k' => s'.eat isWordChar k') s1.rest.length s1
            (fun s2 => starLoop (fun s' k' => s'.eat isSpaceChar k') s2.rest.length s2
              (fun s3 => s3.eat isBracketOrDot (fun s4 =>
                (Regex.cat [.lazyStar (.cls isDotChar), .chr ']', .star .s, .chr '=']).run s4
                  some)))) with
        | some r => some r
        | none =>
          MState.eat isWordChar { prev := prev, rest := text, caps := [] }
            (fun s1 => starLoop (fun s' k' => s'.eat isWordChar k') s1.rest.length s1
              (fun s2 => starLoop (fun s' k' => s'.eat isSpaceChar k') s2.rest.length s2
                (fun s3 => s3.eat (fun c => c == '=') (fun s4 =>
                  (Regex.cat [.star .s, .cls notComparisonChar]).run s4 some))))) with
      | some s => some (text.length - s.rest.length, s.caps)
      | none => none := rfl

/-- An attempt at `target = v...`: the second alternative matches `target = v`. -/
theorem matchHere_storage_assign (t0 : Char) (ts : List Char) (v : Char) (W : List Char)
    (h0 : isWordChar t0 = true) (hts : ∀ c, c ∈ ts → isWordChar c = true)
    (hv : isWordChar v = true) (prev : Option Char) :
    matchHere storage_regex prev (t0 :: (ts ++ ([' '] ++ '=' :: (' ' :: v :: W)))) =
      some (ts.length + 5, []) := by
  obtain ⟨p1, e1⟩ := storage_head isBracketOrDot
    (fun s4 => (Regex.cat [.lazyStar (.cls isDotChar), .chr ']', .star .s, .chr '=']).run s4 some)
    (fun c hc => by
      have := word_char_plain hc
      simp [isBracketOrDot, this.1, this.2.1])
    (fun c hc => by
      cases hq : isBracketOrDot c with
      | false => rfl
      | true =>
        simp only [isBracketOrDot, Bool.or_eq_true, beq_iff_eq] at hq
        rcases hq with hq | hq <;> rw [hq] at hc <;> exact absurd hc (by decide))
    t0 ts [' '] '=' (' ' :: v :: W) h0 hts (by simp; decide) (by decide) (by decide) prev
  obtain ⟨p2, e2⟩ := storage_head (fun c => c == '=')
    (fun s4 => (Regex.cat [.star .s, .cls notComparisonChar]).run s4 some)
    (fun c hc => by
      have := word_char_plain hc
      simpa using this.2.2.1)
    (fun c hc => by
      show (c == '=') = false
      cases hq : (c == '=') with
      | false => rfl
      | true =>
        simp only [beq_iff_eq] at hq
        rw [hq] at hc; exact absurd hc (by decide))
    t0 ts [' '] '=' (' ' :: v :: W) h0 hts (by simp; decide) (by decide) (by decide) prev
  have hnc : notComparisonChar v = true := by
    have := word_char_plain hv
    simp [notComparisonChar, this.2.2.1, this.2.2.2.1, this.2.2.2.2.1, this.2.2.2.2.2.1]
  have hrun : (Regex.cat [.star .s, .cls notComparisonChar]).run
      { prev := some '=', rest := ' ' :: v :: W, caps := [] } some =
      some { prev := some v, rest := W, caps := [] } := by
    show starLoop (fun s' k' => s'.eat isSpaceChar k') (' ' :: v :: W).length
      { prev := some '=', rest := ' ' :: v :: W, caps := [] }
      (fun s5 => s5.eat notComparisonChar some) = _
    rw [List.length_cons, starLoop_eat_cons, if_pos (by decide), List.length_cons,
      starLoop_eat_cons, not_space_of_word hv]
    simp only [Bool.false_eq_true, if_false, MState.eat_cons, hnc, if_true]
  rw [matchHere_storage_eq, e1, e2, MState.eat_cons, MState.eat_cons]
  simp only [show isBracketOrDot '=' = false by decide, show ('=' == '=') = true by decide,
    Bool.false_eq_true, if_false, if_true, hrun]
  simp
  omega

/-- A text does not start with `needle` when it consists of a text without `needle`, a
character that is not in `needle`, and more text. -/
theorem isPrefixOf_stop {needle u : List Char} {x : Char} (t : List Char)
    (hno : ¬ needle <:+: u) (hx : x ∉ needle) : needle.isPrefixOf (u ++ x :: t) = false := by
  cases hpre : needle.isPrefixOf (u ++ x :: t) with
  | false => rfl
  | true =>
    exfalso
    have h1 : needle <+: u ++ x :: t := List.isPrefixOf_iff_prefix.1 hpre
    have h2 : u <+: u ++ x :: t := List.prefix_append _ _
    rcases List.prefix_or_prefix_of_prefix h1 h2 with h | h
    · exact hno h.isInfix
    · obtain ⟨r, hr⟩ := h
      rw [← hr, List.prefix_append_right_inj] at h1
      cases r with
      | nil =>
        rw [List.append_nil] at hr
        exact hno (hr ▸ List.infix_refl _)
      | cons d r =>
        have hd : d = x := by
          obtain ⟨w, hw⟩ := h1
          simp at hw
          exact hw.1
        exact hx (by rw [← hr, hd]; simp)

/-- A text holds no `needle` when it consists of a text without `needle`, a character that
is not in `needle`, and a text without `needle`. -/
theorem containsText_stop {needle : List Char} {x : Char} (t : List Char)
    (hx : x ∉ needle) (ht : containsText needle (x :: t) = false) :
    ∀ u : List Char, ¬ needle <:+: u → containsText needle (u ++ x :: t) = false := by
  intro u
  induction u with
  | nil => intro _; exact ht
  | cons c u ih =>
    intro hno
    have h1 := isPrefixOf_stop t hno hx
    have h2 := ih (fun h => hno (h.trans (List.infix_cons (List.infix_refl _))))
    rw [List.cons_append] at h1 ⊢
    rw [containsText, h1, h2]
    rfl

/-- A text of word characters holds no `needle` that starts with another character. -/
theorem not_infix_of_word {a : Char} {needle u : List Char} (ha : isWordChar a = false)
    (hu : ∀ c, c ∈ u → isWordChar c = true) : ¬ (a :: needle) <:+: u := by
  rintro ⟨s, t, h⟩
  have : a ∈ u := by rw [← h]; simp
  rw [hu a this] at ha
  exact absurd ha (by decide)

/-- The matched text `target = v` of a simple assignment passes the test of the storage
rule. -/
theorem isStorageWrite_assign (target : List Char) (v : Char)
    (ht : ∀ c, c ∈ target → isWordChar c = true)
    (hreq : ¬ "require".toList <:+: target) (hv : isWordChar v = true) :
    isStorageWrite (target ++ ' ' :: ['=', ' ', v]) = true := by
  have pv := word_char_plain hv
  have hv1 : ('=' == v) = false := by simpa using (Ne.symm pv.2.2.1)
  have hv2 : ('!' == v) = false := by simpa using (Ne.symm pv.2.2.2.1)
  have hv3 : ('<' == v) = false := by simpa using (Ne.symm pv.2.2.2.2.1)
  have hv4 : ('>' == v) = false := by simpa using (Ne.symm pv.2.2.2.2.2.1)
  have e1 : containsText "==".toList (target ++ ' ' :: ['=', ' ', v]) = false :=
    containsText_stop _ (by decide) (by simp [containsText, List.isPrefixOf, hv1]) target
      (not_infix_of_word (by decide) ht)
  have e2 : containsText "!=".toList (target ++ ' ' :: ['=', ' ', v]) = false :=
    containsText_stop _ (by decide) (by simp [containsText, List.isPrefixOf, hv2]) target
      (not_infix_of_word (by decide) ht)
  have e3 : containsText "require".toList (target ++ ' ' :: ['=', ' ', v]) = false :=
    containsText_stop _ (by decide) (by simp [containsText, List.isPrefixOf]) target hreq
  have e4 : containsText "<=".toList (target ++ ' ' :: ['=', ' ', v]) = false :=
    containsText_stop _ (by decide) (by simp [containsText, List.isPrefixOf, hv3]) target
      (not_infix_of_word (by decide) ht)
  have e5 : containsText ">=".toList (target ++ ' ' :: ['=', ' ', v]) = false :=
    containsText_stop _ (by decide) (by simp [containsText, List.isPrefixOf, hv4]) target
      (not_infix_of_word (by decide) ht)
  unfold isStorageWrite
  rw [e1, e2, e3, e4, e5]
  rfl

/-- The fields of the report that do not depend on the functions. -/
theorem ParseContractSource_fields (source : List Char) :
    ∃ r, ParseContractSource source = some r ∧
      List.Forall₂ (fun m f => analyzeFunction source m = some f)
        (functionMatches source) r.functions ∧
      r.name = (match regexSearch contract_regex source with
        | some m => m.sub 1
        | none => "Unknown".toList) ∧
      r.totalLines = u32 (source.count '\n' + 1) ∧
      r.stateVariables = (regexIterate state_var_regex source).map (fun m => m.sub 2) ∧
      r.events = (regexIterate event_regex source).map (fun m => m.sub 1) := by
  obtain ⟨fs, hfs, hall⟩ := mapM_option_ok (analyzeFunction source) (functionMatches source)
    (fun m hm => by obtain ⟨f, hf, -⟩ := analyzeFunction_ok hm; exact ⟨f, hf⟩)
  unfold ParseContractSource
  simp only [hfs]
  exact ⟨_, rfl, hall, rfl, rfl, rfl, rfl⟩

/-- The matches of a scan come at strictly increasing offsets, from the current offset on. -/
theorem regexScan_positions (re : Regex) :
    ∀ (text : List Char) (prev : Option Char) (pos skip : Nat),
      (∀ m, m ∈ regexScan re prev text pos skip → pos ≤ m.position) ∧
      (regexScan re prev text pos skip).Pairwise (fun a b => a.position < b.position) := by
  intro text
  induction text with
  | nil => intro prev pos skip; simp [regexScan]
  | cons c cs ih =>
    intro prev pos skip
    have lift : ∀ prev2 skip2,
        (∀ m, m ∈ regexScan re prev2 cs (pos + 1) skip2 → pos ≤ m.position) := by
      intro prev2 skip2 m hm
      have := (ih prev2 (pos + 1) skip2).1 m hm
      omega
    unfold regexScan
    split
    · exact ⟨lift _ _, (ih _ _ _).2⟩
    · split
      · refine ⟨?_, ?_⟩
        · intro m hm
          rcases List.mem_cons.1 hm with h | h
          · rw [h]
          · exact lift _ _ m h
        · refine List.Pairwise.cons ?_ (ih _ _ _).2
          intro b hb
          have := (ih _ _ _).1 b hb
          show pos < b.position
          omega
      · exact ⟨lift _ _, (ih _ _ _).2⟩

theorem pairwise_of_forall₂ {α β : Type} {R : α → β → Prop} {P : α → α → Prop}
    {Q : β → β → Prop} {l : List α} {bs : List β} (h : List.Forall₂ R l bs)
    (hP : l.Pairwise P) (himp : ∀ a f b g, R a f → R b g → P a b → Q f g) :
    bs.Pairwise Q := by
  induction h with
  | nil => exact List.Pairwise.nil
  | @cons a f l bs hab hrest ih =>
    rw [List.pairwise_cons] at hP
    refine List.Pairwise.cons ?_ (ih hP.2)
    intro g hg
    have key : ∀ {l : List α} {bs : List β}, List.Forall₂ R l bs → g ∈ bs →
        ∃ b, b ∈ l ∧ R b g := by
      intro l bs h
      induction h with
      | nil => intro hg; simp at hg
      | cons hab' _ ih' =>
        intro hg
        rcases List.mem_cons.1 hg with hg | hg
        · exact ⟨_, List.mem_cons_self _ _, hg ▸ hab'⟩
        · obtain ⟨b, hb, hr⟩ := ih' hg
          exact ⟨b, List.mem_cons_of_mem _ hb, hr⟩
    obtain ⟨b, hb, hbg⟩ := key hrest hg
    exact himp a f b g hab hbg (hP.1 b hb)

/-- **C17.** Scenario C: for the empty source the analysis succeeds with the name `Unknown`,
no functions, `totalLines = 1`, no state variables and no events. -/
theorem empty_source_report :
    ParseContractSource [] =
      some { name := "Unknown".toList, functions := [], totalLines := 1, stateVariables := [],
             events := [] } := by
  decide!

/-- **C20.** For every source with fewer than `2 ^ 32 - 1` newlines (so for every source
shorter than 4 GiB; the line numbers are `uint32_t`) the analysis succeeds,
`totalLines = 1 + (number of newlines in the source)`, and every function of the report has
`1 ≤ startLine ≤ totalLines`. -/
theorem totalLines_eq (source : List Char) (hlines : source.count '\n' + 1 < 2 ^ 32) :
    ∃ r, ParseContractSource source = some r ∧
      r.totalLines = 1 + source.count '\n' ∧
      ∀ f, f ∈ r.functions → 1 ≤ f.startLine ∧ f.startLine ≤ r.totalLines := by
  obtain ⟨r, hr, hall, htotal⟩ := ParseContractSource_ok source
  have ht : r.totalLines = 1 + source.count '\n' := by
    rw [htotal]; unfold u32; omega
  refine ⟨r, hr, ht, forall_right_of_forall₂ hall ?_⟩
  intro m hm f hf
  obtain ⟨f', hf', -, -, hline, -⟩ := analyzeFunction_ok hm
  rw [hf] at hf'
  cases hf'
  have h1 : (source.take m.position).count '\n' ≤ source.count '\n' :=
    (List.take_sublist _ _).count_le _
  rw [hline, ht]
  unfold u32
  omega

/-- Witness of C20: a source of four lines with functions on its lines 2 and 3. -/
theorem totalLines_eq_witness :
    twoFunctions.count '\n' + 1 < 2 ^ 32 ∧
      ∃ r, ParseContractSource twoFunctions = some r ∧ r.totalLines = 4 ∧
        ∀ f, f ∈ r.functions → 1 ≤ f.startLine ∧ f.startLine ≤ 4 :=
  ⟨by decide!, by
    obtain ⟨r, hr, ht, hf⟩ := totalLines_eq twoFunctions (by decide!)
    have h4 : r.totalLines = 4 := by rw [ht]; decide!
    exact ⟨r, hr, h4, fun f hm => h4 ▸ hf f hm⟩⟩

/-- **C14.** For every source with fewer than `2 ^ 32 - 1` newlines the analysis succeeds and
the functions of the report are the records of the signature matches, in the order of the
matches, which is the order of the source: the signature of an earlier function starts at a
strictly smaller offset than that of a later one, and its `startLine` is at most that of the
later one.  In particular this holds for `functions[i]` and `functions[i+1]`. -/
theorem functions_in_source_order (source : List Char)
    (hlines : source.count '\n' + 1 < 2 ^ 32) :
    ∃ r, ParseContractSource source = some r ∧
      List.Forall₂ (fun m f => analyzeFunction source m = some f ∧
          "function".toList <+: source.drop m.position ∧
          f.startLine = 1 + (source.take m.position).count '\n')
        (functionMatches source) r.functions ∧
      (functionMatches source).Pairwise (fun a b => a.position < b.position) ∧
      r.functions.Pairwise (fun f g => f.startLine ≤ g.startLine) ∧
      (∀ i (h : i + 1 < (functionMatches source).length),
        ((functionMatches source)[i]).position < ((functionMatches source)[i + 1]).position) ∧
      ∀ i (h : i + 1 < r.functions.length),
        (r.functions[i]).startLine ≤ (r.functions[i + 1]).startLine := by
  obtain ⟨r, hr, hall, -⟩ := ParseContractSource_ok source
  have hall' : List.Forall₂ (fun m f => analyzeFunction source m = some f ∧
      "function".toList <+: source.drop m.position ∧
      f.startLine = 1 + (source.take m.position).count '\n')
      (functionMatches source) r.functions := by
    refine forall₂_of_mem hall ?_
    intro m hm f hf
    obtain ⟨f', hf', -, -, hline, -⟩ := analyzeFunction_ok hm
    rw [hf] at hf'
    cases hf'
    obtain ⟨mid, tail, hsrc, -, -, -⟩ := functionMatches_shape hm
    refine ⟨hf, ⟨_, hsrc.symm⟩, ?_⟩
    have h1 : (source.take m.position).count '\n' ≤ source.count '\n' :=
      (List.take_sublist _ _).count_le _
    rw [hline]
    unfold u32
    omega
  have hpos : (functionMatches source).Pairwise (fun a b => a.position < b.position) :=
    (regexScan_positions function_regex source none 0 0).2
  have hline : r.functions.Pairwise (fun f g => f.startLine ≤ g.startLine) := by
    refine pairwise_of_forall₂ hall' hpos ?_
    intro a f b g haf hbg hab
    rw [haf.2.2, hbg.2.2]
    have : (source.take a.position).count '\n' ≤ (source.take b.position).count '\n' := by
      have hsub : (source.take a.position).Sublist (source.take b.position) := by
        have : source.take a.position = (source.take b.position).take a.position := by
          rw [List.take_take, Nat.min_eq_left (Nat.le_of_lt hab)]
        rw [this]
        exact List.take_sublist _ _
      exact hsub.count_le _
    omega
  refine ⟨r, hr, hall', hpos, hline, ?_, ?_⟩
  · intro i h
    exact List.pairwise_iff_getElem.1 hpos i (i + 1) (by omega) h (by omega)
  · intro i h
    exact List.pairwise_iff_getElem.1 hline i (i + 1) (by omega) h (by omega)

/-- Witness of C14: the two functions of a source of four lines, at the offsets 14 and 31 and
on the lines 2 and 3. -/
theorem functions_in_source_order_witness :
    twoFunctions.count '\n' + 1 < 2 ^ 32 ∧
      (functionMatches twoFunctions).map (fun m => m.position) = [14, 31] ∧
      ∃ r, ParseContractSource twoFunctions = some r ∧
        r.functions.map (fun f => f.startLine) = [2, 3] ∧
        r.functions.Pairwise (fun f g => f.startLine ≤ g.startLine) :=
  ⟨by decide!, by decide!, by
    obtain ⟨r, hr, -, -, hline, -⟩ := functions_in_source_order twoFunctions (by decide!)
    refine ⟨r, hr, ?_, hline⟩
    have h : (ParseContractSource twoFunctions).map
        (fun r => r.functions.map fun f => f.startLine) = some [2, 3] := by decide!
    rw [hr] at h
    simpa using h⟩

/-- **C19.** For every source and every signature match the analysis succeeds, and with
`end_pos` the offset at which the loop over the braces stops:
`start_pos < end_pos ≤ source.length()`, so the call of `substr` is in range and yields the
record's `sourceCode`, which has `end_pos - start_pos > 0` characters; and when the depth of
the body never returns to 0, `end_pos` is the length of the source and `sourceCode` is all of
the source from the first character of the signature on, whatever its length. -/
theorem span_in_range (source : List Char) (m : Match) (hm : m ∈ functionMatches source) :
    ∃ r f, ParseContractSource source = some r ∧ f ∈ r.functions ∧
      analyzeFunction source m = some f ∧
      m.position + m.length - 1 + 1 = m.position + m.length ∧
      m.position < braceLoop (source.drop (m.position + m.length)) 1 (m.position + m.length) ∧
      braceLoop (source.drop (m.position + m.length)) 1 (m.position + m.length)
        ≤ source.length ∧
      substr source m.position
        (braceLoop (source.drop (m.position + m.length)) 1 (m.position + m.length)
          - m.position) = some f.sourceCode ∧
      f.sourceCode.length =
        braceLoop (source.drop (m.position + m.length)) 1 (m.position + m.length)
          - m.position ∧
      f.sourceCode ≠ [] ∧
      (NeverCloses (source.drop (m.position + m.length)) →
        braceLoop (source.drop (m.position + m.length)) 1 (m.position + m.length)
          = source.length ∧
        f.sourceCode = source.drop m.position) := by
  obtain ⟨r, f, hr, hf, hfm⟩ := record_in_report hm
  obtain ⟨f', hf', hcode, -⟩ := analyzeFunction_ok hm
  rw [hfm] at hf'
  cases hf'
  rw [functionSourceCode_eq hm] at hcode
  simp only [Option.some.injEq] at hcode
  obtain ⟨mid, tail, hsrc, hlen, hdrop, htot⟩ := functionMatches_shape hm
  have hge := braceLoop_ge (source.drop (m.position + m.length)) 1 (m.position + m.length)
  have hle := braceLoop_le (source.drop (m.position + m.length)) 1 (m.position + m.length)
  have hdl : (source.drop (m.position + m.length)).length = tail.length := by rw [hdrop]
  have hlencode : f.sourceCode.length =
      braceLoop (source.drop (m.position + m.length)) 1 (m.position + m.length)
        - m.position := by
    rw [← hcode, List.length_take, List.length_drop]
    omega
  refine ⟨r, f, hr, hf, hfm, by omega, by omega, by omega, ?_, hlencode, ?_, ?_⟩
  · unfold substr
    rw [if_pos (by omega), hcode]
  · intro h
    rw [h] at hlencode
    simp at hlencode
    omega
  · intro hopen
    have hloop := braceLoop_open (source.drop (m.position + m.length)) 1
      (m.position + m.length) (by omega) (fun i => by
        have := hopen i
        unfold braceDepth at this
        simpa using this)
    refine ⟨by omega, ?_⟩
    rw [← hcode, hloop]
    apply List.take_of_length_le
    rw [List.length_drop]
    omega

/-- Witness of C19: the unclosed function of 1014 characters, whose `sourceCode` is the whole
source. -/
theorem span_in_range_witness :
    (⟨0, 14, [(2, []), (1, "f".toList)]⟩ : Match) ∈ functionMatches unclosedSource ∧
      NeverCloses (unclosedSource.drop (0 + 14)) ∧
      ∃ r f, ParseContractSource unclosedSource = some r ∧ f ∈ r.functions ∧
        f.sourceCode = unclosedSource ∧ f.sourceCode.length = 1014 := by
  have hopen : NeverCloses (unclosedSource.drop (0 + 14)) := by
    intro i
    have h : unclosedSource.drop (0 + 14) = List.replicate 1000 ' ' := by decide!
    rw [h]
    have key : ∀ k : Nat, braceDepth (List.replicate k ' ') i = 1 := by
      intro k
      unfold braceDepth
      rw [List.take_replicate, List.count_replicate, List.count_replicate]
      simp
    rw [key]
    exact Int.one_pos
  refine ⟨by decide!, hopen, ?_⟩
  obtain ⟨r, f, hr, hf, -, -, -, -, -, -, -, hrest⟩ :=
    span_in_range unclosedSource ⟨0, 14, [(2, []), (1, "f".toList)]⟩ (by decide!)
  have hsrc := (hrest hopen).2
  exact ⟨r, f, hr, hf, hsrc, by rw [hsrc]; decide!⟩

/-! ## Soundness of the matcher -/

theorem starLoop_sound {r : Regex} (hr : r.Sound) :
    ∀ (fuel : Nat) (s : MState) (k : MState → Option MState) (res : MState),
      starLoop (fun s' k' => r.run s' k') fuel s k = some res →
        ∃ s' w c, (Regex.star r).Derives w c ∧ s.rest = w ++ s'.rest ∧
          s'.caps = c ++ s.caps ∧ k s' = some res := by
  intro fuel
  induction fuel with
  | zero =>
    intro s k res h
    exact ⟨s, [], [], ⟨[], by simp, rfl, rfl⟩, rfl, rfl, h⟩
  | succ n ih =>
    intro s k res h
    rw [starLoop] at h
    split at h
    · next r' hr' =>
      cases h
      obtain ⟨s1, w1, c1, hd1, hw1, hc1, hk1⟩ := hr _ _ _ hr'
      split at hk1
      · obtain ⟨s2, w2, c2, ⟨parts, hparts, hw, hc⟩, hw2, hc2, hk2⟩ := ih _ _ _ hk1
        refine ⟨s2, w1 ++ w2, c2 ++ c1, ⟨(w1, c1) :: parts, ?_, ?_, ?_⟩, ?_, ?_, hk2⟩
        · intro p hp
          rcases List.mem_cons.1 hp with hp | hp
          · rw [hp]; exact hd1
          · exact hparts p hp
        · simp [hw]
        · simp [hc]
        · rw [hw1, hw2, List.append_assoc]
        · rw [hc2, hc1, List.append_assoc]
      · simp at hk1
    · exact ⟨s, [], [], ⟨[], by simp, rfl, rfl⟩, rfl, rfl, h⟩

theorem lazyLoop_sound {r : Regex} (hr : r.Sound) :
    ∀ (fuel : Nat) (s : MState) (k : MState → Option MState) (res : MState),
      lazyLoop (fun s' k' => r.run s' k') fuel s k = some res →
        ∃ s' w c, (Regex.lazyStar r).Derives w c ∧ s.rest = w ++ s'.rest ∧
          s'.caps = c ++ s.caps ∧ k s' = some res := by
  intro fuel
  induction fuel with
  | zero =>
    intro s k res h
    exact ⟨s, [], [], ⟨[], by simp, rfl, rfl⟩, rfl, rfl, h⟩
  | succ n ih =>
    intro s k res h
    rw [lazyLoop] at h
    split at h
    · next r' hr' =>
      cases h
      exact ⟨s, [], [], ⟨[], by simp, rfl, rfl⟩, rfl, rfl, hr'⟩
    · obtain ⟨s1, w1, c1, hd1, hw1, hc1, hk1⟩ := hr _ _ _ h
      split at hk1
      · obtain ⟨s2, w2, c2, ⟨parts, hparts, hw, hc⟩, hw2, hc2, hk2⟩ := ih _ _ _ hk1
        refine ⟨s2, w1 ++ w2, c2 ++ c1, ⟨(w1, c1) :: parts, ?_, ?_, ?_⟩, ?_, ?_, hk2⟩
        · intro p hp
          rcases List.mem_cons.1 hp with hp | hp
          · rw [hp]; exact hd1
          · exact hparts p hp
        · simp [hw]
        · simp [hc]
        · rw [hw1, hw2, List.append_assoc]
        · rw [hc2, hc1, List.append_assoc]
      · simp at hk1

/-- The matcher is sound: a successful run of a pattern consumes a text that the pattern
derives, records the sub-matches of that derivation, and hands over to its continuation. -/
theorem Regex.run_sound (r : Regex) : r.Sound := by
  induction r with
  | eps => intro s k res h; exact ⟨s, [], [], ⟨rfl, rfl⟩, rfl, rfl, h⟩
  | chr x =>
    intro s k res h
    obtain ⟨y, ys, hy, hc, hk⟩ := MState.eat_some h
    simp only [beq_iff_eq] at hc
    subst hc
    exact ⟨{ prev := some y, rest := ys, caps := s.caps }, [y], [], ⟨rfl, rfl⟩, by simp [hy], rfl, hk⟩
  | cls p =>
    intro s k res h
    obtain ⟨y, ys, hy, hc, hk⟩ := MState.eat_some h
    exact ⟨{ prev := some y, rest := ys, caps := s.caps }, [y], [], ⟨y, hc, rfl, rfl⟩, by simp [hy], rfl, hk⟩
  | seq a b iha ihb =>
    intro s k res h
    obtain ⟨s1, w1, c1, hd1, hw1, hc1, hk1⟩ := iha _ _ _ h
    obtain ⟨s2, w2, c2, hd2, hw2, hc2, hk2⟩ := ihb _ _ _ hk1
    exact ⟨s2, w1 ++ w2, c2 ++ c1, ⟨w1, w2, c1, c2, hd1, hd2, rfl, rfl⟩,
      by rw [hw1, hw2, List.append_assoc], by rw [hc2, hc1, List.append_assoc], hk2⟩
  | alt a b iha ihb =>
    intro s k res h
    simp only [Regex.run] at h
    split at h
    · next r' hr' =>
      cases h
      obtain ⟨s1, w1, c1, hd1, hw1, hc1, hk1⟩ := iha _ _ _ hr'
      exact ⟨s1, w1, c1, Or.inl hd1, hw1, hc1, hk1⟩
    · obtain ⟨s1, w1, c1, hd1, hw1, hc1, hk1⟩ := ihb _ _ _ h
      exact ⟨s1, w1, c1, Or.inr hd1, hw1, hc1, hk1⟩
  | star r ih => intro s k res h; exact starLoop_sound ih _ _ _ _ h
  | lazyStar r ih => intro s k res h; exact lazyLoop_sound ih _ _ _ _ h
  | group i r ih =>
    intro s k res h
    obtain ⟨s1, w1, c1, hd1, hw1, hc1, hk1⟩ := ih _ _ _ h
    have htake : s.rest.take (s.rest.length - s1.rest.length) = w1 := by
      rw [hw1]
      simp
    rw [htake] at hk1
    exact ⟨{ s1 with caps := (i, w1) :: s1.caps }, w1, (i, w1) :: c1, ⟨c1, hd1, rfl⟩, hw1,
      by simp [hc1], hk1⟩
  | wordBoundary =>
    intro s k res h
    simp only [Regex.run] at h
    split at h
    · exact ⟨s, [], [], ⟨rfl, rfl⟩, rfl, rfl, h⟩
    · simp at h

/-- A successful attempt of a pattern: the matched text is derived by the pattern, with the
sub-matches that the attempt reports. -/
theorem matchHere_sound {re : Regex} {prev : Option Char} {rest : List Char} {len : Nat}
    {caps : List (Nat × List Char)} (h : matchHere re prev rest = some (len, caps)) :
    ∃ w tail, re.Derives w caps ∧ rest = w ++ tail ∧ len = w.length := by
  obtain ⟨s, hrun, hlen, hcaps, -⟩ := matchHere_some h
  obtain ⟨s', w, c, hd, hw, hc, hk⟩ := Regex.run_sound re _ _ _ hrun
  cases hk
  simp only [List.append_nil] at hc hw
  refine ⟨w, s.rest, ?_, hw, ?_⟩
  · rw [hcaps, hc]; exact hd
  · rw [hlen, hw]; simp

/-! ## What the patterns derive -/

theorem Regex.derives_lit : ∀ (l w : List Char) (c : List (Nat × List Char)),
    (Regex.lit l).Derives w c → w = l ∧ c = []
  | [], _, _, h => h
  | [_], _, _, h => h
  | x :: y :: l, w, c, h => by
    simp only [Regex.lit, Regex.Derives] at h
    obtain ⟨w1, w2, c1, c2, ⟨h1, h1c⟩, h2, hw, hc⟩ := h
    obtain ⟨h2w, h2c⟩ := Regex.derives_lit (y :: l) w2 c2 h2
    subst h1 h1c h2w h2c
    exact ⟨by simpa using hw, by simpa using hc⟩

theorem Regex.derives_star_cls {p : Char → Bool} {w : List Char} {c : List (Nat × List Char)}
    (h : (Regex.star (.cls p)).Derives w c) : (∀ x, x ∈ w → p x = true) ∧ c = [] := by
  obtain ⟨parts, hparts, hw, hc⟩ := h
  constructor
  · intro x hx
    rw [hw, List.mem_flatten] at hx
    obtain ⟨l, hl, hxl⟩ := hx
    obtain ⟨q, hq, rfl⟩ := List.mem_map.1 hl
    obtain ⟨y, hy, hqw, -⟩ := hparts q hq
    rw [hqw, List.mem_singleton] at hxl
    rw [hxl]; exact hy
  · rw [hc, List.flatten_eq_nil_iff]
    intro l hl
    obtain ⟨q, hq, rfl⟩ := List.mem_map.1 hl
    obtain ⟨y, -, -, hqc⟩ := hparts q (List.mem_reverse.1 hq)
    exact hqc

theorem Regex.derives_plus_cls {p : Char → Bool} {w : List Char} {c : List (Nat × List Char)}
    (h : (Regex.plus (.cls p)).Derives w c) :
    w ≠ [] ∧ (∀ x, x ∈ w → p x = true) ∧ c = [] := by
  obtain ⟨w1, w2, c1, c2, ⟨y, hy, hw1, hc1⟩, h2, hw, hc⟩ := h
  obtain ⟨h2w, h2c⟩ := Regex.derives_star_cls h2
  subst hw1 hc1 h2c hw
  refine ⟨by simp, ?_, by simpa using hc⟩
  intro x hx
  rcases List.mem_cons.1 hx with hx | hx
  · rw [hx]; exact hy
  · exact h2w x hx

theorem Regex.derives_cat_cons {r r2 : Regex} {rs : List Regex} {w : List Char}
    {c : List (Nat × List Char)} (h : (Regex.cat (r :: r2 :: rs)).Derives w c) :
    ∃ w1 w2 c1 c2, r.Derives w1 c1 ∧ (Regex.cat (r2 :: rs)).Derives w2 c2 ∧ w = w1 ++ w2 ∧
      c = c2 ++ c1 := h

theorem Regex.derives_oneOf_lit : ∀ (ls : List (List Char)) (w : List Char)
    (c : List (Nat × List Char)), ls ≠ [] → (Regex.oneOf (ls.map Regex.lit)).Derives w c →
      w ∈ ls ∧ c = []
  | [], _, _, h, _ => absurd rfl h
  | [l], w, c, _, h => by
    obtain ⟨rfl, rfl⟩ := Regex.derives_lit l w c h
    simp
  | l :: l2 :: ls, w, c, _, h => by
    rcases h with h | h
    · obtain ⟨rfl, rfl⟩ := Regex.derives_lit l w c h
      simp
    · obtain ⟨hw, hc⟩ := Regex.derives_oneOf_lit (l2 :: ls) w c (by simp) h
      exact ⟨List.mem_cons_of_mem _ hw, hc⟩

/-- The anatomy of a text that the signature pattern derives, with the sub-matches recorded. -/
theorem function_regex_derives {w : List Char} {c : List (Nat × List Char)}
    (h : function_regex.Derives w c) :
    ∃ ws1 name ws2 params ws3 V ws4 M ws5 R ws6 cR,
      w = "function".toList ++ ws1 ++ name ++ ws2 ++ '(' :: params ++ ')' :: ws3 ++ V ++ ws4 ++
        M ++ ws5 ++ R ++ ws6 ++ ['{'] ∧
      c = cR ++ (if M = [] then [] else [(4, M)]) ++ (if V = [] then [] else [(3, V)]) ++
        [(2, params), (1, name)] ∧
      (ws1 ≠ [] ∧ ∀ x, x ∈ ws1 → isSpaceChar x = true) ∧
      (name ≠ [] ∧ ∀ x, x ∈ name → isWordChar x = true) ∧
      (∀ x, x ∈ ws2 → isSpaceChar x = true) ∧
      (∀ x, x ∈ params → notCloseParen x = true) ∧
      (∀ x, x ∈ ws3 → isSpaceChar x = true) ∧
      (V = [] ∨ V ∈ visibilityKeywords) ∧
      (∀ x, x ∈ ws4 → isSpaceChar x = true) ∧
      (M = [] ∨ M ∈ mutabilityKeywords) ∧
      (∀ x, x ∈ ws5 → isSpaceChar x = true) ∧
      ((R = [] ∧ cR = []) ∨ ∃ ws ps, R = "returns".toList ++ ws ++ '(' :: ps ++ [')'] ∧
        cR = [(5, ps)] ∧ (∀ x, x ∈ ws → isSpaceChar x = true) ∧
        ∀ x, x ∈ ps → notCloseParen x = true) ∧
      (∀ x, x ∈ ws6 → isSpaceChar x = true) := by
  rw [function_regex] at h
  obtain ⟨w1, t1, c1, d1, h1, g1, rfl, rfl⟩ := Regex.derives_cat_cons h
  obtain ⟨rfl, rfl⟩ := Regex.derives_lit _ _ _ h1
  obtain ⟨ws1, t2, c2, d2, h2, g2, rfl, rfl⟩ := Regex.derives_cat_cons g1
  obtain ⟨hws1n, hws1, rfl⟩ := Regex.derives_plus_cls h2
  obtain ⟨name, t3, c3, d3, ⟨c3', h3, rfl⟩, g3, rfl, rfl⟩ := Regex.derives_cat_cons g2
  obtain ⟨hnamen, hname, rfl⟩ := Regex.derives_plus_cls h3
  obtain ⟨ws2, t4, c4, d4, h4, g4, rfl, rfl⟩ := Regex.derives_cat_cons g3
  obtain ⟨hws2, rfl⟩ := Regex.derives_star_cls h4
  obtain ⟨w5, t5, c5, d5, ⟨rfl, rfl⟩, g5, rfl, rfl⟩ := Regex.derives_cat_cons g4
  obtain ⟨params, t6, c6, d6, ⟨c6', h6, rfl⟩, g6, rfl, rfl⟩ := Regex.derives_cat_cons g5
  obtain ⟨hparams, rfl⟩ := Regex.derives_star_cls h6
  obtain ⟨w7, t7, c7, d7, ⟨rfl, rfl⟩, g7, rfl, rfl⟩ := Regex.derives_cat_cons g6
  obtain ⟨ws3, t8, c8, d8, h8, g8, rfl, rfl⟩ := Regex.derives_cat_cons g7
  obtain ⟨hws3, rfl⟩ := Regex.derives_star_cls h8
  obtain ⟨V, t9, c9, d9, h9, g9, rfl, rfl⟩ := Regex.derives_cat_cons g8
  obtain ⟨ws4, t10, c10, d10, h10, g10, rfl, rfl⟩ := Regex.derives_cat_cons g9
  obtain ⟨hws4, rfl⟩ := Regex.derives_star_cls h10
  obtain ⟨M, t11, c11, d11, h11, g11, rfl, rfl⟩ := Regex.derives_cat_cons g10
  obtain ⟨ws5, t12, c12, d12, h12, g12, rfl, rfl⟩ := Regex.derives_cat_cons g11
  obtain ⟨hws5, rfl⟩ := Regex.derives_star_cls h12
  obtain ⟨R, t13, c13, d13, h13, g13, rfl, rfl⟩ := Regex.derives_cat_cons g12
  obtain ⟨ws6, t14, c14, d14, h14, ⟨rfl, rfl⟩, rfl, rfl⟩ := Regex.derives_cat_cons g13
  obtain ⟨hws6, rfl⟩ := Regex.derives_star_cls h14
  have hV : (V = [] ∧ c9 = []) ∨ (V ∈ visibilityKeywords ∧ c9 = [(3, V)]) := by
    rcases h9 with ⟨c', h9, rfl⟩ | ⟨rfl, rfl⟩
    · right
      obtain ⟨hw, rfl⟩ := Regex.derives_oneOf_lit visibilityKeywords V c' (by decide) h9
      exact ⟨hw, rfl⟩
    · exact Or.inl ⟨rfl, rfl⟩
  have hM : (M = [] ∧ c11 = []) ∨ (M ∈ mutabilityKeywords ∧ c11 = [(4, M)]) := by
    rcases h11 with ⟨c', h11, rfl⟩ | ⟨rfl, rfl⟩
    · right
      obtain ⟨hw, rfl⟩ := Regex.derives_oneOf_lit mutabilityKeywords M c' (by decide) h11
      exact ⟨hw, rfl⟩
    · exact Or.inl ⟨rfl, rfl⟩
  have hR : (R = [] ∧ c13 = []) ∨ ∃ ws ps, R = "returns".toList ++ ws ++ '(' :: ps ++ [')'] ∧
      c13 = [(5, ps)] ∧ (∀ x, x ∈ ws → isSpaceChar x = true) ∧
      ∀ x, x ∈ ps → notCloseParen x = true := by
    rcases h13 with h13 | ⟨rfl, rfl⟩
    · right
      obtain ⟨w1, t1, c1, d1, h1, k1, rfl, rfl⟩ := Regex.derives_cat_cons h13
      obtain ⟨rfl, rfl⟩ := Regex.derives_lit _ _ _ h1
      obtain ⟨ws, t2, c2, d2, h2, k2, rfl, rfl⟩ := Regex.derives_cat_cons k1
      obtain ⟨hws, rfl⟩ := Regex.derives_star_cls h2
      obtain ⟨w3, t3, c3, d3, ⟨rfl, rfl⟩, k3, rfl, rfl⟩ := Regex.derives_cat_cons k2
      obtain ⟨ps, t4, c4, d4, ⟨c4', h4, rfl⟩, ⟨rfl, rfl⟩, rfl, rfl⟩ :=
        Regex.derives_cat_cons k3
      obtain ⟨hps, rfl⟩ := Regex.derives_star_cls h4
      exact ⟨ws, ps, by simp, by simp, hws, hps⟩
    · exact Or.inl ⟨rfl, rfl⟩
  have hnil : ∀ k : List Char, k ∈ visibilityKeywords ∨ k ∈ mutabilityKeywords → k ≠ [] := by
    intro k hk
    simp only [visibilityKeywords, mutabilityKeywords, List.mem_cons, List.mem_singleton,
      List.not_mem_nil, or_false] at hk
    rcases hk with (hk | hk | hk | hk) | (hk | hk | hk | hk) <;> rw [hk] <;> decide
  refine ⟨ws1, name, ws2, params, ws3, V, ws4, M, ws5, R, ws6, c13, by simp, ?_,
    ⟨hws1n, hws1⟩, ⟨hnamen, hname⟩, hws2, hparams, hws3, hV.imp And.left And.left, hws4,
    hM.imp And.left And.left, hws5, hR, hws6⟩
  rcases hV with ⟨rfl, rfl⟩ | ⟨hV, rfl⟩ <;> rcases hM with ⟨rfl, rfl⟩ | ⟨hM, rfl⟩
  · simp
  · simp [hnil M (Or.inr hM)]
  · simp [hnil V (Or.inl hV)]
  · simp [hnil V (Or.inl hV), hnil M (Or.inr hM)]

/-- The fields of a record that are copied from the sub-matches of its signature. -/
theorem analyzeFunction_header {source : List Char} {m : Match} {f : FunctionInfo}
    (hf : analyzeFunction source m = some f) :
    f.name = m.sub 1 ∧
      f.visibility = (if (m.sub 3).isEmpty then "public".toList else m.sub 3) ∧
      f.stateMutability = (if (m.sub 4).isEmpty then "nonpayable".toList else m.sub 4) ∧
      f.parameters = extractParameters (m.sub 2) ∧
      f.returnTypes = extractReturnTypes (m.sub 5) := by
  unfold analyzeFunction at hf
  split at hf
  · cases hf
  · cases hf
    exact ⟨rfl, rfl, rfl, rfl, rfl⟩

/-- A signature match in the source: its text is derived by the signature pattern, with the
sub-matches of the match. -/
theorem functionMatches_derives {source : List Char} {m : Match}
    (h : m ∈ functionMatches source) : function_regex.Derives (m.str source) m.caps := by
  obtain ⟨-, -, p, hm⟩ := regexIterate_mem h
  obtain ⟨w, tail, hd, hw, hlen⟩ := matchHere_sound hm
  have : m.str source = w := by
    unfold Match.str
    rw [hw, hlen, List.take_left']
    rfl
  rw [this]
  exact hd

theorem dropWhile_append_of_all {p : Char → Bool} (t : List Char) :
    ∀ l : List Char, (∀ c, c ∈ l → p c = true) → (l ++ t).dropWhile p = t.dropWhile p := by
  intro l
  induction l with
  | nil => intro _; rfl
  | cons c l ih =>
    intro h
    rw [List.cons_append, List.dropWhile_cons_of_pos (h c (List.mem_cons_self _ _))]
    exact ih (fun d hd => h d (List.mem_cons_of_mem _ hd))

theorem dropWhile_idem (p : Char → Bool) :
    ∀ l : List Char, (l.dropWhile p).dropWhile p = l.dropWhile p := by
  intro l
  induction l with
  | nil => rfl
  | cons c l ih =>
    by_cases hc : p c = true
    · rw [List.dropWhile_cons_of_pos hc]; exact ih
    · rw [List.dropWhile_cons_of_neg hc, List.dropWhile_cons_of_neg hc]

/-- The text after the parameter list of a derived signature. -/
theorem afterParameters_eq {ws1 name ws2 params ws3 X : List Char}
    (hws1 : ∀ x, x ∈ ws1 → isSpaceChar x = true) (hname : ∀ x, x ∈ name → isWordChar x = true)
    (hws2 : ∀ x, x ∈ ws2 → isSpaceChar x = true)
    (hparams : ∀ x, x ∈ params → notCloseParen x = true)
    (hws3 : ∀ x, x ∈ ws3 → isSpaceChar x = true) :
    afterParameters ("function".toList ++ ws1 ++ name ++ ws2 ++ '(' :: params ++ ')' :: ws3 ++ X)
      = X.dropWhile isSpaceChar := by
  have hsp : ∀ x, isSpaceChar x = true → (x != ')') = true := by
    intro x hx
    rw [bne_iff_ne]
    rintro rfl
    exact absurd hx (by decide)
  have hwd : ∀ x, isWordChar x = true → (x != ')') = true := by
    intro x hx
    rw [bne_iff_ne]
    rintro rfl
    exact absurd hx (by decide)
  have hpre : ∀ c, c ∈ "function".toList ++ ws1 ++ name ++ ws2 ++ '(' :: params →
      (fun c => c != ')') c = true := by
    intro c hc
    simp only [List.mem_append, List.mem_cons] at hc
    rcases hc with (((hc | hc) | hc) | hc) | hc | hc
    · revert c; decide
    · exact hsp c (hws1 c hc)
    · exact hwd c (hname c hc)
    · exact hsp c (hws2 c hc)
    · rw [hc]; decide
    · have := hparams c hc
      simpa [notCloseParen] using this
  have hsplit : "function".toList ++ ws1 ++ name ++ ws2 ++ '(' :: params ++ ')' :: ws3 ++ X =
      ("function".toList ++ ws1 ++ name ++ ws2 ++ '(' :: params) ++ ')' :: (ws3 ++ X) := by
    simp
  unfold afterParameters
  rw [hsplit, dropWhile_run _ (by decide) _ hpre, List.drop_one, List.tail_cons,
    dropWhile_append_of_all _ _ hws3]

theorem keywordAt_visibility {V : List Char} (hV : V ∈ visibilityKeywords) (X : List Char) :
    (V ++ X).dropWhile isSpaceChar = V ++ X ∧ keywordAt visibilityKeywords (V ++ X) = some V := by
  simp only [visibilityKeywords, List.mem_cons, List.mem_singleton, List.not_mem_nil,
    or_false] at hV
  rcases hV with rfl | rfl | rfl | rfl <;> exact ⟨rfl, by simp [keywordAt, visibilityKeywords]⟩

theorem keywordAt_mutability {M : List Char} (hM : M ∈ mutabilityKeywords) (X : List Char) :
    (M ++ X).dropWhile isSpaceChar = M ++ X ∧ keywordAt mutabilityKeywords (M ++ X) = some M ∧
      keywordAt visibilityKeywords (M ++ X) = none := by
  simp only [mutabilityKeywords, List.mem_cons, List.mem_singleton, List.not_mem_nil,
    or_false] at hM
  rcases hM with rfl | rfl | rfl | rfl <;>
    exact ⟨rfl, by simp [keywordAt, mutabilityKeywords],
      by simp [keywordAt, visibilityKeywords]⟩

/-- The end of a derived signature, after its keywords: no keyword starts there. -/
theorem keywordAt_returns {ws5 R ws6 : List Char}
    (hws5 : ∀ x, x ∈ ws5 → isSpaceChar x = true) (hws6 : ∀ x, x ∈ ws6 → isSpaceChar x = true)
    (hR : R = [] ∨ ∃ Y, R = "returns".toList ++ Y) :
    keywordAt visibilityKeywords ((ws5 ++ R ++ ws6 ++ ['{']).dropWhile isSpaceChar) = none ∧
      keywordAt mutabilityKeywords ((ws5 ++ R ++ ws6 ++ ['{']).dropWhile isSpaceChar) = none := by
  have h1 : ws5 ++ R ++ ws6 ++ ['{'] = ws5 ++ (R ++ (ws6 ++ ['{'])) := by simp
  rw [h1, dropWhile_append_of_all _ _ hws5]
  rcases hR with rfl | ⟨Y, rfl⟩
  · rw [List.nil_append, dropWhile_run [] (by decide) _ hws6]
    exact ⟨by decide, by decide⟩
  · have h2 : ("returns".toList ++ Y ++ (ws6 ++ ['{'])).dropWhile isSpaceChar =
        "returns".toList ++ Y ++ (ws6 ++ ['{']) := rfl
    rw [h2]
    exact ⟨by simp [keywordAt, visibilityKeywords], by simp [keywordAt, mutabilityKeywords]⟩

/-- The keywords written in a derived signature are the ones in its keyword slots. -/
theorem signature_keywords {ws1 name ws2 params ws3 V ws4 M ws5 R ws6 : List Char}
    (hws1 : ∀ x, x ∈ ws1 → isSpaceChar x = true) (hname : ∀ x, x ∈ name → isWordChar x = true)
    (hws2 : ∀ x, x ∈ ws2 → isSpaceChar x = true)
    (hparams : ∀ x, x ∈ params → notCloseParen x = true)
    (hws3 : ∀ x, x ∈ ws3 → isSpaceChar x = true)
    (hV : V = [] ∨ V ∈ visibilityKeywords)
    (hws4 : ∀ x, x ∈ ws4 → isSpaceChar x = true)
    (hM : M = [] ∨ M ∈ mutabilityKeywords)
    (hws5 : ∀ x, x ∈ ws5 → isSpaceChar x = true) (hws6 : ∀ x, x ∈ ws6 → isSpaceChar x = true)
    (hR : R = [] ∨ ∃ Y, R = "returns".toList ++ Y) :
    visibilityOf ("function".toList ++ ws1 ++ name ++ ws2 ++ '(' :: params ++ ')' :: ws3 ++ V ++
        ws4 ++ M ++ ws5 ++ R ++ ws6 ++ ['{']) = (if V = [] then none else some V) ∧
      mutabilityOf ("function".toList ++ ws1 ++ name ++ ws2 ++ '(' :: params ++ ')' :: ws3 ++ V ++
        ws4 ++ M ++ ws5 ++ R ++ ws6 ++ ['{']) = (if M = [] then none else some M) := by
  have hnil : ∀ k : List Char, k ∈ visibilityKeywords ∨ k ∈ mutabilityKeywords → k ≠ [] := by
    intro k hk
    simp only [visibilityKeywords, mutabilityKeywords, List.mem_cons, List.mem_singleton,
      List.not_mem_nil, or_false] at hk
    rcases hk with (hk | hk | hk | hk) | (hk | hk | hk | hk) <;> rw [hk] <;> decide
  have hsplit : "function".toList ++ ws1 ++ name ++ ws2 ++ '(' :: params ++ ')' :: ws3 ++ V ++
      ws4 ++ M ++ ws5 ++ R ++ ws6 ++ ['{'] =
      "function".toList ++ ws1 ++ name ++ ws2 ++ '(' :: params ++ ')' :: ws3 ++
        (V ++ (ws4 ++ (M ++ (ws5 ++ R ++ ws6 ++ ['{'])))) := by simp
  have hafter := afterParameters_eq (X := V ++ (ws4 ++ (M ++ (ws5 ++ R ++ ws6 ++ ['{']))))
    hws1 hname hws2 hparams hws3
  -- the text from the mutability slot on
  have hmut : keywordAt visibilityKeywords
        ((M ++ (ws5 ++ R ++ ws6 ++ ['{'])).dropWhile isSpaceChar) = none ∧
      keywordAt mutabilityKeywords
        ((M ++ (ws5 ++ R ++ ws6 ++ ['{'])).dropWhile isSpaceChar) =
          (if M = [] then none else some M) := by
    rcases hM with rfl | hM
    · rw [List.nil_append, if_pos rfl]
      exact keywordAt_returns hws5 hws6 hR
    · obtain ⟨h1, h2, h3⟩ := keywordAt_mutability hM (ws5 ++ R ++ ws6 ++ ['{'])
      rw [h1, if_neg (hnil M (Or.inr hM))]
      exact ⟨h3, h2⟩
  unfold mutabilityOf afterVisibility visibilityOf
  rw [hsplit, hafter]
  rcases hV with rfl | hV
  · rw [List.nil_append, dropWhile_append_of_all _ _ hws4, hmut.1, if_pos rfl]
    refine ⟨rfl, ?_⟩
    rw [Option.getD_none, List.length_nil, List.drop_zero, dropWhile_idem]
    exact hmut.2
  · obtain ⟨h1, h2⟩ := keywordAt_visibility hV (ws4 ++ (M ++ (ws5 ++ R ++ ws6 ++ ['{'])))
    rw [h1, h2, if_neg (hnil V (Or.inl hV))]
    refine ⟨rfl, ?_⟩
    rw [Option.getD_some, List.drop_left, dropWhile_append_of_all _ _ hws4]
    exact hmut.2

theorem sub_of_caps {cR : List (Nat × List Char)} {V M params name : List Char}
    (hcR : cR = [] ∨ ∃ ps, cR = [(5, ps)]) (m : Match)
    (hm : m.caps = cR ++ (if M = [] then [] else [(4, M)]) ++
      (if V = [] then [] else [(3, V)]) ++ [(2, params), (1, name)]) :
    m.sub 1 = name ∧ m.sub 2 = params ∧ m.sub 3 = V ∧ m.sub 4 = M ∧
      m.sub 5 = (match cR with | [] => [] | p :: _ => p.2) := by
  unfold Match.sub
  rw [hm]
  rcases hcR with rfl | ⟨ps, rfl⟩ <;> by_cases hV : V = [] <;> by_cases hM : M = [] <;>
    simp [hV, hM, List.find?]

/-- The keyword fields of the record of a signature match, read off the matched text. -/
theorem keywords_of_match {source : List Char} {m : Match} {f : FunctionInfo}
    (hm : m ∈ functionMatches source) (hf : analyzeFunction source m = some f) :
    f.visibility = (visibilityOf (m.str source)).getD "public".toList ∧
      f.stateMutability = (mutabilityOf (m.str source)).getD "nonpayable".toList ∧
      (∀ k, visibilityOf (m.str source) = some k → k ∈ visibilityKeywords) ∧
      (∀ k, mutabilityOf (m.str source) = some k → k ∈ mutabilityKeywords) := by
  obtain ⟨ws1, name, ws2, params, ws3, V, ws4, M, ws5, R, ws6, cR, hw, hc, ⟨-, hws1⟩,
    ⟨-, hname⟩, hws2, hparams, hws3, hV, hws4, hM, hws5, hR, hws6⟩ :=
    function_regex_derives (functionMatches_derives hm)
  have hR' : R = [] ∨ ∃ Y, R = "returns".toList ++ Y := by
    rcases hR with ⟨h, -⟩ | ⟨ws, ps, h, -⟩
    · exact Or.inl h
    · exact Or.inr ⟨ws ++ '(' :: ps ++ [')'], by rw [h]; simp⟩
  have hcR : cR = [] ∨ ∃ ps, cR = [(5, ps)] := by
    rcases hR with ⟨-, h⟩ | ⟨ws, ps, -, h, -⟩
    · exact Or.inl h
    · exact Or.inr ⟨ps, h⟩
  obtain ⟨-, -, h3, h4, -⟩ := sub_of_caps hcR m hc
  obtain ⟨hvis, hmut⟩ := signature_keywords hws1 hname hws2 hparams hws3 hV hws4 hM hws5 hws6 hR'
  obtain ⟨-, hfv, hfm, -, -⟩ := analyzeFunction_header hf
  rw [hw, hvis, hmut, hfv, hfm, h3, h4]
  refine ⟨?_, ?_, ?_, ?_⟩
  · by_cases h : V = [] <;> simp [h]
  · by_cases h : M = [] <;> simp [h]
  · intro k hk
    rcases hV with rfl | hV
    · simp at hk
    · split at hk
      · cases hk
      · cases hk; exact hV
  · intro k hk
    rcases hM with rfl | hM
    · simp at hk
    · split at hk
      · cases hk
      · cases hk; exact hM

/-- Claim C16.  For every source the analysis returns a report, and every record `f` of it,
built from the signature match `m`, has as visibility the visibility keyword written in the
matched signature (the keyword that follows the parameter list), `public` when there is none,
and as mutability the mutability keyword written there, `nonpayable` when there is none.  So
the visibility is one of public, private, internal, external, the mutability is one of pure,
view, payable, nonpayable, the visibility is `public` exactly when the signature has no
visibility keyword or has `public`, and the mutability is `nonpayable` exactly when the
signature has no mutability keyword or has `nonpayable`. -/
theorem visibility_and_mutability (source : List Char) :
    ∃ r, ParseContractSource source = some r ∧
      List.Forall₂ (fun m f =>
        f.visibility = (visibilityOf (m.str source)).getD "public".toList ∧
        f.stateMutability = (mutabilityOf (m.str source)).getD "nonpayable".toList ∧
        (f.visibility = "public".toList ↔ (visibilityOf (m.str source) = none ∨
          visibilityOf (m.str source) = some "public".toList)) ∧
        (f.stateMutability = "nonpayable".toList ↔ (mutabilityOf (m.str source) = none ∨
          mutabilityOf (m.str source) = some "nonpayable".toList)))
        (functionMatches source) r.functions ∧
      ∀ f, f ∈ r.functions →
        f.visibility ∈ ["public".toList, "private".toList, "internal".toList,
          "external".toList] ∧
        f.stateMutability ∈ ["pure".toList, "view".toList, "payable".toList,
          "nonpayable".toList] := by
  obtain ⟨r, hr, hall, -⟩ := ParseContractSource_ok source
  refine ⟨r, hr, forall₂_of_mem hall ?_, forall_right_of_forall₂ hall ?_⟩
  · intro m hm f hf
    obtain ⟨hv, hmu, -, -⟩ := keywords_of_match hm hf
    refine ⟨hv, hmu, ?_, ?_⟩
    · rw [hv]
      cases visibilityOf (m.str source) <;> simp
    · rw [hmu]
      cases mutabilityOf (m.str source) <;> simp
  · intro m hm f hf
    obtain ⟨hv, hmu, hvk, hmk⟩ := keywords_of_match hm hf
    rw [hv, hmu]
    constructor
    · cases h : visibilityOf (m.str source) with
      | none => simp
      | some k => exact hvk k h
    · cases h : mutabilityOf (m.str source) with
      | none => simp
      | some k => exact hmk k h

/-! ## The first choice of a pattern -/

theorem stopsAt_dropWhile (p : Char → Bool) : ∀ l : List Char, stopsAt p (l.dropWhile p) = true
  | [] => rfl
  | c :: l => by
    by_cases hc : p c = true
    · rw [List.dropWhile_cons_of_pos hc]; exact stopsAt_dropWhile p l
    · rw [List.dropWhile_cons_of_neg hc]; simpa [stopsAt] using hc

theorem dropWhile_of_stopsAt {p : Char → Bool} : ∀ {t : List Char}, stopsAt p t = true →
    t.dropWhile p = t
  | [], _ => rfl
  | c :: t, h => by
    rw [List.dropWhile_cons_of_neg]
    simpa [stopsAt] using h

theorem dropWhile_append_stop {p : Char → Bool} {l t : List Char}
    (hl : ∀ c, c ∈ l → p c = true) (ht : stopsAt p t = true) : (l ++ t).dropWhile p = t := by
  rw [dropWhile_append_of_all t l hl, dropWhile_of_stopsAt ht]

theorem takeWhile_append_stop {p : Char → Bool} {t : List Char} (ht : stopsAt p t = true) :
    ∀ l : List Char, (∀ c, c ∈ l → p c = true) → (l ++ t).takeWhile p = l := by
  intro l
  induction l with
  | nil =>
    intro _
    cases t with
    | nil => rfl
    | cons c t => rw [List.nil_append, List.takeWhile_cons_of_neg]; simpa [stopsAt] using ht
  | cons c l ih =>
    intro h
    rw [List.cons_append, List.takeWhile_cons_of_pos (h c (List.mem_cons_self _ _)),
      ih (fun d hd => h d (List.mem_cons_of_mem _ hd))]

theorem Regex.takes_eps (R : List Char) : Regex.eps.Takes [] [] R :=
  fun _ _ _ prev => ⟨prev, rfl⟩

theorem Regex.takes_cls {p : Char → Bool} {x : Char} (hx : p x = true) (R : List Char) :
    (Regex.cls p).Takes [x] [] R := by
  intro k caps _ prev
  refine ⟨some x, ?_⟩
  show MState.eat p { prev := prev, rest := x :: R, caps := caps } k = _
  rw [MState.eat_cons, if_pos hx]
  rfl

theorem Regex.takes_chr (x : Char) (R : List Char) : (Regex.chr x).Takes [x] [] R := by
  intro k caps _ prev
  refine ⟨some x, ?_⟩
  show MState.eat (fun y => y == x) { prev := prev, rest := x :: R, caps := caps } k = _
  rw [MState.eat_cons, if_pos (by simp)]
  rfl

theorem Regex.takes_seq {a b : Regex} {w1 w2 R : List Char} {c1 c2 : List (Nat × List Char)}
    (ha : a.Takes w1 c1 (w2 ++ R)) (hb : b.Takes w2 c2 R) :
    (Regex.seq a b).Takes (w1 ++ w2) (c2 ++ c1) R := by
  intro k caps hk prev
  have hk2 : ∀ prev', (k { prev := prev', rest := R, caps := c2 ++ (c1 ++ caps) }).isSome
      = true := by
    intro prev'
    rw [← List.append_assoc]
    exact hk prev'
  have hmid : ∀ prev', ((fun s' => b.run s' k)
      { prev := prev', rest := w2 ++ R, caps := c1 ++ caps }).isSome = true := by
    intro prev'
    obtain ⟨p2, h2⟩ := hb k (c1 ++ caps) hk2 prev'
    show (b.run _ k).isSome = true
    rw [h2]
    exact hk2 p2
  obtain ⟨p1, h1⟩ := ha (fun s' => b.run s' k) caps hmid prev
  obtain ⟨p2, h2⟩ := hb k (c1 ++ caps) hk2 p1
  refine ⟨p2, ?_⟩
  rw [Regex.run_seq, List.append_assoc, h1, h2, List.append_assoc]

theorem Regex.takes_alt_left {a : Regex} (b : Regex) {w R : List Char}
    {c : List (Nat × List Char)} (ha : a.Takes w c R) : (Regex.alt a b).Takes w c R := by
  intro k caps hk prev
  obtain ⟨p1, h1⟩ := ha k caps hk prev
  refine ⟨p1, ?_⟩
  have hs := hk p1
  simp only [Regex.run]
  rw [h1]
  cases h : k { prev := p1, rest := R, caps := c ++ caps } with
  | none => rw [h] at hs; cases hs
  | some r => rfl

theorem Regex.takes_alt_right {a b : Regex} {w R : List Char} {c : List (Nat × List Char)}
    (ha : a.Fails (w ++ R)) (hb : b.Takes w c R) : (Regex.alt a b).Takes w c R := by
  intro k caps hk prev
  obtain ⟨p1, h1⟩ := hb k caps hk prev
  refine ⟨p1, ?_⟩
  simp only [Regex.run]
  rw [ha prev caps k]
  exact h1

theorem Regex.takes_group (i : Nat) {r : Regex} {w R : List Char} {c : List (Nat × List Char)}
    (hr : r.Takes w c R) : (Regex.group i r).Takes w ((i, w) :: c) R := by
  intro k caps hk prev
  have htake : (w ++ R).take ((w ++ R).length - R.length) = w := by simp
  have hk' : ∀ prev', ((fun s' : MState => k { s' with caps :=
      (i, (w ++ R).take ((w ++ R).length - s'.rest.length)) :: s'.caps })
      { prev := prev', rest := R, caps := c ++ caps }).isSome = true := by
    intro prev'
    show (k { prev := prev', rest := R, caps :=
      (i, (w ++ R).take ((w ++ R).length - R.length)) :: (c ++ caps) }).isSome = true
    rw [htake]
    exact hk prev'
  obtain ⟨p1, h1⟩ := hr (fun s' : MState => k { s' with caps :=
      (i, (w ++ R).take ((w ++ R).length - s'.rest.length)) :: s'.caps }) caps hk' prev
  refine ⟨p1, ?_⟩
  simp only [Regex.run]
  rw [h1]
  show k { prev := p1, rest := R, caps :=
    (i, (w ++ R).take ((w ++ R).length - R.length)) :: (c ++ caps) } = _
  rw [htake]
  rfl

theorem Regex.takes_lit : ∀ (l R : List Char), (Regex.lit l).Takes l [] R
  | [], R => Regex.takes_eps R
  | [x], R => Regex.takes_chr x R
  | x :: y :: l, R => Regex.takes_seq (Regex.takes_chr x _) (Regex.takes_lit (y :: l) R)

theorem Regex.takes_star_cls {p : Char → Bool} {R : List Char} (hR : stopsAt p R = true) :
    ∀ l : List Char, (∀ c, c ∈ l → p c = true) → (Regex.star (.cls p)).Takes l [] R := by
  intro l hl k caps hk prev
  have key : ∀ (l : List Char), (∀ c, c ∈ l → p c = true) → ∀ (fuel : Nat) (prev : Option Char),
      (l ++ R).length ≤ fuel →
      ∃ prev', starLoop (fun s' k' => s'.eat p k') fuel
        { prev := prev, rest := l ++ R, caps := caps } k =
          k { prev := prev', rest := R, caps := caps } := by
    intro l
    induction l with
    | nil =>
      intro _ fuel prev _
      refine ⟨prev, ?_⟩
      cases fuel with
      | zero => rfl
      | succ n =>
        cases R with
        | nil => exact starLoop_eat_nil p _ prev caps k
        | cons x R =>
          have hx : p x = false := by simpa [stopsAt] using hR
          rw [List.nil_append, starLoop_eat_cons, hx]
          rfl
    | cons c l ih =>
      intro hl fuel prev hfuel
      cases fuel with
      | zero => simp at hfuel
      | succ n =>
        obtain ⟨p1, h1⟩ := ih (fun d hd => hl d (List.mem_cons_of_mem _ hd)) n (some c)
          (by simp at hfuel ⊢; omega)
        refine ⟨p1, ?_⟩
        rw [List.cons_append, starLoop_eat_cons, if_pos (hl c (List.mem_cons_self _ _)), h1]
        have hs := hk p1
        cases h : k { prev := p1, rest := R, caps := caps } with
        | none => rw [List.nil_append, h] at hs; cases hs
        | some r => rfl
  obtain ⟨p1, h1⟩ := key l hl (l ++ R).length prev (Nat.le_refl _)
  exact ⟨p1, by rw [Regex.run_star_cls]; exact h1⟩

theorem Regex.takes_plus_cls {p : Char → Bool} {R : List Char} (hR : stopsAt p R = true)
    {l : List Char} (hne : l ≠ []) (hl : ∀ c, c ∈ l → p c = true) :
    (Regex.plus (.cls p)).Takes l [] R := by
  cases l with
  | nil => exact absurd rfl hne
  | cons x l =>
    exact @Regex.takes_seq _ _ [x] _ _ _ _ (Regex.takes_cls (hl x (List.mem_cons_self _ _)) _)
      (Regex.takes_star_cls hR l (fun d hd => hl d (List.mem_cons_of_mem _ hd)))

/-- The first choice of a whole pattern is the match that an attempt reports. -/
theorem matchHere_of_takes {re : Regex} {w R : List Char} {c : List (Nat × List Char)}
    (h : re.Takes w c R) (prev : Option Char) :
    matchHere re prev (w ++ R) = some (w.length, c) := by
  obtain ⟨p1, h1⟩ := h some [] (fun _ => rfl) prev
  unfold matchHere
  rw [h1]
  simp

theorem Regex.fails_lit {l t : List Char} (h : l.isPrefixOf t = false) :
    (Regex.lit l).Fails t := by
  intro prev caps k
  rw [Regex.run_lit_eq]
  simp [h]

/-- A pattern fails at a text none of whose beginnings it derives. -/
theorem Regex.fails_of_derives {r : Regex} {t : List Char}
    (h : ∀ w c tail, r.Derives w c → t = w ++ tail → False) : r.Fails t := by
  intro prev caps k
  cases hrun : r.run { prev := prev, rest := t, caps := caps } k with
  | none => rfl
  | some res =>
    obtain ⟨s', w, c, hd, hw, -, -⟩ := Regex.run_sound r _ _ _ hrun
    exact (h w c s'.rest hd hw).elim

theorem matchHere_none_of_fails {re : Regex} {t : List Char} (h : re.Fails t)
    (prev : Option Char) : matchHere re prev t = none := by
  unfold matchHere
  rw [h prev [] some]

/-! ## The contract name -/

theorem takeWhile_append_all {p : Char → Bool} (t : List Char) :
    ∀ l : List Char, (∀ c, c ∈ l → p c = true) →
      (l ++ t).takeWhile p = l ++ t.takeWhile p := by
  intro l
  induction l with
  | nil => intro _; rfl
  | cons c l ih =>
    intro h
    rw [List.cons_append, List.takeWhile_cons_of_pos (h c (List.mem_cons_self _ _)),
      ih (fun d hd => h d (List.mem_cons_of_mem _ hd))]
    rfl

theorem stopsAt_space_of_word {n : List Char} (hne : n ≠ [])
    (hn : ∀ c, c ∈ n → isWordChar c = true) (t : List Char) :
    stopsAt isSpaceChar (n ++ t) = true := by
  cases n with
  | nil => exact absurd rfl hne
  | cons x n =>
    simp only [List.cons_append, stopsAt, Bool.not_eq_true']
    exact not_space_of_word (hn x (List.mem_cons_self _ _))

/-- A contract declaration written out: what `contractDeclAt` finds there. -/
theorem contractDeclAt_eq {ws n : List Char} (tail : List Char) (hws : ws ≠ [])
    (hsp : ∀ c, c ∈ ws → isSpaceChar c = true) (hne : n ≠ [])
    (hn : ∀ c, c ∈ n → isWordChar c = true) :
    contractDeclAt ("contract".toList ++ ws ++ n ++ tail) =
      some (n ++ tail.takeWhile isWordChar) := by
  have hpre : "contract".toList.isPrefixOf ("contract".toList ++ ws ++ n ++ tail) = true := by
    simp [List.isPrefixOf]
  have hdrop : ("contract".toList ++ ws ++ n ++ tail).drop 8 = ws ++ (n ++ tail) := by
    simp
  have hstop := stopsAt_space_of_word hne hn tail
  unfold contractDeclAt
  rw [if_pos hpre, hdrop]
  simp only [takeWhile_append_stop hstop ws hsp, dropWhile_append_stop hsp hstop,
    takeWhile_append_all tail n hn]
  have h1 : ws.isEmpty = false := by cases ws <;> simp_all
  have h2 : (n ++ tail.takeWhile isWordChar).isEmpty = false := by cases n <;> simp_all
  rw [h1, h2]
  rfl

theorem contract_regex_derives {w : List Char} {c : List (Nat × List Char)}
    (h : contract_regex.Derives w c) :
    ∃ ws n, w = "contract".toList ++ ws ++ n ∧ c = [(1, n)] ∧ ws ≠ [] ∧
      (∀ x, x ∈ ws → isSpaceChar x = true) ∧ n ≠ [] ∧ ∀ x, x ∈ n → isWordChar x = true := by
  rw [contract_regex] at h
  obtain ⟨w1, t1, c1, d1, h1, g1, rfl, rfl⟩ := Regex.derives_cat_cons h
  obtain ⟨rfl, rfl⟩ := Regex.derives_lit _ _ _ h1
  obtain ⟨ws, n, c2, d2, h2, ⟨c3, h3, rfl⟩, rfl, rfl⟩ := Regex.derives_cat_cons g1
  obtain ⟨hws, hsp, rfl⟩ := Regex.derives_plus_cls h2
  obtain ⟨hne, hn, rfl⟩ := Regex.derives_plus_cls h3
  exact ⟨ws, n, by simp, by simp, hws, hsp, hne, hn⟩

/-- An attempt of the pattern `contract\s+(\w+)` succeeds exactly at a contract declaration,
and its sub-match 1 is the identifier of the declaration. -/
theorem matchHere_contract (prev : Option Char) (t : List Char) :
    (matchHere contract_regex prev t).map Prod.snd =
      (contractDeclAt t).map (fun n => [(1, n)]) := by
  cases hm : matchHere contract_regex prev t with
  | some r =>
    obtain ⟨len, caps⟩ := r
    obtain ⟨w, tail, hd, hw, -⟩ := matchHere_sound hm
    obtain ⟨ws, n, rfl, rfl, hws, hsp, hne, hn⟩ := contract_regex_derives hd
    have hdecl := contractDeclAt_eq tail hws hsp hne hn
    rw [← hw] at hdecl
    -- the first choice of the pattern at this declaration
    have hsplit : tail = tail.takeWhile isWordChar ++ tail.dropWhile isWordChar :=
      (List.takeWhile_append_dropWhile _ _).symm
    have hall : ∀ c, c ∈ n ++ tail.takeWhile isWordChar → isWordChar c = true := by
      intro c hc
      rcases List.mem_append.1 hc with hc | hc
      · exact hn c hc
      · exact (List.mem_takeWhile_imp hc)
    have hne' : n ++ tail.takeWhile isWordChar ≠ [] := by
      cases n with
      | nil => exact absurd rfl hne
      | cons x n => simp
    have htakes : contract_regex.Takes
        ("contract".toList ++ (ws ++ (n ++ tail.takeWhile isWordChar)))
        (((1, n ++ tail.takeWhile isWordChar) :: []) ++ [] ++ [])
        (tail.dropWhile isWordChar) :=
      Regex.takes_seq (Regex.takes_lit _ _)
        (Regex.takes_seq (Regex.takes_plus_cls (stopsAt_space_of_word hne' hall _) hws hsp)
          (Regex.takes_group 1 (Regex.takes_plus_cls (stopsAt_dropWhile _ _) hne' hall)))
    have hm2 := matchHere_of_takes htakes prev
    have ht : "contract".toList ++ (ws ++ (n ++ tail.takeWhile isWordChar)) ++
        tail.dropWhile isWordChar = t := by
      rw [hw]
      conv_rhs => rw [hsplit]
      simp
    rw [ht, hm] at hm2
    simp only [Option.some.injEq, Prod.mk.injEq] at hm2
    rw [hdecl]
    simp [hm2.2]
  | none =>
    cases hd : contractDeclAt t with
    | none => rfl
    | some name =>
      exfalso
      unfold contractDeclAt at hd
      split at hd
      · next hpre =>
        dsimp only at hd
        split at hd
        · next hcond =>
          simp only [Bool.and_eq_true, Bool.not_eq_true', List.isEmpty_eq_false] at hcond
          obtain ⟨tl, htl⟩ := List.isPrefixOf_iff_prefix.1 hpre
          have hdrop : t.drop 8 = tl := by rw [← htl]; simp
          rw [hdrop] at hcond
          have h1 : tl = tl.takeWhile isSpaceChar ++ tl.dropWhile isSpaceChar :=
            (List.takeWhile_append_dropWhile _ _).symm
          have h2 : tl.dropWhile isSpaceChar =
              (tl.dropWhile isSpaceChar).takeWhile isWordChar ++
                (tl.dropWhile isSpaceChar).dropWhile isWordChar :=
            (List.takeWhile_append_dropWhile _ _).symm
          have hall : ∀ c, c ∈ (tl.dropWhile isSpaceChar).takeWhile isWordChar →
              isWordChar c = true := fun c hc => List.mem_takeWhile_imp hc
          have htakes : contract_regex.Takes
              ("contract".toList ++ (tl.takeWhile isSpaceChar ++
                (tl.dropWhile isSpaceChar).takeWhile isWordChar))
              (((1, (tl.dropWhile isSpaceChar).takeWhile isWordChar) :: []) ++ [] ++ [])
              ((tl.dropWhile isSpaceChar).dropWhile isWordChar) :=
            Regex.takes_seq (Regex.takes_lit _ _)
              (Regex.takes_seq
                (Regex.takes_plus_cls (stopsAt_space_of_word hcond.2 hall _) hcond.1
                  (fun c hc => List.mem_takeWhile_imp hc))
                (Regex.takes_group 1
                  (Regex.takes_plus_cls (stopsAt_dropWhile _ _) hcond.2 hall)))
          have hm2 := matchHere_of_takes htakes prev
          have ht : "contract".toList ++ (tl.takeWhile isSpaceChar ++
              (tl.dropWhile isSpaceChar).takeWhile isWordChar) ++
              (tl.dropWhile isSpaceChar).dropWhile isWordChar = t := by
            rw [← htl]
            conv_rhs => rw [h1, h2]
            simp
          rw [ht, hm] at hm2
          cases hm2
        · cases hd
      · cases hd

/-- The first match of the contract pattern is the leftmost contract declaration. -/
theorem regexScan_contract_head : ∀ (text : List Char) (prev : Option Char) (pos : Nat),
    ((regexScan contract_regex prev text pos 0).head?).map (fun m => m.sub 1) =
      firstContractName text := by
  intro text
  induction text with
  | nil => intro prev pos; rfl
  | cons c cs ih =>
    intro prev pos
    have hm := matchHere_contract prev (c :: cs)
    rw [regexScan, if_neg (Nat.lt_irrefl 0), firstContractName]
    cases hd : contractDeclAt (c :: cs) with
    | none =>
      rw [hd] at hm
      cases hmh : matchHere contract_regex prev (c :: cs) with
      | none => exact ih _ _
      | some r => rw [hmh] at hm; cases hm
    | some n =>
      rw [hd] at hm
      cases hmh : matchHere contract_regex prev (c :: cs) with
      | none => rw [hmh] at hm; cases hm
      | some r =>
        obtain ⟨len, caps⟩ := r
        rw [hmh] at hm
        simp only [Option.map_some', Option.some.injEq] at hm
        subst hm
        rfl

theorem firstContractName_occurs : ∀ (t : List Char) (n : List Char),
    firstContractName t = some n → "contract".toList <:+: t
  | [], n, h => by cases h
  | c :: cs, n, h => by
    rw [firstContractName] at h
    cases hd : contractDeclAt (c :: cs) with
    | some m =>
      unfold contractDeclAt at hd
      split at hd
      · next hpre => exact (List.isPrefixOf_iff_prefix.1 hpre).isInfix
      · cases hd
    | none =>
      rw [hd] at h
      obtain ⟨a, b, hab⟩ := firstContractName_occurs cs n h
      exact ⟨c :: a, b, by rw [← hab]; simp⟩

theorem firstContractName_of_decl {t n : List Char} (h : contractDeclAt t = some n) :
    firstContractName t = some n := by
  cases t with
  | nil => simp [contractDeclAt, List.isPrefixOf] at h
  | cons c cs => rw [firstContractName, h]

theorem firstContractName_append (t : List Char) : ∀ pre : List Char,
    (∀ i, i < pre.length → contractDeclAt ((pre ++ t).drop i) = none) →
      firstContractName (pre ++ t) = firstContractName t := by
  intro pre
  induction pre with
  | nil => intro _; rfl
  | cons c pre ih =>
    intro h
    have h0 := h 0 (by simp)
    rw [List.drop_zero] at h0
    rw [List.cons_append, firstContractName]
    rw [List.cons_append] at h0
    rw [h0]
    apply ih
    intro i hi
    have := h (i + 1) (by simp; omega)
    simpa using this

/-- Claim C15.  For every source the analysis returns a report whose name is the identifier of
the leftmost contract declaration of the source, where a contract declaration is the text
`contract`, at least one blank and an identifier (a longest run of word characters), and is
`Unknown` when there is no such declaration.  In particular the name is `Unknown` when the text
`contract` does not occur in the source, and when the source is `pre`, `contract`, blanks
`ws`, an identifier `ident` and a rest that does not go on with a word character, with no
contract declaration starting inside `pre`, the name is `ident`. -/
theorem contract_name (source : List Char) :
    ∃ r, ParseContractSource source = some r ∧
      r.name = (firstContractName source).getD "Unknown".toList ∧
      (¬ "contract".toList <:+: source → r.name = "Unknown".toList) ∧
      ∀ pre ws ident rest, source = pre ++ ("contract".toList ++ ws ++ ident ++ rest) →
        ws ≠ [] → (∀ c, c ∈ ws → isSpaceChar c = true) →
        ident ≠ [] → (∀ c, c ∈ ident → isWordChar c = true) →
        stopsAt isWordChar rest = true →
        (∀ i, i < pre.length → contractDeclAt (source.drop i) = none) →
        r.name = ident := by
  obtain ⟨r, hr, -, hname, -⟩ := ParseContractSource_fields source
  have hfirst : r.name = (firstContractName source).getD "Unknown".toList := by
    rw [hname]
    have h := regexScan_contract_head source none 0
    unfold regexSearch regexIterate
    cases hs : (regexScan contract_regex none source 0 0).head? with
    | none => rw [hs] at h; rw [← h]; rfl
    | some m => rw [hs] at h; rw [← h]; rfl
  refine ⟨r, hr, hfirst, ?_, ?_⟩
  · intro hno
    rw [hfirst]
    cases hf : firstContractName source with
    | none => rfl
    | some n => exact absurd (firstContractName_occurs source n hf) hno
  · intro pre ws ident rest hsrc hws hsp hne hid hrest hpre
    rw [hfirst, hsrc, firstContractName_append _ pre (by rw [← hsrc]; exact hpre),
      firstContractName_of_decl (contractDeclAt_eq rest hws hsp hne hid)]
    have : rest.takeWhile isWordChar = [] := by
      cases rest with
      | nil => rfl
      | cons x rest => rw [List.takeWhile_cons_of_neg]; simpa [stopsAt] using hrest
    rw [this, List.append_nil]
    rfl

/-- An instance of C15: the leftmost declaration wins, also when the keyword is the end of a
longer word. -/
theorem leftmost_declaration_example :
    (ParseContractSource "subcontract  Foo_1\x7b contract Bar".toList).map (fun r => r.name) =
      some "Foo_1".toList := by decide!

/-! ## Scanning a text of known shape -/

theorem regexScan_skip (re : Regex) (R : List Char) : ∀ (l : List Char) (prev : Option Char)
    (pos : Nat), ∃ prev' pos',
      regexScan re prev (l ++ R) pos l.length = regexScan re prev' R pos' 0 := by
  intro l
  induction l with
  | nil => intro prev pos; exact ⟨prev, pos, rfl⟩
  | cons c l ih =>
    intro prev pos
    obtain ⟨p1, q1, h1⟩ := ih (some c) (pos + 1)
    refine ⟨p1, q1, ?_⟩
    rw [List.cons_append, regexScan, if_pos (by simp)]
    simpa using h1

/-- A match at the head of a scan: it is recorded and the scan goes on behind it. -/
theorem regexScan_match {re : Regex} {w R : List Char} {c : List (Nat × List Char)}
    (hw : w ≠ []) (prev : Option Char) (pos : Nat)
    (h : matchHere re prev (w ++ R) = some (w.length, c)) :
    ∃ prev' pos', regexScan re prev (w ++ R) pos 0 =
      { position := pos, length := w.length, caps := c } :: regexScan re prev' R pos' 0 := by
  cases w with
  | nil => exact absurd rfl hw
  | cons x w =>
    obtain ⟨p1, q1, h1⟩ := regexScan_skip re R w (some x) (pos + 1)
    refine ⟨p1, q1, ?_⟩
    rw [List.cons_append] at h ⊢
    rw [regexScan, if_neg (Nat.lt_irrefl 0), h]
    simp only [List.length_cons, Nat.add_sub_cancel]
    rw [h1]

/-- A stretch of text in which the pattern matches nowhere is passed over by the scan. -/
theorem regexScan_dead {re : Regex} (E : List Char) : ∀ (l : List Char),
    (∀ l2, l2 ≠ [] → l2 <:+ l → re.Fails (l2 ++ E)) → ∀ (prev : Option Char) (pos : Nat),
      ∃ prev' pos', regexScan re prev (l ++ E) pos 0 = regexScan re prev' E pos' 0 := by
  intro l
  induction l with
  | nil => intro _ prev pos; exact ⟨prev, pos, rfl⟩
  | cons c l ih =>
    intro h prev pos
    obtain ⟨p1, q1, h1⟩ := ih (fun l2 hne hsuf => h l2 hne (hsuf.trans (List.suffix_cons c l)))
      (some c) (pos + 1)
    refine ⟨p1, q1, ?_⟩
    have hf := matchHere_none_of_fails (h (c :: l) (by simp) (List.suffix_refl _)) prev
    rw [List.cons_append] at hf ⊢
    rw [regexScan, if_neg (Nat.lt_irrefl 0), hf]
    exact h1

theorem suffix_append_cases {l2 a b : List Char} (h : l2 <:+ a ++ b) :
    (∃ a', a' <:+ a ∧ l2 = a' ++ b) ∨ l2 <:+ b := by
  induction a with
  | nil => exact Or.inr h
  | cons x a ih =>
    rw [List.cons_append, List.suffix_cons_iff] at h
    rcases h with h | h
    · exact Or.inl ⟨x :: a, List.suffix_refl _, h⟩
    · rcases ih h with ⟨a', ha', hl⟩ | hb
      · exact Or.inl ⟨a', ha'.trans (List.suffix_cons x a), hl⟩
      · exact Or.inr hb

/-- A suffix of blanks, a word and blanks is again blanks, a word and blanks. -/
theorem suffix_dead_shape {l2 sp wd sp2 : List Char} (h : l2 <:+ sp ++ wd ++ sp2)
    (hsp : ∀ c, c ∈ sp → isSpaceChar c = true) (hwd : ∀ c, c ∈ wd → isWordChar c = true)
    (hsp2 : ∀ c, c ∈ sp2 → isSpaceChar c = true) :
    ∃ sp' wd' sp2', l2 = sp' ++ wd' ++ sp2' ∧ (∀ c, c ∈ sp' → isSpaceChar c = true) ∧
      (∀ c, c ∈ wd' → isWordChar c = true) ∧ (∀ c, c ∈ sp2' → isSpaceChar c = true) := by
  rw [List.append_assoc] at h
  rcases suffix_append_cases h with ⟨a', ha', hl⟩ | hb
  · exact ⟨a', wd, sp2, by rw [hl, List.append_assoc], fun c hc => hsp c (ha'.subset hc),
      hwd, hsp2⟩
  · rcases suffix_append_cases hb with ⟨a', ha', hl⟩ | hb
    · exact ⟨[], a', sp2, by rw [hl]; rfl, by simp, fun c hc => hwd c (ha'.subset hc), hsp2⟩
    · exact ⟨[], [], l2, rfl, by simp, by simp, fun c hc => hsp2 c (hb.subset hc)⟩

/-! ## The parameter pattern -/

theorem param_regex_derives {w : List Char} {c : List (Nat × List Char)}
    (h : param_regex.Derives w c) :
    ∃ lead base arr gap n, w = lead ++ base ++ arr ++ gap ++ n ∧
      c = [(2, n), (1, base ++ arr)] ∧
      (∀ x, x ∈ lead → isSpaceChar x = true) ∧
      (base ≠ [] ∧ ∀ x, x ∈ base → isWordChar x = true) ∧
      (arr = [] ∨ arr = "[]".toList) ∧
      (gap ≠ [] ∧ ∀ x, x ∈ gap → isSpaceChar x = true) ∧
      (n ≠ [] ∧ ∀ x, x ∈ n → isWordChar x = true) := by
  rw [param_regex] at h
  obtain ⟨lead, t1, c1, d1, h1, g1, rfl, rfl⟩ := Regex.derives_cat_cons h
  obtain ⟨hlead, rfl⟩ := Regex.derives_star_cls h1
  obtain ⟨ty, t2, c2, d2, ⟨c2', h2, rfl⟩, g2, rfl, rfl⟩ := Regex.derives_cat_cons g1
  obtain ⟨base, arr, c3, d3, h3, h4, rfl, rfl⟩ := h2
  obtain ⟨hbn, hbase, rfl⟩ := Regex.derives_plus_cls h3
  have harr : (arr = [] ∨ arr = "[]".toList) ∧ d3 = [] := by
    rcases h4 with h4 | ⟨rfl, rfl⟩
    · obtain ⟨rfl, rfl⟩ := Regex.derives_lit _ _ _ h4
      exact ⟨Or.inr rfl, rfl⟩
    · exact ⟨Or.inl rfl, rfl⟩
  obtain ⟨harr, rfl⟩ := harr
  obtain ⟨gap, n, c4, d4, h5, ⟨c5, h6, rfl⟩, rfl, rfl⟩ := Regex.derives_cat_cons g2
  obtain ⟨hgn, hgap, rfl⟩ := Regex.derives_plus_cls h5
  obtain ⟨hnn, hn, rfl⟩ := Regex.derives_plus_cls h6
  exact ⟨lead, base, arr, gap, n, by simp, by simp, hlead, ⟨hbn, hbase⟩, harr, ⟨hgn, hgap⟩,
    ⟨hnn, hn⟩⟩

theorem stopsAt_word_of_space {g : List Char} (hne : g ≠ [])
    (hg : ∀ c, c ∈ g → isSpaceChar c = true) (t : List Char) :
    stopsAt isWordChar (g ++ t) = true := by
  cases g with
  | nil => exact absurd rfl hne
  | cons x g =>
    simp only [List.cons_append, stopsAt, Bool.not_eq_true']
    exact not_word_of_space (hg x (List.mem_cons_self _ _))

/-- The text that follows a type: it starts with `[` or with a blank, not with a word
character. -/
theorem stopsAt_word_suffix (array : Bool) {g : List Char} (hne : g ≠ [])
    (hg : ∀ c, c ∈ g → isSpaceChar c = true) (t : List Char) :
    stopsAt isWordChar ((if array then "[]".toList else []) ++ (g ++ t)) = true := by
  cases array with
  | true => rfl
  | false => exact stopsAt_word_of_space hne hg t

/-- The first choice of the optional suffix `[]` of a type. -/
theorem takes_array_suffix (array : Bool) {R : List Char}
    (hR : array = false → "[]".toList.isPrefixOf R = false) :
    (Regex.opt (Regex.lit "[]".toList)).Takes (if array then "[]".toList else []) [] R := by
  cases array with
  | true => exact Regex.takes_alt_left _ (Regex.takes_lit _ _)
  | false => exact Regex.takes_alt_right (Regex.fails_lit (hR rfl)) (Regex.takes_eps _)

theorem not_array_of_space {g : List Char} (hne : g ≠ [])
    (hg : ∀ c, c ∈ g → isSpaceChar c = true) (t : List Char) :
    "[]".toList.isPrefixOf (g ++ t) = false := by
  cases g with
  | nil => exact absurd rfl hne
  | cons x g =>
    have hx := hg x (List.mem_cons_self _ _)
    have : ('[' == x) = false := by
      rw [beq_eq_false_iff_ne]
      rintro rfl
      exact absurd hx (by decide)
    simp [List.isPrefixOf, this]

/-- The first choice of the parameter pattern at a declaration: blanks, the type, blanks and
the second word, when the text does not go on with a word character. -/
theorem param_regex_takes {lead base gap name R : List Char} (array : Bool)
    (hlead : ∀ c, c ∈ lead → isSpaceChar c = true)
    (hbn : base ≠ []) (hbase : ∀ c, c ∈ base → isWordChar c = true)
    (hgn : gap ≠ []) (hgap : ∀ c, c ∈ gap → isSpaceChar c = true)
    (hnn : name ≠ []) (hname : ∀ c, c ∈ name → isWordChar c = true)
    (hR : stopsAt isWordChar R = true) :
    param_regex.Takes
      (lead ++ ((base ++ (if array then "[]".toList else [])) ++ (gap ++ name)))
      [(2, name), (1, base ++ (if array then "[]".toList else []))] R := by
  have h1 : (Regex.star Regex.s).Takes lead []
      (((base ++ (if array then "[]".toList else [])) ++ (gap ++ name)) ++ R) := by
    apply Regex.takes_star_cls _ lead hlead
    rw [List.append_assoc, List.append_assoc]
    exact stopsAt_space_of_word hbn hbase _
  have h2 : (Regex.group 1 (.seq (.plus .w) (.opt (.lit "[]".toList)))).Takes
      (base ++ (if array then "[]".toList else []))
      [(1, base ++ (if array then "[]".toList else []))] ((gap ++ name) ++ R) := by
    apply Regex.takes_group 1
    have ha : (Regex.plus Regex.w).Takes base []
        ((if array then "[]".toList else []) ++ ((gap ++ name) ++ R)) := by
      apply Regex.takes_plus_cls _ hbn hbase
      rw [List.append_assoc]
      exact stopsAt_word_suffix array hgn hgap _
    have hb := takes_array_suffix array (R := (gap ++ name) ++ R)
      (fun _ => by rw [List.append_assoc]; exact not_array_of_space hgn hgap _)
    exact Regex.takes_seq ha hb
  have h3 : (Regex.plus Regex.s).Takes gap [] (name ++ R) :=
    Regex.takes_plus_cls (stopsAt_space_of_word hnn hname R) hgn hgap
  have h4 : (Regex.group 2 (Regex.plus Regex.w)).Takes name [(2, name)] R :=
    Regex.takes_group 2 (Regex.takes_plus_cls hR hnn hname)
  exact Regex.takes_seq h1 (Regex.takes_seq h2 (Regex.takes_seq h3 h4))

/-- The text left of blanks, a word and blanks, with the blanks, the word and the blanks
dropped in this order. -/
theorem dropWhile_dead {sp wd sp2 E : List Char} (hsp : ∀ c, c ∈ sp → isSpaceChar c = true)
    (hwd : ∀ c, c ∈ wd → isWordChar c = true) (hsp2 : ∀ c, c ∈ sp2 → isSpaceChar c = true)
    (hE : E = [] ∨ ∃ X, E = ',' :: X) :
    (((sp ++ wd ++ sp2 ++ E).dropWhile isSpaceChar).dropWhile isWordChar).dropWhile isSpaceChar
      = E := by
  have hEs : stopsAt isSpaceChar E = true := by
    rcases hE with rfl | ⟨X, rfl⟩ <;> rfl
  have hEw : stopsAt isWordChar E = true := by
    rcases hE with rfl | ⟨X, rfl⟩ <;> rfl
  have h1 : sp ++ wd ++ sp2 ++ E = sp ++ (wd ++ (sp2 ++ E)) := by simp
  rw [h1, dropWhile_append_of_all _ sp hsp]
  cases wd with
  | nil =>
    rw [List.nil_append, dropWhile_append_stop hsp2 hEs, dropWhile_of_stopsAt hEw,
      dropWhile_of_stopsAt hEs]
  | cons x wd =>
    have hst : stopsAt isSpaceChar ((x :: wd) ++ (sp2 ++ E)) = true :=
      stopsAt_space_of_word (by simp) hwd _
    have hst2 : stopsAt isWordChar (sp2 ++ E) = true := by
      cases sp2 with
      | nil => exact hEw
      | cons y sp2 => exact stopsAt_word_of_space (by simp) hsp2 _
    rw [dropWhile_of_stopsAt hst, dropWhile_append_stop hwd hst2,
      dropWhile_append_stop hsp2 hEs]

/-- The parameter pattern matches nowhere in blanks, a word and blanks that are followed by a
comma or by the end of the text. -/
theorem param_regex_fails {sp wd sp2 E : List Char}
    (hsp : ∀ c, c ∈ sp → isSpaceChar c = true)
    (hwd : ∀ c, c ∈ wd → isWordChar c = true) (hsp2 : ∀ c, c ∈ sp2 → isSpaceChar c = true)
    (hE : E = [] ∨ ∃ X, E = ',' :: X) : param_regex.Fails (sp ++ wd ++ sp2 ++ E) := by
  apply Regex.fails_of_derives
  intro w c tail hd ht
  obtain ⟨lead, base, arr, gap, n, rfl, -, hlead, ⟨hbn, hbase⟩, harr, ⟨hgn, hgap⟩, ⟨hnn, hn⟩⟩ :=
    param_regex_derives hd
  have hdead := dropWhile_dead hsp hwd hsp2 hE
  rw [ht] at hdead
  have h1 : lead ++ base ++ arr ++ gap ++ n ++ tail =
      lead ++ (base ++ (arr ++ (gap ++ (n ++ tail)))) := by simp
  have hst1 : stopsAt isSpaceChar (base ++ (arr ++ (gap ++ (n ++ tail)))) = true :=
    stopsAt_space_of_word hbn hbase _
  have hst2 : stopsAt isWordChar (arr ++ (gap ++ (n ++ tail))) = true := by
    rcases harr with rfl | rfl
    · exact stopsAt_word_of_space hgn hgap _
    · rfl
  rw [h1, dropWhile_append_stop hlead hst1, dropWhile_append_stop hbase hst2] at hdead
  rcases harr with rfl | rfl
  · rw [List.nil_append, dropWhile_append_stop hgap (stopsAt_space_of_word hnn hn _)] at hdead
    cases n with
    | nil => exact hnn rfl
    | cons x n =>
      have hx := hn x (List.mem_cons_self _ _)
      rcases hE with rfl | ⟨X, rfl⟩
      · cases hdead
      · rw [List.cons_append] at hdead
        injection hdead with hx' _
        rw [hx'] at hx
        exact absurd hx (by decide)
  · have : ("[]".toList ++ (gap ++ (n ++ tail))).dropWhile isSpaceChar =
        "[]".toList ++ (gap ++ (n ++ tail)) := rfl
    rw [this] at hdead
    rcases hE with rfl | ⟨X, rfl⟩
    · cases hdead
    · injection hdead with hx' _
      exact absurd hx' (by decide)

theorem paramDecl_wf_spec {d : ParamDecl} (h : d.wf = true) :
    (∀ c, c ∈ d.lead → isSpaceChar c = true) ∧
      (d.base ≠ [] ∧ ∀ c, c ∈ d.base → isWordChar c = true) ∧
      (d.gap ≠ [] ∧ ∀ c, c ∈ d.gap → isSpaceChar c = true) ∧
      (d.name ≠ [] ∧ ∀ c, c ∈ d.name → isWordChar c = true) ∧
      (∀ c, c ∈ d.gap2 → isSpaceChar c = true) ∧
      (∀ c, c ∈ d.third → isWordChar c = true) ∧
      (d.gap2 = [] → d.third = []) ∧
      (∀ c, c ∈ d.trail → isSpaceChar c = true) := by
  unfold ParamDecl.wf at h
  simp only [Bool.and_eq_true, Bool.or_eq_true, Bool.not_eq_true', List.all_eq_true,
    List.isEmpty_eq_false, List.isEmpty_iff] at h
  obtain ⟨⟨⟨⟨⟨⟨⟨⟨⟨⟨h1, h2⟩, h3⟩, h4⟩, h5⟩, h6⟩, h7⟩, h8⟩, h9⟩, h10⟩, h11⟩ := h
  refine ⟨h1, ⟨h2, h3⟩, ⟨h4, h5⟩, ⟨h6, h7⟩, h8, h9, ?_, h11⟩
  intro hg
  rcases h10 with h | h
  · exact h
  · exact absurd hg h

/-- The scan of the parameter pattern over one declaration that is followed by a comma or by
the end of the text: one match, with the type and the second word, and the scan goes on at
what follows the declaration. -/
theorem regexScan_param_decl {d : ParamDecl} (hd : d.wf = true) {E : List Char}
    (hE : E = [] ∨ ∃ X, E = ',' :: X) (prev : Option Char) (pos : Nat) :
    ∃ len prev' pos', regexScan param_regex prev (d.text ++ E) pos 0 =
      { position := pos, length := len, caps := [(2, d.name), (1, d.type)] } ::
        regexScan param_regex prev' E pos' 0 := by
  obtain ⟨hlead, ⟨hbn, hbase⟩, ⟨hgn, hgap⟩, ⟨hnn, hname⟩, hgap2, hthird, hno, htrail⟩ :=
    paramDecl_wf_spec hd
  have hEw : stopsAt isWordChar E = true := by
    rcases hE with rfl | ⟨X, rfl⟩ <;> rfl
  have hR : stopsAt isWordChar (d.gap2 ++ d.third ++ d.trail ++ E) = true := by
    by_cases hg : d.gap2 = []
    · rw [hg, hno hg, List.nil_append, List.nil_append]
      by_cases ht : d.trail = []
      · rw [ht]; exact hEw
      · exact stopsAt_word_of_space ht htrail _
    · rw [List.append_assoc, List.append_assoc]
      exact stopsAt_word_of_space hg hgap2 _
  have htext : d.text ++ E = (d.lead ++ ((d.base ++ (if d.array then "[]".toList else [])) ++
      (d.gap ++ d.name))) ++ (d.gap2 ++ d.third ++ d.trail ++ E) := by
    simp [ParamDecl.text, ParamDecl.type]
  have hw : d.lead ++ ((d.base ++ (if d.array then "[]".toList else [])) ++
      (d.gap ++ d.name)) ≠ [] := by
    cases hb : d.base with
    | nil => exact absurd hb hbn
    | cons x b => simp
  have hm := matchHere_of_takes
    (param_regex_takes d.array hlead hbn hbase hgn hgap hnn hname hR) prev
  obtain ⟨p1, q1, h1⟩ := regexScan_match hw prev pos hm
  obtain ⟨p2, q2, h2⟩ := @regexScan_dead param_regex E (d.gap2 ++ d.third ++ d.trail)
    (fun l2 _ hsuf => by
      obtain ⟨sp', wd', sp2', rfl, h1, h2, h3⟩ := suffix_dead_shape hsuf hgap2 hthird htrail
      exact param_regex_fails h1 h2 h3 hE) p1 q1
  exact ⟨_, p2, q2, by rw [htext, h1, h2]; rfl⟩

/-- The matches of the parameter pattern in a comma-separated list of declarations: one for
each declaration, with its type and its second word. -/
theorem regexScan_params : ∀ (ds : List ParamDecl), (∀ d, d ∈ ds → d.wf = true) →
    ∀ (prev : Option Char) (pos : Nat),
      (regexScan param_regex prev (commaSeparated (ds.map ParamDecl.text)) pos 0).map
        Match.caps = ds.map (fun d => [(2, d.name), (1, d.type)])
  | [], _, _, _ => rfl
  | [d], h, prev, pos => by
    obtain ⟨len, p1, q1, h1⟩ := regexScan_param_decl (h d (List.mem_cons_self _ _))
      (Or.inl rfl) prev pos
    rw [List.append_nil] at h1
    show (regexScan param_regex prev d.text pos 0).map Match.caps = _
    rw [h1]
    rfl
  | d :: d2 :: ds, h, prev, pos => by
    have ih := regexScan_params (d2 :: ds) (fun x hx => h x (List.mem_cons_of_mem _ hx))
    obtain ⟨len, p1, q1, h1⟩ := regexScan_param_decl (h d (List.mem_cons_self _ _))
      (Or.inr ⟨commaSeparated ((d2 :: ds).map ParamDecl.text), rfl⟩) prev pos
    have hf := matchHere_none_of_fails
      (@param_regex_fails [] [] [] _ (by simp) (by simp) (by simp)
        (Or.inr ⟨commaSeparated ((d2 :: ds).map ParamDecl.text), rfl⟩)) p1
    simp only [List.nil_append] at hf
    show (regexScan param_regex prev
      (d.text ++ ',' :: commaSeparated ((d2 :: ds).map ParamDecl.text)) pos 0).map
        Match.caps = _
    rw [h1, List.map_cons, regexScan, if_neg (Nat.lt_irrefl 0), hf, ih]
    rfl

/-- The parameters extracted from a comma-separated list of declarations: for each declaration,
in order, its type and its second word. -/
theorem extractParameters_decls (ds : List ParamDecl) (h : ∀ d, d ∈ ds → d.wf = true) :
    extractParameters (commaSeparated (ds.map ParamDecl.text)) =
      ds.map (fun d => { type := d.type, name := d.name }) := by
  unfold extractParameters
  split
  · next hemp =>
    cases ds with
    | nil => rfl
    | cons d ds =>
      exfalso
      obtain ⟨-, ⟨hbn, -⟩, -⟩ := paramDecl_wf_spec (h d (List.mem_cons_self _ _))
      have : commaSeparated ((d :: ds).map ParamDecl.text) ≠ [] := by
        cases ds with
        | nil =>
          show d.text ≠ []
          cases hb : d.base with
          | nil => exact absurd hb hbn
          | cons x b => simp [ParamDecl.text, ParamDecl.type, hb]
        | cons d2 ds =>
          show d.text ++ ',' :: _ ≠ []
          simp
      exact this (List.isEmpty_iff.1 hemp)
  · have hs := regexScan_params ds h none 0
    have hmap : ∀ l : List Match, l.map (fun m => ({ type := m.sub 1, name := m.sub 2 } :
        Parameter)) = (l.map Match.caps).map (fun c =>
          ({ type := Match.sub ⟨0, 0, c⟩ 1, name := Match.sub ⟨0, 0, c⟩ 2 } : Parameter)) := by
      intro l
      rw [List.map_map]
      rfl
    unfold regexIterate
    rw [hmap, hs, List.map_map]
    rfl

/-! ## The clauses of a signature -/

theorem ne_paren_of_space {q x : Char} (hq : isSpaceChar q = false) (hx : isSpaceChar x = true) :
    (x != q) = true := by
  rw [bne_iff_ne]
  rintro rfl
  rw [hq] at hx
  cases hx

theorem ne_paren_of_word {q x : Char} (hq : isWordChar q = false) (hx : isWordChar x = true) :
    (x != q) = true := by
  rw [bne_iff_ne]
  rintro rfl
  rw [hq] at hx
  cases hx

theorem keyword_chars_word {k : List Char}
    (hk : k = [] ∨ k ∈ visibilityKeywords ∨ k ∈ mutabilityKeywords) :
    ∀ x, x ∈ k → isWordChar x = true := by
  simp only [visibilityKeywords, mutabilityKeywords, List.mem_cons, List.mem_singleton,
    List.not_mem_nil, or_false] at hk
  rcases hk with rfl | (rfl | rfl | rfl | rfl) | (rfl | rfl | rfl | rfl) <;> decide

/-- The parameter list and the `returns` clause of a derived signature. -/
theorem signature_clauses {ws1 name ws2 params ws3 V ws4 M ws5 R ws6 : List Char}
    (hws1 : ∀ x, x ∈ ws1 → isSpaceChar x = true) (hname : ∀ x, x ∈ name → isWordChar x = true)
    (hws2 : ∀ x, x ∈ ws2 → isSpaceChar x = true)
    (hparams : ∀ x, x ∈ params → notCloseParen x = true)
    (hws3 : ∀ x, x ∈ ws3 → isSpaceChar x = true)
    (hV : V = [] ∨ V ∈ visibilityKeywords)
    (hws4 : ∀ x, x ∈ ws4 → isSpaceChar x = true)
    (hM : M = [] ∨ M ∈ mutabilityKeywords)
    (hws5 : ∀ x, x ∈ ws5 → isSpaceChar x = true) (hws6 : ∀ x, x ∈ ws6 → isSpaceChar x = true)
    (hR : R = [] ∨ ∃ ws ps, R = "returns".toList ++ ws ++ '(' :: ps ++ [')'] ∧
        (∀ x, x ∈ ws → isSpaceChar x = true) ∧ ∀ x, x ∈ ps → notCloseParen x = true) :
    parameterListOf ("function".toList ++ ws1 ++ name ++ ws2 ++ '(' :: params ++ ')' :: ws3 ++
        V ++ ws4 ++ M ++ ws5 ++ R ++ ws6 ++ ['{']) = params ∧
      returnsClauseOf ("function".toList ++ ws1 ++ name ++ ws2 ++ '(' :: params ++ ')' :: ws3 ++
        V ++ ws4 ++ M ++ ws5 ++ R ++ ws6 ++ ['{']) =
        (if R = [] then none else some (((R.dropWhile (fun c => c != '(')).drop 1).takeWhile
          (fun c => c != ')'))) := by
  have hVw := keyword_chars_word (hV.imp id Or.inl)
  have hMw := keyword_chars_word (hM.imp id Or.inr)
  have hnc : ∀ x, notCloseParen x = true → (x != ')') = true := by
    intro x hx
    simpa [notCloseParen] using hx
  constructor
  · have hpre : ∀ c, c ∈ "function".toList ++ ws1 ++ name ++ ws2 →
        (fun c => c != '(') c = true := by
      intro c hc
      simp only [List.mem_append] at hc
      rcases hc with ((hc | hc) | hc) | hc
      · revert c; decide
      · exact ne_paren_of_space (by decide) (hws1 c hc)
      · exact ne_paren_of_word (by decide) (hname c hc)
      · exact ne_paren_of_space (by decide) (hws2 c hc)
    have hsplit : "function".toList ++ ws1 ++ name ++ ws2 ++ '(' :: params ++ ')' :: ws3 ++
        V ++ ws4 ++ M ++ ws5 ++ R ++ ws6 ++ ['{'] =
        ("function".toList ++ ws1 ++ name ++ ws2) ++ '(' :: (params ++ ')' ::
          (ws3 ++ V ++ ws4 ++ M ++ ws5 ++ R ++ ws6 ++ ['{'])) := by simp
    unfold parameterListOf
    rw [hsplit, dropWhile_run _ (by decide) _ hpre, List.drop_one, List.tail_cons,
      takeWhile_append_stop (by rfl) params (fun c hc => hnc c (hparams c hc))]
  · have hpre : ∀ c, c ∈ "function".toList ++ ws1 ++ name ++ ws2 ++ '(' :: params →
        (fun c => c != ')') c = true := by
      intro c hc
      simp only [List.mem_append, List.mem_cons] at hc
      rcases hc with (((hc | hc) | hc) | hc) | hc | hc
      · revert c; decide
      · exact ne_paren_of_space (by decide) (hws1 c hc)
      · exact ne_paren_of_word (by decide) (hname c hc)
      · exact ne_paren_of_space (by decide) (hws2 c hc)
      · rw [hc]; decide
      · exact hnc c (hparams c hc)
    have hmid : ∀ c, c ∈ ws3 ++ V ++ ws4 ++ M ++ ws5 → (fun c => c != '(') c = true := by
      intro c hc
      simp only [List.mem_append] at hc
      rcases hc with (((hc | hc) | hc) | hc) | hc
      · exact ne_paren_of_space (by decide) (hws3 c hc)
      · exact ne_paren_of_word (by decide) (hVw c hc)
      · exact ne_paren_of_space (by decide) (hws4 c hc)
      · exact ne_paren_of_word (by decide) (hMw c hc)
      · exact ne_paren_of_space (by decide) (hws5 c hc)
    have hsplit : "function".toList ++ ws1 ++ name ++ ws2 ++ '(' :: params ++ ')' :: ws3 ++
        V ++ ws4 ++ M ++ ws5 ++ R ++ ws6 ++ ['{'] =
        ("function".toList ++ ws1 ++ name ++ ws2 ++ '(' :: params) ++ ')' ::
          ((ws3 ++ V ++ ws4 ++ M ++ ws5) ++ (R ++ (ws6 ++ ['{']))) := by simp
    unfold returnsClauseOf
    rw [hsplit, dropWhile_run _ (by decide) _ hpre, List.drop_one, List.tail_cons,
      dropWhile_append_of_all _ _ hmid]
    rcases hR with rfl | ⟨ws, ps, rfl, hws, hps⟩
    · have hall : ∀ c, c ∈ ws6 ++ ['{'] → (fun c => c != '(') c = true := by
        intro c hc
        simp only [List.mem_append, List.mem_singleton] at hc
        rcases hc with hc | hc
        · exact ne_paren_of_space (by decide) (hws6 c hc)
        · rw [hc]; decide
      have := dropWhile_append_of_all [] _ hall
      rw [List.append_nil] at this
      rw [List.nil_append, this]
      rfl
    · have hret : ∀ c, c ∈ "returns".toList ++ ws → (fun c => c != '(') c = true := by
        intro c hc
        simp only [List.mem_append] at hc
        rcases hc with hc | hc
        · revert c; decide
        · exact ne_paren_of_space (by decide) (hws c hc)
      have h1 : "returns".toList ++ ws ++ '(' :: ps ++ [')'] ++ (ws6 ++ ['{']) =
          ("returns".toList ++ ws) ++ '(' :: (ps ++ ')' :: (ws6 ++ ['{'])) := by simp
      have h2 : "returns".toList ++ ws ++ '(' :: ps ++ [')'] =
          ("returns".toList ++ ws) ++ '(' :: (ps ++ [')']) := by simp
      rw [h1, dropWhile_run _ (by decide) _ hret, if_neg (by simp), h2,
        dropWhile_run _ (by decide) _ hret, List.drop_one, List.tail_cons,
        takeWhile_append_stop (by rfl) ps (fun c hc => hnc c (hps c hc))]
      show some (List.takeWhile (fun c => c != ')') (ps ++ ')' :: (ws6 ++ ['{']))) = some ps
      rw [takeWhile_append_stop (by rfl) ps (fun c hc => hnc c (hps c hc))]

/-- The sub-matches 2 and 5 of a signature match are its parameter list and the text of its
`returns` clause, the empty text when it has no such clause. -/
theorem clauses_of_match {source : List Char} {m : Match} (hm : m ∈ functionMatches source) :
    m.sub 2 = parameterListOf (m.str source) ∧
      m.sub 5 = (returnsClauseOf (m.str source)).getD [] := by
  obtain ⟨ws1, name, ws2, params, ws3, V, ws4, M, ws5, R, ws6, cR, hw, hc, ⟨-, hws1⟩,
    ⟨-, hname⟩, hws2, hparams, hws3, hV, hws4, hM, hws5, hR, hws6⟩ :=
    function_regex_derives (functionMatches_derives hm)
  have hcR : cR = [] ∨ ∃ ps, cR = [(5, ps)] := by
    rcases hR with ⟨-, h⟩ | ⟨ws, ps, -, h, -⟩
    · exact Or.inl h
    · exact Or.inr ⟨ps, h⟩
  have hR' : R = [] ∨ ∃ ws ps, R = "returns".toList ++ ws ++ '(' :: ps ++ [')'] ∧
      (∀ x, x ∈ ws → isSpaceChar x = true) ∧ ∀ x, x ∈ ps → notCloseParen x = true := by
    rcases hR with ⟨h, -⟩ | ⟨ws, ps, h, -, h1, h2⟩
    · exact Or.inl h
    · exact Or.inr ⟨ws, ps, h, h1, h2⟩
  obtain ⟨-, h2, -, -, h5⟩ := sub_of_caps hcR m hc
  obtain ⟨hp, hr⟩ := signature_clauses hws1 hname hws2 hparams hws3 hV hws4 hM hws5 hws6 hR'
  rw [hw, hp, hr, h2, h5]
  refine ⟨rfl, ?_⟩
  rcases hR with ⟨rfl, rfl⟩ | ⟨ws, ps, rfl, rfl, hws, hps⟩
  · rfl
  · have hret : ∀ c, c ∈ "returns".toList ++ ws → (fun c => c != '(') c = true := by
      intro c hc
      simp only [List.mem_append] at hc
      rcases hc with hc | hc
      · revert c; decide
      · exact ne_paren_of_space (by decide) (hws c hc)
    have h2 : "returns".toList ++ ws ++ '(' :: ps ++ [')'] =
        ("returns".toList ++ ws) ++ '(' :: (ps ++ [')']) := by simp
    rw [if_neg (by simp), h2, dropWhile_run _ (by decide) _ hret, List.drop_one,
      List.tail_cons, takeWhile_append_stop (by rfl) ps
        (fun c hc => by simpa [notCloseParen] using hps c hc)]
    rfl

/-! ## The return-type pattern -/

theorem return_regex_derives {w : List Char} {c : List (Nat × List Char)}
    (h : return_regex.Derives w c) :
    ∃ lead base arr, w = lead ++ base ++ arr ∧ c = [(1, base ++ arr)] ∧
      (∀ x, x ∈ lead → isSpaceChar x = true) ∧
      (base ≠ [] ∧ ∀ x, x ∈ base → isWordChar x = true) ∧
      (arr = [] ∨ arr = "[]".toList) := by
  rw [return_regex] at h
  obtain ⟨lead, t1, c1, d1, h1, ⟨c2', h2, rfl⟩, rfl, rfl⟩ := Regex.derives_cat_cons h
  obtain ⟨hlead, rfl⟩ := Regex.derives_star_cls h1
  obtain ⟨base, arr, c3, d3, h3, h4, rfl, rfl⟩ := h2
  obtain ⟨hbn, hbase, rfl⟩ := Regex.derives_plus_cls h3
  have harr : (arr = [] ∨ arr = "[]".toList) ∧ d3 = [] := by
    rcases h4 with h4 | ⟨rfl, rfl⟩
    · obtain ⟨rfl, rfl⟩ := Regex.derives_lit _ _ _ h4
      exact ⟨Or.inr rfl, rfl⟩
    · exact ⟨Or.inl rfl, rfl⟩
  obtain ⟨harr, rfl⟩ := harr
  exact ⟨lead, base, arr, by simp, by simp, hlead, ⟨hbn, hbase⟩, harr⟩

/-- The first choice of the return-type pattern at a type token: blanks and the type, when the
text goes on neither with a word character nor with `[]`. -/
theorem return_regex_takes {lead base R : List Char} (array : Bool)
    (hlead : ∀ c, c ∈ lead → isSpaceChar c = true)
    (hbn : base ≠ []) (hbase : ∀ c, c ∈ base → isWordChar c = true)
    (hR : stopsAt isWordChar R = true) (hR2 : "[]".toList.isPrefixOf R = false) :
    return_regex.Takes (lead ++ (base ++ (if array then "[]".toList else [])))
      [(1, base ++ (if array then "[]".toList else []))] R := by
  have h1 : (Regex.star Regex.s).Takes lead []
      ((base ++ (if array then "[]".toList else [])) ++ R) := by
    apply Regex.takes_star_cls _ lead hlead
    rw [List.append_assoc]
    exact stopsAt_space_of_word hbn hbase _
  have h2 : (Regex.group 1 (.seq (.plus .w) (.opt (.lit "[]".toList)))).Takes
      (base ++ (if array then "[]".toList else []))
      [(1, base ++ (if array then "[]".toList else []))] R := by
    apply Regex.takes_group 1
    have ha : (Regex.plus Regex.w).Takes base []
        ((if array then "[]".toList else []) ++ R) := by
      apply Regex.takes_plus_cls _ hbn hbase
      cases array with
      | true => rfl
      | false => exact hR
    exact Regex.takes_seq ha (takes_array_suffix array (fun _ => hR2))
  exact Regex.takes_seq h1 h2

/-- The return-type pattern matches nowhere in blanks that are followed by a comma or by the
end of the text. -/
theorem return_regex_fails {sp E : List Char} (hsp : ∀ c, c ∈ sp → isSpaceChar c = true)
    (hE : E = [] ∨ ∃ X, E = ',' :: X) : return_regex.Fails (sp ++ E) := by
  apply Regex.fails_of_derives
  intro w c tail hd ht
  obtain ⟨lead, base, arr, rfl, -, hlead, ⟨hbn, hbase⟩, -⟩ := return_regex_derives hd
  have hEs : stopsAt isSpaceChar E = true := by
    rcases hE with rfl | ⟨X, rfl⟩ <;> rfl
  have hdead := dropWhile_append_stop hsp hEs
  have h1 : lead ++ base ++ arr ++ tail = lead ++ (base ++ (arr ++ tail)) := by simp
  rw [ht, h1, dropWhile_append_stop hlead (stopsAt_space_of_word hbn hbase _)] at hdead
  cases base with
  | nil => exact hbn rfl
  | cons x base =>
    have hx := hbase x (List.mem_cons_self _ _)
    rcases hE with rfl | ⟨X, rfl⟩
    · cases hdead
    · rw [List.cons_append] at hdead
      injection hdead with hx' _
      rw [hx'] at hx
      exact absurd hx (by decide)

theorem typeToken_wf_spec {d : TypeToken} (h : d.wf = true) :
    (∀ c, c ∈ d.lead → isSpaceChar c = true) ∧
      (d.base ≠ [] ∧ ∀ c, c ∈ d.base → isWordChar c = true) ∧
      (∀ c, c ∈ d.trail → isSpaceChar c = true) := by
  unfold TypeToken.wf at h
  simp only [Bool.and_eq_true, Bool.not_eq_true', List.all_eq_true,
    List.isEmpty_eq_false, List.isEmpty_iff] at h
  obtain ⟨⟨⟨h1, h2⟩, h3⟩, h4⟩ := h
  exact ⟨h1, ⟨h2, h3⟩, h4⟩

/-- The scan of the return-type pattern over one type token that is followed by a comma or by
the end of the text: one match, with the type, and the scan goes on behind the token. -/
theorem regexScan_type_token {d : TypeToken} (hd : d.wf = true) {E : List Char}
    (hE : E = [] ∨ ∃ X, E = ',' :: X) (prev : Option Char) (pos : Nat) :
    ∃ len prev' pos', regexScan return_regex prev (d.text ++ E) pos 0 =
      { position := pos, length := len, caps := [(1, d.type)] } ::
        regexScan return_regex prev' E pos' 0 := by
  obtain ⟨hlead, ⟨hbn, hbase⟩, htrail⟩ := typeToken_wf_spec hd
  have hR : stopsAt isWordChar (d.trail ++ E) = true := by
    by_cases ht : d.trail = []
    · rw [ht]; rcases hE with rfl | ⟨X, rfl⟩ <;> rfl
    · exact stopsAt_word_of_space ht htrail _
  have hR2 : "[]".toList.isPrefixOf (d.trail ++ E) = false := by
    by_cases ht : d.trail = []
    · rw [ht]; rcases hE with rfl | ⟨X, rfl⟩ <;> rfl
    · exact not_array_of_space ht htrail _
  have htext : d.text ++ E = (d.lead ++ (d.base ++ (if d.array then "[]".toList else []))) ++
      (d.trail ++ E) := by
    simp [TypeToken.text, TypeToken.type]
  have hw : d.lead ++ (d.base ++ (if d.array then "[]".toList else [])) ≠ [] := by
    cases hb : d.base with
    | nil => exact absurd hb hbn
    | cons x b => simp
  have hm := matchHere_of_takes (return_regex_takes d.array hlead hbn hbase hR hR2) prev
  obtain ⟨p1, q1, h1⟩ := regexScan_match hw prev pos hm
  obtain ⟨p2, q2, h2⟩ := @regexScan_dead return_regex E d.trail
    (fun l2 _ hsuf => return_regex_fails (fun c hc => htrail c (hsuf.subset hc)) hE) p1 q1
  exact ⟨_, p2, q2, by rw [htext, h1, h2]; rfl⟩

/-- The matches of the return-type pattern in a comma-separated list of type tokens: one for
each token, with its type. -/
theorem regexScan_types : ∀ (ds : List TypeToken), (∀ d, d ∈ ds → d.wf = true) →
    ∀ (prev : Option Char) (pos : Nat),
      (regexScan return_regex prev (commaSeparated (ds.map TypeToken.text)) pos 0).map
        Match.caps = ds.map (fun d => [(1, d.type)])
  | [], _, _, _ => rfl
  | [d], h, prev, pos => by
    obtain ⟨len, p1, q1, h1⟩ := regexScan_type_token (h d (List.mem_cons_self _ _))
      (Or.inl rfl) prev pos
    rw [List.append_nil] at h1
    show (regexScan return_regex prev d.text pos 0).map Match.caps = _
    rw [h1]
    rfl
  | d :: d2 :: ds, h, prev, pos => by
    have ih := regexScan_types (d2 :: ds) (fun x hx => h x (List.mem_cons_of_mem _ hx))
    obtain ⟨len, p1, q1, h1⟩ := regexScan_type_token (h d (List.mem_cons_self _ _))
      (Or.inr ⟨commaSeparated ((d2 :: ds).map TypeToken.text), rfl⟩) prev pos
    have hf := matchHere_none_of_fails
      (@return_regex_fails [] _ (by simp)
        (Or.inr ⟨commaSeparated ((d2 :: ds).map TypeToken.text), rfl⟩)) p1
    simp only [List.nil_append] at hf
    show (regexScan return_regex prev
      (d.text ++ ',' :: commaSeparated ((d2 :: ds).map TypeToken.text)) pos 0).map
        Match.caps = _
    rw [h1, List.map_cons, regexScan, if_neg (Nat.lt_irrefl 0), hf, ih]
    rfl

/-- The return types extracted from a comma-separated list of type tokens: the types of the
tokens, in order. -/
theorem extractReturnTypes_tokens (ds : List TypeToken) (h : ∀ d, d ∈ ds → d.wf = true) :
    extractReturnTypes (commaSeparated (ds.map TypeToken.text)) = ds.map TypeToken.type := by
  unfold extractReturnTypes
  split
  · next hemp =>
    cases ds with
    | nil => rfl
    | cons d ds =>
      exfalso
      obtain ⟨-, ⟨hbn, -⟩, -⟩ := typeToken_wf_spec (h d (List.mem_cons_self _ _))
      have : commaSeparated ((d :: ds).map TypeToken.text) ≠ [] := by
        cases ds with
        | nil =>
          show d.text ≠ []
          cases hb : d.base with
          | nil => exact absurd hb hbn
          | cons x b => simp [TypeToken.text, TypeToken.type, hb]
        | cons d2 ds =>
          show d.text ++ ',' :: _ ≠ []
          simp
      exact this (List.isEmpty_iff.1 hemp)
  · have hs := regexScan_types ds h none 0
    have hmap : ∀ l : List Match, l.map (fun m => m.sub 1) =
        (l.map Match.caps).map (fun c => Match.sub ⟨0, 0, c⟩ 1) := by
      intro l
      rw [List.map_map]
      rfl
    unfold regexIterate
    rw [hmap, hs, List.map_map]
    rfl

/-! ## Parameters and return types of a record -/

/-- Claim C12.  Let `m` be a signature match of the source whose parameter list (the text
between the parentheses after the function name) is a comma-separated sequence of `k ≥ 0`
declarations `T n`: optional blanks, a type `T` that is an identifier with an optional suffix
`[]`, at least one blank, an identifier `n`, and optional blanks.  Then the record of `m` in
the report has as parameters the pairs `(T, n)` of the declarations, in the order in which
they are written; for `k = 0` the parameter list is empty and so are the parameters. -/
theorem parameters_of_declarations (source : List Char) (m : Match) (ds : List ParamDecl)
    (hm : m ∈ functionMatches source) (hds : ∀ d, d ∈ ds → d.plain = true)
    (hlist : parameterListOf (m.str source) = commaSeparated (ds.map ParamDecl.text)) :
    ∃ r f, ParseContractSource source = some r ∧ f ∈ r.functions ∧
      analyzeFunction source m = some f ∧
      f.parameters = ds.map (fun d => { type := d.type, name := d.name }) := by
  obtain ⟨r, f, hr, hfr, hf⟩ := record_in_report hm
  refine ⟨r, f, hr, hfr, hf, ?_⟩
  obtain ⟨-, -, -, hp, -⟩ := analyzeFunction_header hf
  rw [hp, (clauses_of_match hm).1, hlist]
  apply extractParameters_decls
  intro d hd
  have := hds d hd
  simp only [ParamDecl.plain, Bool.and_eq_true] at this
  exact this.1.1

/-- Witness of C12: three declarations, written with different blanks, one of an array. -/
theorem parameters_of_declarations_witness :
    (⟨0, 51, [(3, "public".toList), (2, "uint a,uint[] b ,\n address   c".toList),
        (1, "f".toList)]⟩ : Match) ∈ functionMatches parameterSource ∧
      ∃ r f, ParseContractSource parameterSource = some r ∧ f ∈ r.functions ∧
        f.parameters = [{ type := "uint".toList, name := "a".toList },
          { type := "uint[]".toList, name := "b".toList },
          { type := "address".toList, name := "c".toList }] := by
  refine ⟨by decide!, ?_⟩
  obtain ⟨r, f, hr, hf, -, hp⟩ := parameters_of_declarations parameterSource
    ⟨0, 51, [(3, "public".toList), (2, "uint a,uint[] b ,\n address   c".toList),
      (1, "f".toList)]⟩
    [{ lead := [], base := "uint".toList, array := false, gap := " ".toList,
       name := "a".toList, gap2 := [], third := [], trail := [] },
     { lead := [], base := "uint".toList, array := true, gap := " ".toList,
       name := "b".toList, gap2 := [], third := [], trail := " ".toList },
     { lead := "\n ".toList, base := "address".toList, array := false, gap := "   ".toList,
       name := "c".toList, gap2 := [], third := [], trail := [] }]
    (by decide!) (by decide!) (by decide!)
  exact ⟨r, f, hr, hf, hp⟩

/-- Claim C13.  Let `m` be a signature match of the source.  When the signature has no
`returns` clause, the record of `m` in the report has no return types.  When the text in the
parentheses of its `returns` clause is a comma-separated sequence of type tokens (each an
identifier with an optional suffix `[]`, with optional blanks around it), the return types of
the record are these types, in the order in which they are written. -/
theorem returnTypes_of_clause (source : List Char) (m : Match)
    (hm : m ∈ functionMatches source) :
    ∃ r f, ParseContractSource source = some r ∧ f ∈ r.functions ∧
      analyzeFunction source m = some f ∧
      (returnsClauseOf (m.str source) = none → f.returnTypes = []) ∧
      ∀ ds : List TypeToken, (∀ d, d ∈ ds → d.wf = true) →
        returnsClauseOf (m.str source) = some (commaSeparated (ds.map TypeToken.text)) →
        f.returnTypes = ds.map TypeToken.type := by
  obtain ⟨r, f, hr, hfr, hf⟩ := record_in_report hm
  refine ⟨r, f, hr, hfr, hf, ?_, ?_⟩
  · intro hnone
    obtain ⟨-, -, -, -, hrt⟩ := analyzeFunction_header hf
    rw [hrt, (clauses_of_match hm).2, hnone]
    rfl
  · intro ds hds hclause
    obtain ⟨-, -, -, -, hrt⟩ := analyzeFunction_header hf
    rw [hrt, (clauses_of_match hm).2, hclause]
    exact extractReturnTypes_tokens ds hds

/-- Witness of C13: a clause of two type tokens with blanks around the first. -/
theorem returnTypes_of_clause_witness :
    (⟨0, 46, [(5, " uint256 ,bool[]".toList), (4, "view".toList), (2, []),
        (1, "f".toList)]⟩ : Match) ∈ functionMatches returnsSource ∧
      ∃ r f, ParseContractSource returnsSource = some r ∧ f ∈ r.functions ∧
        f.returnTypes = ["uint256".toList, "bool[]".toList] := by
  refine ⟨by decide!, ?_⟩
  obtain ⟨r, f, hr, hf, -, -, hrt⟩ := returnTypes_of_clause returnsSource
    ⟨0, 46, [(5, " uint256 ,bool[]".toList), (4, "view".toList), (2, []), (1, "f".toList)]⟩
    (by decide!)
  refine ⟨r, f, hr, hf, ?_⟩
  exact hrt
    [{ lead := " ".toList, base := "uint256".toList, array := false, trail := " ".toList },
     { lead := [], base := "bool".toList, array := true, trail := [] }]
    (by decide!) (by decide!)

/-- Counterexample to C11: the storage-location keyword `memory` is the name of an extracted
parameter, for both parameter lists named in the claim. -/
theorem location_keyword_not_skipped :
    (ParseContractSource locationSource).map
        (fun r => r.functions.map (fun f => f.parameters)) =
      some [[{ type := "string".toList, name := "memory".toList },
        { type := "uint256".toList, name := "amount".toList }]] ∧
    (ParseContractSource locationArraySource).map
        (fun r => r.functions.map (fun f => f.parameters)) =
      some [[{ type := "uint256[]".toList, name := "memory".toList }]] := by
  constructor <;> decide!

/-- Claim C11, amended.  Let `m` be a signature match of the source whose parameter list is a
comma-separated sequence of declarations, each either `T n` or `T loc n` with `loc` one of
`memory`, `storage`, `calldata`.  Then the parameters of the record of `m` are, in order, the
pair of the type and the second word of each declaration: `(T, n)` for a declaration `T n`,
and `(T, loc)` for a declaration `T loc n`.  So the storage-location keyword is not skipped: it
is recorded as the name of the parameter, and the declared name `n` is dropped. -/
theorem location_keyword_becomes_name (source : List Char) (m : Match) (ds : List ParamDecl)
    (hm : m ∈ functionMatches source)
    (hds : ∀ d, d ∈ ds → d.plain = true ∨ d.located = true)
    (hlist : parameterListOf (m.str source) = commaSeparated (ds.map ParamDecl.text)) :
    ∃ r f, ParseContractSource source = some r ∧ f ∈ r.functions ∧
      analyzeFunction source m = some f ∧
      f.parameters = ds.map (fun d => { type := d.type, name := d.name }) ∧
      ∀ d, d ∈ ds → d.located = true →
        ({ type := d.type, name := d.name } : Parameter) ∈ f.parameters ∧
          d.name ∈ locationKeywords ∧ d.third ≠ [] ∧
          ∀ p, p ∈ f.parameters → p.name = d.third → ∃ e, e ∈ ds ∧ e.name = d.third := by
  obtain ⟨r, f, hr, hfr, hf⟩ := record_in_report hm
  have hwf : ∀ d, d ∈ ds → d.wf = true := by
    intro d hd
    rcases hds d hd with h | h
    · simp only [ParamDecl.plain, Bool.and_eq_true] at h
      exact h.1.1
    · simp only [ParamDecl.located, Bool.and_eq_true] at h
      exact h.1.1
  have hp : f.parameters = ds.map (fun d => { type := d.type, name := d.name }) := by
    obtain ⟨-, -, -, hp, -⟩ := analyzeFunction_header hf
    rw [hp, (clauses_of_match hm).1, hlist]
    exact extractParameters_decls ds hwf
  refine ⟨r, f, hr, hfr, hf, hp, ?_⟩
  intro d hd hloc
  simp only [ParamDecl.located, Bool.and_eq_true, Bool.not_eq_true',
    List.isEmpty_eq_false, List.contains_iff_exists_mem_beq, beq_iff_eq] at hloc
  refine ⟨?_, ?_, hloc.2, ?_⟩
  · rw [hp]
    exact List.mem_map.2 ⟨d, hd, rfl⟩
  · obtain ⟨k, hk, hkd⟩ := hloc.1.2
    rw [hkd]
    exact hk
  · intro p hpm hname
    rw [hp] at hpm
    obtain ⟨e, he, rfl⟩ := List.mem_map.1 hpm
    exact ⟨e, he, hname⟩

/-- Witness of C11 as amended: the parameter list `string memory label, uint256 amount`. -/
theorem location_keyword_becomes_name_witness :
    (⟨0, 49, [(2, "string memory label, uint256 amount".toList), (1, "f".toList)]⟩ : Match) ∈
        functionMatches locationSource ∧
      ∃ r f, ParseContractSource locationSource = some r ∧ f ∈ r.functions ∧
        f.parameters = [{ type := "string".toList, name := "memory".toList },
          { type := "uint256".toList, name := "amount".toList }] := by
  refine ⟨by decide!, ?_⟩
  obtain ⟨r, f, hr, hf, -, hp, -⟩ := location_keyword_becomes_name locationSource
    ⟨0, 49, [(2, "string memory label, uint256 amount".toList), (1, "f".toList)]⟩
    [{ lead := [], base := "string".toList, array := false, gap := " ".toList,
       name := "memory".toList, gap2 := " ".toList, third := "label".toList, trail := [] },
     { lead := " ".toList, base := "uint256".toList, array := false, gap := " ".toList,
       name := "amount".toList, gap2 := [], third := [], trail := [] }]
    (by decide!) (by decide!) (by decide!)
  exact ⟨r, f, hr, hf, hp⟩

/-! ## The state-variable pattern -/

theorem Regex.fails_alt {a b : Regex} {t : List Char} (ha : a.Fails t) (hb : b.Fails t) :
    (Regex.alt a b).Fails t := by
  intro prev caps k
  simp only [Regex.run]
  rw [ha prev caps k]
  exact hb prev caps k

theorem Regex.fails_seq_lit {l t : List Char} (b : Regex) (h : l.isPrefixOf t = false) :
    (Regex.seq (Regex.lit l) b).Fails t := by
  intro prev caps k
  rw [Regex.run_seq]
  exact Regex.fails_lit h prev caps _

/-- A keyword and blanks do not match at an identifier that is followed by a semicolon. -/
theorem fails_keyword_blanks (kw : List Char) {name : List Char} (R : List Char)
    (hkw : ∀ c, c ∈ kw → isWordChar c = true) (hname : ∀ c, c ∈ name → isWordChar c = true) :
    (Regex.seq (Regex.lit kw) (Regex.plus Regex.s)).Fails (name ++ ';' :: R) := by
  apply Regex.fails_of_derives
  intro w c tail hd ht
  obtain ⟨w1, sp, c1, c2, h1, h2, rfl, -⟩ := hd
  obtain ⟨rfl, -⟩ := Regex.derives_lit _ _ _ h1
  obtain ⟨hspn, hsp, -⟩ := Regex.derives_plus_cls h2
  have hl := dropWhile_append_stop (l := name) (t := ';' :: R) hname (by rfl)
  rw [ht, List.append_assoc, dropWhile_append_stop hkw (stopsAt_word_of_space hspn hsp _)] at hl
  cases sp with
  | nil => exact hspn rfl
  | cons x sp =>
    have hx := hsp x (List.mem_cons_self _ _)
    rw [List.cons_append] at hl
    injection hl with hx' _
    rw [hx'] at hx
    exact absurd hx (by decide)

/-- The first choice of the type alternatives at a type keyword that is followed by a blank. -/
theorem takes_typeKeyword {T : List Char} (hT : T ∈ typeKeywords) {g : Char}
    (hg : isSpaceChar g = true) (X : List Char) :
    (Regex.oneOf [.lit "uint256".toList, .lit "uint".toList, .lit "address".toList,
      .lit "bool".toList, .lit "string".toList, .lit "mapping".toList]).Takes T [] (g :: X) := by
  have h2 : ('2' == g) = false := by
    rw [beq_eq_false_iff_ne]
    rintro rfl
    exact absurd hg (by decide)
  simp only [typeKeywords, List.mem_cons, List.mem_singleton, List.not_mem_nil,
    or_false] at hT
  rcases hT with rfl | rfl | rfl | rfl | rfl | rfl
  · exact Regex.takes_alt_left _ (Regex.takes_lit _ _)
  · exact Regex.takes_alt_right (Regex.fails_lit (by simp [List.isPrefixOf, h2]))
      (Regex.takes_alt_left _ (Regex.takes_lit _ _))
  · exact Regex.takes_alt_right (Regex.fails_lit (by simp [List.isPrefixOf]))
      (Regex.takes_alt_right (Regex.fails_lit (by simp [List.isPrefixOf]))
        (Regex.takes_alt_left _ (Regex.takes_lit _ _)))
  · exact Regex.takes_alt_right (Regex.fails_lit (by simp [List.isPrefixOf]))
      (Regex.takes_alt_right (Regex.fails_lit (by simp [List.isPrefixOf]))
        (Regex.takes_alt_right (Regex.fails_lit (by simp [List.isPrefixOf]))
          (Regex.takes_alt_left _ (Regex.takes_lit _ _))))
  · exact Regex.takes_alt_right (Regex.fails_lit (by simp [List.isPrefixOf]))
      (Regex.takes_alt_right (Regex.fails_lit (by simp [List.isPrefixOf]))
        (Regex.takes_alt_right (Regex.fails_lit (by simp [List.isPrefixOf]))
          (Regex.takes_alt_right (Regex.fails_lit (by simp [List.isPrefixOf]))
            (Regex.takes_alt_left _ (Regex.takes_lit _ _)))))
  · exact Regex.takes_alt_right (Regex.fails_lit (by simp [List.isPrefixOf]))
      (Regex.takes_alt_right (Regex.fails_lit (by simp [List.isPrefixOf]))
        (Regex.takes_alt_right (Regex.fails_lit (by simp [List.isPrefixOf]))
          (Regex.takes_alt_right (Regex.fails_lit (by simp [List.isPrefixOf]))
            (Regex.takes_alt_right (Regex.fails_lit (by simp [List.isPrefixOf]))
              (Regex.takes_lit _ _)))))

/-- The first choice of the optional visibility of a state variable: the keyword and its
blanks when there is one, nothing when the identifier follows directly. -/
theorem takes_state_visibility {v gap2 name : List Char} (R : List Char)
    (hv : (v = [] ∧ gap2 = []) ∨
      (v ∈ stateVisibilityKeywords ∧ gap2 ≠ [] ∧ ∀ c, c ∈ gap2 → isSpaceChar c = true))
    (hnn : name ≠ []) (hname : ∀ c, c ∈ name → isWordChar c = true) :
    (Regex.opt (Regex.oneOf [.seq (.lit "public".toList) (.plus .s),
      .seq (.lit "private".toList) (.plus .s),
      .seq (.lit "internal".toList) (.plus .s)])).Takes (v ++ gap2) [] (name ++ ';' :: R) := by
  rcases hv with ⟨rfl, rfl⟩ | ⟨hv, hgn, hgap⟩
  · apply Regex.takes_alt_right _ (Regex.takes_eps _)
    exact Regex.fails_alt (fails_keyword_blanks _ R (by decide) hname)
      (Regex.fails_alt (fails_keyword_blanks _ R (by decide) hname)
        (fails_keyword_blanks _ R (by decide) hname))
  · apply Regex.takes_alt_left
    have hb : (Regex.plus Regex.s).Takes gap2 [] (name ++ ';' :: R) :=
      Regex.takes_plus_cls (stopsAt_space_of_word hnn hname _) hgn hgap
    simp only [stateVisibilityKeywords, List.mem_cons, List.mem_singleton, List.not_mem_nil,
      or_false] at hv
    rcases hv with rfl | rfl | rfl
    · exact Regex.takes_alt_left _ (Regex.takes_seq (Regex.takes_lit _ _) hb)
    · exact Regex.takes_alt_right (Regex.fails_seq_lit _ (by simp [List.isPrefixOf]))
        (Regex.takes_alt_left _ (Regex.takes_seq (Regex.takes_lit _ _) hb))
    · exact Regex.takes_alt_right (Regex.fails_seq_lit _ (by simp [List.isPrefixOf]))
        (Regex.takes_alt_right (Regex.fails_seq_lit _ (by simp [List.isPrefixOf]))
          (Regex.takes_seq (Regex.takes_lit _ _) hb))

theorem typeKeyword_head {T : List Char} (hT : T ∈ typeKeywords) :
    ∃ x rest, T = x :: rest ∧ isSpaceChar x = false ∧ x ≠ ';' := by
  simp only [typeKeywords, List.mem_cons, List.mem_singleton, List.not_mem_nil,
    or_false] at hT
  rcases hT with rfl | rfl | rfl | rfl | rfl | rfl <;>
    exact ⟨_, _, rfl, by decide, by decide⟩

theorem stateVisibility_head {v : List Char} (hv : v ∈ stateVisibilityKeywords) :
    ∃ x rest, v = x :: rest ∧ isSpaceChar x = false := by
  simp only [stateVisibilityKeywords, List.mem_cons, List.mem_singleton, List.not_mem_nil,
    or_false] at hv
  rcases hv with rfl | rfl | rfl <;> exact ⟨_, _, rfl, by decide⟩

theorem stateVarDecl_wf_spec {d : StateVarDecl} (h : d.wf = true) :
    (∀ c, c ∈ d.lead → isSpaceChar c = true) ∧ d.type ∈ typeKeywords ∧
      (d.gap ≠ [] ∧ ∀ c, c ∈ d.gap → isSpaceChar c = true) ∧
      ((d.visibility = [] ∧ d.gap2 = []) ∨
        (d.visibility ∈ stateVisibilityKeywords ∧ d.gap2 ≠ [] ∧
          ∀ c, c ∈ d.gap2 → isSpaceChar c = true)) ∧
      (d.name ≠ [] ∧ ∀ c, c ∈ d.name → isWordChar c = true) := by
  unfold StateVarDecl.wf at h
  simp only [Bool.and_eq_true, Bool.or_eq_true, Bool.not_eq_true', List.all_eq_true,
    List.isEmpty_eq_false, List.isEmpty_iff, List.contains_iff_exists_mem_beq,
    beq_iff_eq] at h
  obtain ⟨⟨⟨⟨⟨⟨h1, ⟨T, hT, hTd⟩⟩, h3⟩, h4⟩, h5⟩, h6⟩, h7⟩ := h
  refine ⟨h1, by rw [hTd]; exact hT, ⟨h3, h4⟩, ?_, ⟨h6, h7⟩⟩
  rcases h5 with h5 | ⟨⟨⟨v, hv, hvd⟩, hg⟩, hs⟩
  · exact Or.inl h5
  · exact Or.inr ⟨by rw [hvd]; exact hv, hg, hs⟩

/-- The first choice of the state-variable pattern at a declaration: everything up to the
semicolon. -/
theorem state_var_regex_takes {d : StateVarDecl} (hd : d.wf = true) (R : List Char) :
    state_var_regex.Takes
      (d.lead ++ (d.type ++ (d.gap ++ ((d.visibility ++ d.gap2) ++ d.name))))
      [(2, d.name), (1, d.type)] (';' :: R) := by
  obtain ⟨hlead, hT, ⟨hgn, hgap⟩, hvis, ⟨hnn, hname⟩⟩ := stateVarDecl_wf_spec hd
  obtain ⟨x, trest, hTx, hxs, -⟩ := typeKeyword_head hT
  have h1 : (Regex.star Regex.s).Takes d.lead []
      ((d.type ++ (d.gap ++ ((d.visibility ++ d.gap2) ++ d.name))) ++ ';' :: R) := by
    apply Regex.takes_star_cls _ d.lead hlead
    rw [hTx]
    simp only [List.cons_append, stopsAt, Bool.not_eq_true']
    exact hxs
  have h2 : (Regex.group 1 (Regex.oneOf [.lit "uint256".toList, .lit "uint".toList,
      .lit "address".toList, .lit "bool".toList, .lit "string".toList,
      .lit "mapping".toList])).Takes d.type [(1, d.type)]
      ((d.gap ++ ((d.visibility ++ d.gap2) ++ d.name)) ++ ';' :: R) := by
    apply Regex.takes_group 1
    cases hg : d.gap with
    | nil => exact absurd hg hgn
    | cons g gs =>
      rw [List.cons_append]
      exact takes_typeKeyword hT (hgap g (by rw [hg]; exact List.mem_cons_self _ _)) _
  have h3 : (Regex.plus Regex.s).Takes d.gap []
      (((d.visibility ++ d.gap2) ++ d.name) ++ ';' :: R) := by
    apply Regex.takes_plus_cls _ hgn hgap
    rcases hvis with ⟨hv, hg2⟩ | ⟨hv, -, -⟩
    · rw [hv, hg2, List.nil_append, List.nil_append]
      exact stopsAt_space_of_word hnn hname _
    · obtain ⟨y, vrest, hvy, hys⟩ := stateVisibility_head hv
      rw [hvy]
      simp only [List.cons_append, stopsAt, Bool.not_eq_true']
      exact hys
  have h4 := takes_state_visibility R hvis hnn hname
  have h5 : (Regex.group 2 (Regex.plus Regex.w)).Takes d.name [(2, d.name)] (';' :: R) :=
    Regex.takes_group 2 (Regex.takes_plus_cls (by rfl) hnn hname)
  have h45 := Regex.takes_seq h4 h5
  exact Regex.takes_seq h1 (Regex.takes_seq h2 (Regex.takes_seq h3 h45))

theorem state_var_regex_derives {w : List Char} {c : List (Nat × List Char)}
    (h : state_var_regex.Derives w c) :
    ∃ lead T rest, w = lead ++ (T ++ rest) ∧ (∀ x, x ∈ lead → isSpaceChar x = true) ∧
      T ∈ typeKeywords := by
  rw [state_var_regex] at h
  obtain ⟨lead, t1, c1, d1, h1, g1, rfl, rfl⟩ := Regex.derives_cat_cons h
  obtain ⟨hlead, rfl⟩ := Regex.derives_star_cls h1
  obtain ⟨T, rest, c2, d2, ⟨c2', h2, rfl⟩, -, rfl, rfl⟩ := Regex.derives_cat_cons g1
  obtain ⟨hT, -⟩ := Regex.derives_oneOf_lit typeKeywords T c2' (by decide) h2
  exact ⟨lead, T, rest, rfl, hlead, hT⟩

/-- The state-variable pattern matches nowhere in blanks that are followed by a semicolon or by
the end of the text. -/
theorem state_var_regex_fails {sp E : List Char} (hsp : ∀ c, c ∈ sp → isSpaceChar c = true)
    (hE : E = [] ∨ ∃ X, E = ';' :: X) : state_var_regex.Fails (sp ++ E) := by
  apply Regex.fails_of_derives
  intro w c tail hd ht
  obtain ⟨lead, T, rest, rfl, hlead, hT⟩ := state_var_regex_derives hd
  obtain ⟨x, trest, rfl, hxs, hx⟩ := typeKeyword_head hT
  have hEs : stopsAt isSpaceChar E = true := by
    rcases hE with rfl | ⟨X, rfl⟩ <;> rfl
  have hdead := dropWhile_append_stop hsp hEs
  have h1 : lead ++ (x :: trest ++ rest) ++ tail = lead ++ (x :: (trest ++ rest ++ tail)) := by
    simp
  have hst : stopsAt isSpaceChar (x :: (trest ++ rest ++ tail)) = true := by
    simp only [stopsAt, Bool.not_eq_true']
    exact hxs
  rw [ht, h1, dropWhile_append_stop hlead hst] at hdead
  rcases hE with rfl | ⟨X, rfl⟩
  · cases hdead
  · injection hdead with hx' _
    exact hx hx'

/-- The matches of the state-variable pattern in a source made of declarations: one for each
declaration, with its type and its identifier. -/
theorem regexScan_state_vars (trailing : List Char)
    (htr : ∀ c, c ∈ trailing → isSpaceChar c = true) :
    ∀ (ds : List StateVarDecl), (∀ d, d ∈ ds → d.wf = true) →
      ∀ (prev : Option Char) (pos : Nat),
        (regexScan state_var_regex prev (declarationsSource ds trailing) pos 0).map
          Match.caps = ds.map (fun d => [(2, d.name), (1, d.type)]) := by
  intro ds
  induction ds with
  | nil =>
    intro _ prev pos
    obtain ⟨p1, q1, h1⟩ := @regexScan_dead state_var_regex [] trailing
      (fun l2 _ hsuf => state_var_regex_fails (fun c hc => htr c (hsuf.subset hc))
        (Or.inl rfl)) prev pos
    rw [List.append_nil] at h1
    show (regexScan state_var_regex prev ([] ++ trailing) pos 0).map Match.caps = _
    rw [List.nil_append, h1]
    rfl
  | cons d ds ih =>
    intro h prev pos
    have hd := h d (List.mem_cons_self _ _)
    obtain ⟨-, hT, -, -, -⟩ := stateVarDecl_wf_spec hd
    obtain ⟨x, trest, hTx, -, -⟩ := typeKeyword_head hT
    have htext : declarationsSource (d :: ds) trailing =
        (d.lead ++ (d.type ++ (d.gap ++ ((d.visibility ++ d.gap2) ++ d.name)))) ++
          ';' :: declarationsSource ds trailing := by
      simp [declarationsSource, StateVarDecl.text]
    have hw : d.lead ++ (d.type ++ (d.gap ++ ((d.visibility ++ d.gap2) ++ d.name))) ≠ [] := by
      rw [hTx]; simp
    have hm := matchHere_of_takes (state_var_regex_takes hd (declarationsSource ds trailing))
      prev
    obtain ⟨p1, q1, h1⟩ := regexScan_match hw prev pos hm
    have hf := matchHere_none_of_fails
      (@state_var_regex_fails [] _ (by simp)
        (Or.inr ⟨declarationsSource ds trailing, rfl⟩)) p1
    simp only [List.nil_append] at hf
    rw [htext, h1, List.map_cons, regexScan, if_neg (Nat.lt_irrefl 0), hf,
      ih (fun x hx => h x (List.mem_cons_of_mem _ hx))]
    rfl

/-- Claim C18.  For every source that is a sequence of `k` declarations `T V;` or `T vis V;`
separated by blanks and followed by blanks, where each `T` is one of uint256, uint, address,
bool, string, mapping, `vis` is one of public, private, internal, and each `V` is an
identifier, the analysis returns a report whose state variables are `V_1, ..., V_k` in the
order of appearance, one entry for each declaration, so that an identifier declared twice is
recorded twice. -/
theorem stateVariables_of_declarations (ds : List StateVarDecl) (trailing : List Char)
    (hds : ∀ d, d ∈ ds → d.wf = true) (htr : ∀ c, c ∈ trailing → isSpaceChar c = true) :
    ∃ r, ParseContractSource (declarationsSource ds trailing) = some r ∧
      r.stateVariables = ds.map StateVarDecl.name ∧
      r.stateVariables.length = ds.length := by
  obtain ⟨r, hr, -, -, -, hsv, -⟩ := ParseContractSource_fields (declarationsSource ds trailing)
  have hs := regexScan_state_vars trailing htr ds hds none 0
  have hmap : ∀ l : List Match, l.map (fun m => m.sub 2) =
      (l.map Match.caps).map (fun c => Match.sub ⟨0, 0, c⟩ 2) := by
    intro l
    rw [List.map_map]
    rfl
  have hvars : r.stateVariables = ds.map StateVarDecl.name := by
    rw [hsv]
    unfold regexIterate
    rw [hmap, hs, List.map_map]
    rfl
  exact ⟨r, hr, hvars, by rw [hvars, List.length_map]⟩

/-- Witness of C18: four declarations, two of them of the same identifier. -/
theorem stateVariables_of_declarations_witness :
    declarationsSource
        [{ lead := [], type := "uint256".toList, gap := " ".toList,
           visibility := "public".toList, gap2 := " ".toList, name := "total".toList },
         { lead := " ".toList, type := "uint".toList, gap := " ".toList,
           visibility := [], gap2 := [], name := "x".toList },
         { lead := "\n".toList, type := "bool".toList, gap := "  ".toList,
           visibility := "internal".toList, gap2 := "\t".toList, name := "public".toList },
         { lead := [], type := "uint".toList, gap := " ".toList,
           visibility := [], gap2 := [], name := "x".toList }] "\n".toList =
      "uint256 public total; uint x;\nbool  internal\tpublic;uint x;\n".toList ∧
    ∃ r, ParseContractSource
        "uint256 public total; uint x;\nbool  internal\tpublic;uint x;\n".toList = some r ∧
      r.stateVariables = ["total".toList, "x".toList, "public".toList, "x".toList] := by
  obtain ⟨r, hr, hv, -⟩ := stateVariables_of_declarations
    [{ lead := [], type := "uint256".toList, gap := " ".toList,
       visibility := "public".toList, gap2 := " ".toList, name := "total".toList },
     { lead := " ".toList, type := "uint".toList, gap := " ".toList,
       visibility := [], gap2 := [], name := "x".toList },
     { lead := "\n".toList, type := "bool".toList, gap := "  ".toList,
       visibility := "internal".toList, gap2 := "\t".toList, name := "public".toList },
     { lead := [], type := "uint".toList, gap := " ".toList,
       visibility := [], gap2 := [], name := "x".toList }] "\n".toList
    (by decide!) (by decide!)
  exact ⟨by decide!, r, hr, hv⟩

/-! ## Assignment statements -/

theorem containsText_iff_occurs (needle : List Char) :
    ∀ t : List Char, containsText needle t = true ↔ needle <:+: t := by
  intro t
  induction t with
  | nil =>
    rw [containsText, List.isPrefixOf_iff_prefix]
    constructor
    · intro h; exact h.isInfix
    · intro h
      have := List.eq_nil_of_infix_nil h
      rw [this]
  | cons c cs ih =>
    rw [containsText, Bool.or_eq_true, List.isPrefixOf_iff_prefix, ih, List.infix_cons_iff]

/-- A text whose characters all differ from the first character of `needle` holds no
`needle`. -/
theorem containsText_lacking {a : Char} {needle u : List Char} (hu : ∀ c, c ∈ u → c ≠ a) :
    containsText (a :: needle) u = false := by
  cases h : containsText (a :: needle) u with
  | false => rfl
  | true =>
    obtain ⟨s, t, hst⟩ := (containsText_iff_occurs _ _).1 h
    exact absurd rfl (hu a (by rw [← hst]; simp))

end GasGuardian
